import Mathlib

/-!
# tinyrebuilder: the compiled-regexp cache, the builders and the patterns

A shallow embedding of `cache.go` (`MustCompileWithCache`, `PurgeCache`,
`SetCacheSize`), of `engine.go`, `dsl.go` and `bytecode.go`, of `IPv4` and `URL`
of `patterns/blueprints.go`, of the LRU container the package-level variable
`cache` holds, and of the part of the standard library's `regexp` syntax and
matching the two patterns are written in.

Conventions.

* A Go `string` is a `String`, a Go `int` is an `Int` (no arithmetic is done on
  sizes, they are only compared), a Go `error` is its message.
* `panic(err)` is the `Except.error err` result of the call.
* A `*Regexp` is a `Regexp` record carrying the address of the heap object next
  to its (immutable) contents: two pointers are the same pointer exactly when
  their `addr` fields are equal. `&Regexp{...}` takes the next unused address of
  the `State`.
* The package-level variable `cache` is the `cache` field of `State`.
* For the cache a builder is the text it holds (`RegexBuilder`). Where builders
  are mutated (`Compile`, `Or`, the emitters) a `*RegexBuilder` is a
  `RegexBuilderPtr`: the address of the `RegexBuilder` object next to its only
  field, the address of a `strings.Builder` in a `Heap` that also holds the
  package-level `builderPool`. Two builders are the same builder exactly when
  their `addr` fields are equal; distinct builders can hold the same
  `strings.Builder`.
* Where a pattern is matched, `regexp.Compile` is `regexpCompile syntaxParse`: the
  compiled program is the parsed expression, and a text is a list of
  characters.
-/

namespace tinyrebuilder

/-! ## Standard library `regexp` -/

/-- The standard library's `regexp.Regexp`: the source text `expr` given to
`regexp.Compile` and the compiled program. The program type `P` is left
abstract. -/
structure GoRegexp (P : Type) where
  expr : String
  prog : P
  deriving DecidableEq, Repr

/-- The standard library's `regexp.Compile(expr)`: parse and compile `expr`
(both done by the parameter `parse`, which fails on a malformed expression) and
keep the source text in the result. -/
def regexpCompile {P : Type} (parse : String → Except String P) (expr : String) :
    Except String (GoRegexp P) :=
  match parse expr with
  | .error err => .error err
  | .ok prog => .ok { expr := expr, prog := prog }

/-- The standard library's `(*regexp.Regexp).String`: the source text. -/
def GoRegexp.String {P : Type} (re : GoRegexp P) : String := re.expr

/-! ### Regular expressions

The syntax and the matching of the standard library's `regexp` package (the RE2
syntax), for the constructs the patterns of `patterns/blueprints.go` are made
of: literals, escaped punctuation, character classes, groups, alternation,
repetition and the anchors `^` and `$`. Anything else (flags, word boundaries,
Unicode and POSIX classes) is rejected as unsupported. Whether a string is
matched does not depend on greediness or on which groups capture, which are
therefore left out. -/

/-- A parsed regular expression: the empty expression, a character class (negated
or not, as a list of ranges), the beginning and the end of the text, a
concatenation, an alternation, a repetition. `x?`, `x+` and the counted
repetitions are written with these. -/
inductive Re where
  | empty
  | cls (neg : Bool) (ranges : List (Char × Char))
  | bol
  | eol
  | cat (a b : Re)
  | alt (a b : Re)
  | star (a : Re)
  deriving DecidableEq, Repr

/-- `n` copies of `a`, one after the other. -/
def Re.times : Nat → Re → Re
  | 0, _ => .empty
  | n + 1, a => .cat a (Re.times n a)

/-- A literal character. -/
def Re.lit (c : Char) : Re := .cls false [(c, c)]

/-- An ASCII digit. -/
def isDigitChar (c : Char) : Bool := '0' ≤ c && c ≤ '9'

/-- An ASCII letter or digit. -/
def isAlnum (c : Char) : Bool :=
  ('0' ≤ c && c ≤ '9') || ('a' ≤ c && c ≤ 'z') || ('A' ≤ c && c ≤ 'Z')

/-- The decimal number at the head of the text, and the rest of the text. -/
def parseNumber : List Char → Nat → Nat × List Char
  | c :: rest, acc => if isDigitChar c then parseNumber rest (acc * 10 + (c.toNat - 48)) else (acc, c :: rest)
  | [], acc => (acc, [])

/-- A repetition count `{n}`, `{n,}` or `{n,m}`, read after its opening brace: the
minimum, the kind (`none` for `{n}`, `some none` for `{n,}`, `some (some m)` for
`{n,m}`) and the rest of the text. -/
def parseRepeatSpec (s : List Char) : Option (Nat × Option (Option Nat) × List Char) :=
  match s with
  | c :: _ =>
    if isDigitChar c then
      match parseNumber s 0 with
      | (n, '}' :: rest) => some (n, none, rest)
      | (n, ',' :: '}' :: rest) => some (n, some none, rest)
      | (n, ',' :: d :: rest) =>
        if isDigitChar d then
          match parseNumber (d :: rest) 0 with
          | (m, '}' :: rest1) => some (n, some (some m), rest1)
          | _ => none
        else none
      | _ => none
    else none
  | [] => none

/-- The counted repetition of `a`. -/
def Re.repeated (a : Re) (n : Nat) : Option (Option Nat) → Re
  | none => Re.times n a
  | some none => .cat (Re.times n a) (.star a)
  | some (some m) => .cat (Re.times n a) (Re.times (m - n) (.alt a .empty))

/-- Whether the text starts with a repetition operator. -/
def isRepeatOp (s : List Char) : Bool :=
  match s with
  | '*' :: _ => true
  | '+' :: _ => true
  | '?' :: _ => true
  | '{' :: rest => (parseRepeatSpec rest).isSome
  | _ => false

/-- After a repetition operator: a `?` (the non-greedy mark) is skipped, and a
further repetition operator is an error. -/
def finishRepeat (r : Re) (s : List Char) : Except String (Re × List Char) :=
  let s1 := match s with
    | '?' :: rest => rest
    | _ => s
  if isRepeatOp s1 then .error "invalid nested repetition operator" else .ok (r, s1)

/-- The repetition operator after an atom, if there is one. A brace that does not
open a repetition count is left as a literal. -/
def applyPostfix (a : Re) (s : List Char) : Except String (Re × List Char) :=
  match s with
  | '*' :: rest => finishRepeat (.star a) rest
  | '+' :: rest => finishRepeat (.cat a (.star a)) rest
  | '?' :: rest => finishRepeat (.alt a .empty) rest
  | '{' :: rest =>
    match parseRepeatSpec rest with
    | some (n, spec, rest1) =>
      if n > 1000 then .error "invalid repeat count"
      else
        match spec with
        | some (some m) =>
          if m > 1000 || m < n then .error "invalid repeat count"
          else finishRepeat (a.repeated n spec) rest1
        | _ => finishRepeat (a.repeated n spec) rest1
    | none => .ok (a, s)
  | _ => .ok (a, s)

/-- The Perl classes `\d \D \w \W \s \S`. -/
def perlClass (c : Char) : Option (Bool × List (Char × Char)) :=
  match c with
  | 'd' => some (false, [('0', '9')])
  | 'D' => some (true, [('0', '9')])
  | 'w' => some (false, [('0', '9'), ('A', 'Z'), ('_', '_'), ('a', 'z')])
  | 'W' => some (true, [('0', '9'), ('A', 'Z'), ('_', '_'), ('a', 'z')])
  | 's' => some (false, [('\t', '\n'), ('\x0c', '\r'), (' ', ' ')])
  | 'S' => some (true, [('\t', '\n'), ('\x0c', '\r'), (' ', ' ')])
  | _ => none

/-- The character an escape `\c` stands for: `c` itself when it is ASCII
punctuation, a control character for `\t \n \r \f \v \a`. -/
def escapeChar (c : Char) : Option Char :=
  if c.toNat < 128 && !isAlnum c then some c
  else match c with
    | 't' => some '\t'
    | 'n' => some '\n'
    | 'r' => some '\r'
    | 'f' => some '\x0c'
    | 'v' => some '\x0b'
    | 'a' => some '\x07'
    | _ => none

/-- One character of a character class, escaped or not, and the rest of the
text. -/
def classChar (s : List Char) : Except String (Char × List Char) :=
  match s with
  | '\\' :: c :: rest =>
    match escapeChar c with
    | some d => .ok (d, rest)
    | none => .error "unsupported escape in character class"
  | '\\' :: [] => .error "trailing backslash at end of expression"
  | c :: rest => .ok (c, rest)
  | [] => .error "missing closing ]"

/-- The ranges of a character class, read after `[` or `[^` up to the closing `]`.
A `]` in first place and a `-` in last place are literal. -/
def parseClass : Nat → Bool → List (Char × Char) → List Char →
    Except String (List (Char × Char) × List Char)
  | 0, _, _, _ => .error "missing closing ]"
  | fuel + 1, first, acc, s =>
    match s with
    | [] => .error "missing closing ]"
    | ']' :: rest =>
      if first then parseClass fuel false (acc ++ [(']', ']')]) rest
      else .ok (acc, rest)
    | '[' :: ':' :: _ => .error "unsupported: POSIX class"
    | '\\' :: 'd' :: rest => parseClass fuel false (acc ++ [('0', '9')]) rest
    | '\\' :: 'w' :: rest =>
      parseClass fuel false (acc ++ [('0', '9'), ('A', 'Z'), ('_', '_'), ('a', 'z')]) rest
    | '\\' :: 's' :: rest =>
      parseClass fuel false (acc ++ [('\t', '\n'), ('\x0c', '\r'), (' ', ' ')]) rest
    | _ =>
      match classChar s with
      | .error e => .error e
      | .ok (lo, s1) =>
        match s1 with
        | '-' :: c :: rest1 =>
          if c = ']' then parseClass fuel false (acc ++ [(lo, lo)]) s1
          else
            match classChar (c :: rest1) with
            | .error e => .error e
            | .ok (hi, s2) =>
              if hi < lo then .error "invalid character class range"
              else parseClass fuel false (acc ++ [(lo, hi)]) s2
        | _ => parseClass fuel false (acc ++ [(lo, lo)]) s1

/-- The text after the name of a named group, `name>`. -/
def skipName : List Char → Option (List Char)
  | '>' :: rest => some rest
  | c :: rest => if isAlnum c || c = '_' then skipName rest else none
  | [] => none

mutual
/-- An alternation `a|b|...`, up to the end of the text or a closing
parenthesis. The first argument bounds the depth of the calls. -/
def parseAlt : Nat → List Char → Except String (Re × List Char)
  | 0, _ => .error "expression too deep"
  | fuel + 1, s =>
    match parseSeq fuel s with
    | .error e => .error e
    | .ok (a, '|' :: s1) =>
      match parseAlt fuel s1 with
      | .error e => .error e
      | .ok (b, s2) => .ok (.alt a b, s2)
    | .ok (a, s1) => .ok (a, s1)
/-- A concatenation of repeated atoms, up to `|`, `)` or the end of the text. -/
def parseSeq : Nat → List Char → Except String (Re × List Char)
  | 0, _ => .error "expression too deep"
  | fuel + 1, s =>
    match s with
    | [] => .ok (.empty, s)
    | '|' :: _ => .ok (.empty, s)
    | ')' :: _ => .ok (.empty, s)
    | _ =>
      match parseAtom fuel s with
      | .error e => .error e
      | .ok (a, s1) =>
        match applyPostfix a s1 with
        | .error e => .error e
        | .ok (a1, s2) =>
          match parseSeq fuel s2 with
          | .error e => .error e
          | .ok (b, s3) => .ok (.cat a1 b, s3)
/-- One atom: a group, a character class, `.`, an anchor, an escape or a literal
character. -/
def parseAtom : Nat → List Char → Except String (Re × List Char)
  | 0, _ => .error "expression too deep"
  | fuel + 1, s =>
    match s with
    | [] => .error "missing argument"
    | '(' :: '?' :: ':' :: rest => parseGroup fuel rest
    | '(' :: '?' :: 'P' :: '<' :: rest =>
      match skipName rest with
      | some rest1 => parseGroup fuel rest1
      | none => .error "invalid named capture"
    | '(' :: '?' :: _ => .error "unsupported: flags"
    | '(' :: rest => parseGroup fuel rest
    | '[' :: '^' :: rest =>
      match parseClass (rest.length + 1) true [] rest with
      | .error e => .error e
      | .ok (rs, rest1) => .ok (.cls true rs, rest1)
    | '[' :: rest =>
      match parseClass (rest.length + 1) true [] rest with
      | .error e => .error e
      | .ok (rs, rest1) => .ok (.cls false rs, rest1)
    | '.' :: rest => .ok (.cls true [('\n', '\n')], rest)
    | '^' :: rest => .ok (.bol, rest)
    | '$' :: rest => .ok (.eol, rest)
    | '*' :: _ => .error "missing argument to repetition operator"
    | '+' :: _ => .error "missing argument to repetition operator"
    | '?' :: _ => .error "missing argument to repetition operator"
    | '\\' :: [] => .error "trailing backslash at end of expression"
    | '\\' :: c :: rest =>
      match perlClass c with
      | some (neg, rs) => .ok (.cls neg rs, rest)
      | none =>
        match c with
        | 'A' => .ok (.bol, rest)
        | 'z' => .ok (.eol, rest)
        | _ =>
          match escapeChar c with
          | some d => .ok (Re.lit d, rest)
          | none => .error "unsupported escape sequence"
    | c :: rest => .ok (Re.lit c, rest)
/-- The inside of a group and its closing parenthesis. -/
def parseGroup : Nat → List Char → Except String (Re × List Char)
  | 0, _ => .error "expression too deep"
  | fuel + 1, s =>
    match parseAlt fuel s with
    | .error e => .error e
    | .ok (a, ')' :: rest) => .ok (a, rest)
    | .ok _ => .error "missing closing )"
end

/-- The standard library's parser, as `regexp.Compile` calls it: the parsed
expression, or the error. -/
def syntaxParse (s : String) : Except String Re :=
  match parseAlt (4 * s.length + 8) s.data with
  | .error e => .error e
  | .ok (a, []) => .ok a
  | .ok _ => .error "unexpected )"

/-- Whether a character is in a character class. -/
def clsMatch (neg : Bool) (ranges : List (Char × Char)) (c : Char) : Bool :=
  (ranges.any (fun r => r.1 ≤ c && c ≤ r.2)) != neg

/-- A position in the text: whether it is the beginning of the text, and the text
from there on. -/
abbrev Pos := Bool × List Char

/-- The positions a repetition of `f` can reach: the position itself, and those
reached after one more turn that has consumed something. -/
def starLoop (f : Pos → List Pos) : Nat → Pos → List Pos
  | 0, st => [st]
  | n + 1, st =>
    st :: ((f st).filter (fun st1 => st1.2.length < st.2.length)).flatMap (starLoop f n)

/-- The positions at which a match of the expression starting at `st` can end. -/
def Re.ends : Re → Pos → List Pos
  | .empty, st => [st]
  | .cls neg rs, st =>
    match st.2 with
    | c :: cs => if clsMatch neg rs c then [(false, cs)] else []
    | [] => []
  | .bol, st => if st.1 then [st] else []
  | .eol, st => if st.2.isEmpty then [st] else []
  | .cat a b, st => (a.ends st).flatMap b.ends
  | .alt a b, st => a.ends st ++ b.ends st
  | .star a, st => starLoop a.ends st.2.length st

/-- Whether the expression matches starting at offset `i` of the text. -/
def Re.matchAt (r : Re) (s : List Char) (i : Nat) : Bool :=
  !(r.ends (i == 0, s.drop i)).isEmpty

/-- The standard library's `MatchString` on the parsed expression: whether the
expression matches somewhere in the text. -/
def Re.IsMatch (r : Re) (s : List Char) : Bool :=
  (List.range (s.length + 1)).any (r.matchAt s)

/-- A Go `string`, under a name that the `String` methods of the regexp types do
not hide. -/
abbrev GoString : Type := String

/-- The standard library's `(*regexp.Regexp).MatchString`. -/
def GoRegexp.MatchString (re : GoRegexp Re) (s : GoString) : Bool :=
  re.prog.IsMatch s.data

/-! ## `bytecode.go` -/

/-- A pointer to a `Regexp` wrapper (`bytecode.go`): the address of the object and
its only field `re`. -/
structure Regexp (P : Type) where
  addr : Nat
  re : GoRegexp P
  deriving DecidableEq, Repr

/-- `(*Regexp).String` of `bytecode.go`: `r.re.String()`. -/
def Regexp.String {P : Type} (r : Regexp P) : String := r.re.String

/-- `(*Regexp).IsMatch` of `bytecode.go`: `r.re.MatchString(s)`. -/
def Regexp.IsMatch (r : Regexp Re) (s : GoString) : Bool := r.re.MatchString s

/-- `(*Regexp).MatchString` of `bytecode.go`: `r.re.MatchString(s)`. -/
def Regexp.MatchString (r : Regexp Re) (s : GoString) : Bool := r.re.MatchString s

/-! ## `engine.go` -/

/-- A `RegexBuilder` of `engine.go`, reduced to the text its `strings.Builder`
holds. -/
structure RegexBuilder where
  builder : String
  deriving DecidableEq, Repr

/-- `(*RegexBuilder).Build`: `r.builder.String()`. -/
def RegexBuilder.Build (r : RegexBuilder) : String := r.builder

/-! ## The LRU container `github.com/hashicorp/golang-lru` -/

/-- An element of the eviction list: the `entry` struct of the LRU package. -/
structure entry (V : Type) where
  key : String
  value : V
  deriving DecidableEq, Repr

/-- Modelled from the spec: the LRU container `lru.Cache` of the imported package
`github.com/hashicorp/golang-lru`, whose source is not part of the repository.
It is the spec's Cache: a capacity `size`, and the entries in recency order
(`evictList`, most recently used first, least recently used last). The package's
key index `items` is the lookup of an entry of `evictList` by its key. -/
structure LRU (V : Type) where
  size : Int
  evictList : List (entry V)
  deriving DecidableEq, Repr

/-- Modelled from the spec: `lru.New(size)`, which fails on a non-positive size and
otherwise gives an empty cache of capacity `size`. -/
def LRU.New {V : Type} (size : Int) : Except String (LRU V) :=
  if size ≤ 0 then .error "Must provide a positive size"
  else .ok { size := size, evictList := [] }

/-- Number of resident entries (`Len`). -/
def LRU.Len {V : Type} (c : LRU V) : Nat := c.evictList.length

/-- The entry stored under `key`, if any (`c.items[key]`). -/
def LRU.lookup {V : Type} (c : LRU V) (key : String) : Option (entry V) :=
  c.evictList.find? (fun e => e.key == key)

/-- Whether `key` is resident. -/
def LRU.Contains {V : Type} (c : LRU V) (key : String) : Bool :=
  (c.lookup key).isSome

/-- The resident keys, most recently used first. -/
def LRU.Keys {V : Type} (c : LRU V) : List String := c.evictList.map (fun e => e.key)

/-- Modelled from the spec: `Get(key)`. On a hit the entry is marked most recently
used (moved to the front of `evictList`) and its value returned; on a miss
nothing changes. -/
def LRU.Get {V : Type} (c : LRU V) (key : String) : Option V × LRU V :=
  match c.lookup key with
  | some ent =>
    (some ent.value,
      { c with evictList := ent :: c.evictList.eraseP (fun e => e.key == key) })
  | none => (none, c)

/-- Modelled from the spec: eviction of the least recently used entry, the last one
of `evictList`. -/
def LRU.removeOldest {V : Type} (c : LRU V) : LRU V :=
  { c with evictList := c.evictList.dropLast }

/-- Modelled from the spec: `Add(key, value)`. An existing entry gets the new value
and becomes most recently used. Otherwise the new entry is inserted as most
recently used and, if that exceeds the capacity, the least recently used entry
is evicted (one eviction per insertion). The result says whether an eviction
took place. -/
def LRU.Add {V : Type} (c : LRU V) (key : String) (value : V) : Bool × LRU V :=
  match c.lookup key with
  | some _ =>
    (false,
      { c with evictList :=
          { key := key, value := value } :: c.evictList.eraseP (fun e => e.key == key) })
  | none =>
    let c1 : LRU V := { c with evictList := { key := key, value := value } :: c.evictList }
    let evict : Bool := decide ((c1.evictList.length : Int) > c1.size)
    if evict then (evict, c1.removeOldest) else (evict, c1)

/-- Modelled from the spec: `Purge()`, which empties the mapping and the recency
order and keeps the capacity. -/
def LRU.Purge {V : Type} (c : LRU V) : LRU V :=
  { c with evictList := [] }

/-! ## `cache.go` -/

/-- `defaultCacheSize` of `cache.go`. -/
def defaultCacheSize : Int := 128

/-- The value left in `cache` by `cache, _ = lru.New(n)`: the new cache, the error
being discarded. On an error the Go variable would hold a nil pointer; the
stand-in for it is a cache of capacity 0. -/
def newCacheIgnoringError {V : Type} (size : Int) : LRU V :=
  match (LRU.New size : Except String (LRU V)) with
  | .ok c => c
  | .error _ => { size := 0, evictList := [] }

/-- The state the package works on: the package-level variable `cache`, the next
unused heap address for `&Regexp{...}`, and the number of calls made to
`regexp.Compile` so far. -/
structure State (P : Type) where
  cache : LRU (Regexp P)
  nextAddr : Nat
  compileCalls : Nat
  deriving DecidableEq, Repr

/-- The state after package initialisation: `cache, _ = lru.New(defaultCacheSize)`. -/
def State.init {P : Type} : State P :=
  { cache := newCacheIgnoringError defaultCacheSize, nextAddr := 0, compileCalls := 0 }

/-- `(*RegexBuilder).MustCompileWithCache` of `cache.go`. The type assertion
`val.(*Regexp)` always succeeds, the cache holding nothing but `*Regexp` values.
The result is the returned pointer, or the error the call panics with. -/
def MustCompileWithCache {P : Type} (parse : String → Except String P)
    (r : RegexBuilder) (s : State P) : Except String (Regexp P) × State P :=
  let pattern := r.Build
  match s.cache.Get pattern with
  | (some re, c) => (.ok re, { s with cache := c })
  | (none, c) =>
    match regexpCompile parse pattern with
    | .error err => (.error err, { s with cache := c, compileCalls := s.compileCalls + 1 })
    | .ok re =>
      let wrappedRe : Regexp P := { addr := s.nextAddr, re := re }
      (.ok wrappedRe,
        { cache := (c.Add pattern wrappedRe).2
          nextAddr := s.nextAddr + 1
          compileCalls := s.compileCalls + 1 })

/-- `PurgeCache` of `cache.go`. -/
def PurgeCache {P : Type} (s : State P) : State P :=
  { s with cache := s.cache.Purge }

/-- `SetCacheSize` of `cache.go`. The result is the returned error (`none` for
`nil`) and the state left behind. -/
def SetCacheSize {P : Type} (size : Int) (s : State P) : Option String × State P :=
  if size ≤ 0 then (some "cache size must be positive", s)
  else
    match (LRU.New size : Except String (LRU (Regexp P))) with
    | .ok c => (none, { s with cache := c })
    | .error err => (some err, { s with cache := newCacheIgnoringError defaultCacheSize })

/-! ## Builders as heap objects: `engine.go` and `dsl.go`

`RegexBuilder` methods mutate the `strings.Builder` their receiver points to, and
`Compile` and `Or` exchange such objects with the package-level `builderPool`.
Here the `strings.Builder` objects live in a `Heap`, and a `*RegexBuilder` is the
address of the `RegexBuilder` object together with the address of the
`strings.Builder` in its field (the field is set once, at construction). -/

/-- The `strings.Builder` objects of the program, by address, and the
package-level `builderPool`: `buf` is the text each object holds, `next` the
next unused address, `pool` the objects the pool holds. `builders` is the
number of `RegexBuilder` objects made so far, the address of the next one. -/
structure Heap where
  buf : Nat → String
  next : Nat
  pool : List Nat
  builders : Nat

/-- The heap at program start: no object allocated, an empty pool. -/
def Heap.init : Heap := { buf := fun _ => "", next := 0, pool := [], builders := 0 }

/-- `(*strings.Builder).String()` of the object at address `b`. -/
def Heap.contents (h : Heap) (b : Nat) : String := h.buf b

/-- `(*strings.Builder).WriteString(s)` on the object at address `b`. -/
def Heap.WriteString (h : Heap) (b : Nat) (s : String) : Heap :=
  { h with buf := Function.update h.buf b (h.buf b ++ s) }

/-- `(*strings.Builder).Reset()` on the object at address `b`. -/
def Heap.Reset (h : Heap) (b : Nat) : Heap :=
  { h with buf := Function.update h.buf b "" }

/-- `&strings.Builder{}`: a new, empty object at the next unused address. -/
def Heap.alloc (h : Heap) : Nat × Heap :=
  (h.next, { h with buf := Function.update h.buf h.next "", next := h.next + 1 })

/-- `builderPool.Get()`. A `sync.Pool` hands out an arbitrary pooled object, or
ignores its contents and calls `New` (here `&strings.Builder{}`): `choice` is
the position of the object handed out, `none` (or a position the pool does not
have) standing for a call of `New`. -/
def Heap.poolGet (choice : Option Nat) (h : Heap) : Nat × Heap :=
  match choice with
  | none => h.alloc
  | some i =>
    match h.pool[i]? with
    | some b => (b, { h with pool := h.pool.eraseIdx i })
    | none => h.alloc

/-- `builderPool.Put(b)`. -/
def Heap.poolPut (h : Heap) (b : Nat) : Heap :=
  { h with pool := b :: h.pool }

/-- A `*RegexBuilder`: the address `addr` of the `RegexBuilder` object, and the
address of the `strings.Builder` in its field `builder`, which no method
assigns to. Two pointers are the same builder exactly when their `addr` fields
are equal. -/
structure RegexBuilderPtr where
  addr : Nat
  builder : Nat
  deriving DecidableEq, Repr

/-- `&RegexBuilder{builder: b}`: a new `RegexBuilder` object, at the next unused
address, whose field holds `b`. -/
def Heap.newBuilder (h : Heap) (b : Nat) : RegexBuilderPtr × Heap :=
  ({ addr := h.builders, builder := b }, { h with builders := h.builders + 1 })

/-- `New` of `engine.go`: a new builder on the object `builderPool.Get()` gives. -/
def New (choice : Option Nat) (h : Heap) : RegexBuilderPtr × Heap :=
  (h.poolGet choice).2.newBuilder (h.poolGet choice).1

/-- `(*RegexBuilder).Build` of `engine.go`, on the heap: `r.builder.String()`. -/
def RegexBuilderPtr.Build (r : RegexBuilderPtr) (h : Heap) : String :=
  h.contents r.builder

/-- The builder as `MustCompileWithCache` sees it: the text it holds now. -/
def RegexBuilderPtr.deref (r : RegexBuilderPtr) (h : Heap) : RegexBuilder :=
  { builder := h.contents r.builder }

/-- `(*RegexBuilder).Compile` of `engine.go`: the text is read, the
`strings.Builder` reset and put into the pool, and the text compiled. The result
is the returned pair (`none` for `nil`), the heap and the state. -/
def RegexBuilderPtr.Compile {P : Type} (parse : String → Except String P)
    (r : RegexBuilderPtr) (h : Heap) (st : State P) :
    (Option (Regexp P) × Option String) × Heap × State P :=
  let s := h.contents r.builder
  let h1 := h.Reset r.builder
  let h2 := h1.poolPut r.builder
  match regexpCompile parse s with
  | .error err => ((none, some err), h2, { st with compileCalls := st.compileCalls + 1 })
  | .ok re =>
    ((some { addr := st.nextAddr, re := re }, none), h2,
      { st with nextAddr := st.nextAddr + 1, compileCalls := st.compileCalls + 1 })

/-- `(*RegexBuilder).MustCompile` of `engine.go`: `Compile`, panicking on an
error. The result is the returned pointer, or the error the call panics with
(a nil pointer next to a nil error, which `Compile` never returns, has the
stand-in error `nil`). -/
def RegexBuilderPtr.MustCompile {P : Type} (parse : String → Except String P)
    (r : RegexBuilderPtr) (h : Heap) (st : State P) :
    Except String (Regexp P) × Heap × State P :=
  match r.Compile parse h st with
  | ((_, some err), h1, st1) => (.error err, h1, st1)
  | ((some re, none), h1, st1) => (.ok re, h1, st1)
  | ((none, none), h1, st1) => (.error "nil", h1, st1)

/-- `(*RegexBuilder).MustCompileWithCache` of `cache.go` on a builder of the heap:
the builder is only read (`r.Build()`), the heap is left as it is. -/
def RegexBuilderPtr.MustCompileWithCache {P : Type} (parse : String → Except String P)
    (r : RegexBuilderPtr) (h : Heap) (st : State P) :
    Except String (Regexp P) × State P :=
  tinyrebuilder.MustCompileWithCache parse (r.deref h) st

/-- `(*RegexBuilder).Raw` of `dsl.go`. -/
def RegexBuilderPtr.Raw (r : RegexBuilderPtr) (s : String) (h : Heap) :
    RegexBuilderPtr × Heap :=
  (r, h.WriteString r.builder s)

/-- One turn of the loop of `Or`, writing into `newBuilder`: a `|`, then
`group.Build()`. -/
def orStep (newBuilder : Nat) (h : Heap) (group : RegexBuilderPtr) : Heap :=
  (h.WriteString newBuilder "|").WriteString newBuilder
    (group.Build (h.WriteString newBuilder "|"))

/-- `(*RegexBuilder).Or` of `dsl.go`. -/
def RegexBuilderPtr.Or (choice : Option Nat) (r : RegexBuilderPtr)
    (groups : List RegexBuilderPtr) (h : Heap) : RegexBuilderPtr × Heap :=
  if groups.length = 0 then (r, h)
  else
    let newBuilder := (h.poolGet choice).1
    let h1 := (h.poolGet choice).2
    let h2 := h1.WriteString newBuilder "(?:"
    let h3 := h2.WriteString newBuilder (h2.contents r.builder)
    let h4 := groups.foldl (orStep newBuilder) h3
    let h5 := h4.WriteString newBuilder ")"
    let h6 := h5.Reset r.builder
    let h7 := h6.WriteString r.builder (h6.contents newBuilder)
    let h8 := h7.Reset newBuilder
    (r, h8.poolPut newBuilder)

/-! ## The emitters of `dsl.go` -/

/-- The bytes `regexp.QuoteMeta` escapes: the standard library's list
`\.+*?()|[]{}^$`, as character codes. -/
def metaBytes : List Nat := [92, 46, 43, 42, 63, 40, 41, 124, 91, 93, 123, 125, 94, 36]

/-- The standard library's table `specialBytes`, as its `init` function fills it:
for each metacharacter `b`, bit `b / 16` of the entry `b % 16` is set. -/
def specialBytes : List Nat :=
  metaBytes.foldl (fun tbl b => tbl.set (b % 16) (tbl.getD (b % 16) 0 ||| 1 <<< (b / 16)))
    (List.replicate 16 0)

/-- The standard library's `special(b)`: whether `QuoteMeta` escapes the byte
`b`. -/
def special (b : Nat) : Bool :=
  decide (b < 128) && (specialBytes.getD (b % 16) 0 &&& 1 <<< (b / 16)) != 0

/-- The standard library's `regexp.QuoteMeta(s)`: a backslash is put before every
special byte. The loop runs over the bytes of `s`; the special bytes are ASCII
and the bytes of any other character are not special, so it is run here over
the characters. -/
def QuoteMeta (s : String) : String :=
  String.mk (s.data.flatMap (fun c => if special c.toNat then ['\\', c] else [c]))

/-- The standard library's `strconv.Itoa`: the decimal text of an `int`. -/
def Itoa (n : Int) : String := toString n

/-- The character `WriteRune` writes for a rune: the rune itself when it is a valid
code point, the replacement character U+FFFD otherwise. -/
def runeToChar (r : Int) : Char :=
  if 0 ≤ r ∧ r.toNat.isValidChar then Char.ofNat r.toNat else Char.ofNat 0xFFFD

/-- `(*strings.Builder).WriteRune(r)` on the object at address `b`. -/
def Heap.WriteRune (h : Heap) (b : Nat) (r : Int) : Heap :=
  h.WriteString b (String.singleton (runeToChar r))

/-- The runtime's `maxAlloc`, the largest size of one allocation, on a 64-bit
platform with 48 address bits (smaller elsewhere). -/
def maxAlloc : Nat := 2 ^ 48

/-- `(*strings.Builder).Grow(n)` on a new object (no text, no capacity) at
address `b`. It panics on a negative count. For `n = 0` there is nothing to do.
Otherwise it allocates a buffer of `n` bytes: the allocation panics above
`maxAlloc`, and the program stops when the allocator cannot provide `n` bytes,
`avail` being the number of bytes it can provide at the time of the call. The
text is left as it is. The result is the heap, or the message the call ends
with. -/
def Heap.Grow (avail : Nat) (h : Heap) (_b : Nat) (n : Int) : Except String Heap :=
  if n < 0 then .error "strings.Builder.Grow: negative count"
  else if n = 0 then .ok h
  else if n > maxAlloc then .error "makeslice: len out of range"
  else if n > avail then .error "runtime: out of memory"
  else .ok h

/-- `NewWithCapacity` of `engine.go`: a new builder on a new `strings.Builder`,
grown to `capacity`. The result is the returned builder, or the message the call
ends with. -/
def NewWithCapacity (avail : Nat) (capacity : Int) (h : Heap) :
    Except String RegexBuilderPtr × Heap :=
  match h.alloc.2.Grow avail h.alloc.1 capacity with
  | .error msg => (.error msg, h.alloc.2)
  | .ok h1 => (.ok (h1.newBuilder h.alloc.1).1, (h1.newBuilder h.alloc.1).2)

def charClassWhitespace : String := "\\s"
def charClassNotWhitespace : String := "\\S"
def charClassDigit : String := "\\d"
def charClassNotDigit : String := "\\D"
def charClassWord : String := "\\w"
def charClassNotWord : String := "\\W"
def charClassWordBoundary : String := "\\b"
def charClassNotWordBoundary : String := "\\B"
def charTab : String := "\\t"
def charNewline : String := "\\n"
def charCarriageReturn : String := "\\r"
def anchorStartOfString : String := "\\A"
def anchorEndOfString : String := "\\z"

/-- `Literal` of `dsl.go`. -/
def RegexBuilderPtr.Literal (r : RegexBuilderPtr) (s : String) (h : Heap) :
    RegexBuilderPtr × Heap :=
  (r, h.WriteString r.builder (QuoteMeta s))

/-- `StartAnchor` of `dsl.go`. -/
def RegexBuilderPtr.StartAnchor (r : RegexBuilderPtr) (h : Heap) : RegexBuilderPtr × Heap :=
  (r, h.WriteString r.builder "^")

/-- `EndAnchor` of `dsl.go`. -/
def RegexBuilderPtr.EndAnchor (r : RegexBuilderPtr) (h : Heap) : RegexBuilderPtr × Heap :=
  (r, h.WriteString r.builder "$")

/-- `StartOfString` of `dsl.go`. -/
def RegexBuilderPtr.StartOfString (r : RegexBuilderPtr) (h : Heap) : RegexBuilderPtr × Heap :=
  (r, h.WriteString r.builder anchorStartOfString)

/-- `EndOfString` of `dsl.go`. -/
def RegexBuilderPtr.EndOfString (r : RegexBuilderPtr) (h : Heap) : RegexBuilderPtr × Heap :=
  (r, h.WriteString r.builder anchorEndOfString)

/-- `Group` of `dsl.go`. -/
def RegexBuilderPtr.Group (r group : RegexBuilderPtr) (h : Heap) : RegexBuilderPtr × Heap :=
  let h1 := h.WriteString r.builder "("
  let h2 := h1.WriteString r.builder (group.Build h1)
  (r, h2.WriteString r.builder ")")

/-- `NonCapturingGroup` of `dsl.go`. -/
def RegexBuilderPtr.NonCapturingGroup (r group : RegexBuilderPtr) (h : Heap) :
    RegexBuilderPtr × Heap :=
  let h1 := h.WriteString r.builder "(?:"
  let h2 := h1.WriteString r.builder (group.Build h1)
  (r, h2.WriteString r.builder ")")

/-- `NamedGroup` of `dsl.go`. -/
def RegexBuilderPtr.NamedGroup (r : RegexBuilderPtr) (name : String) (group : RegexBuilderPtr)
    (h : Heap) : RegexBuilderPtr × Heap :=
  let h1 := h.WriteString r.builder "(?P<"
  let h2 := h1.WriteString r.builder name
  let h3 := h2.WriteString r.builder ">"
  let h4 := h3.WriteString r.builder (group.Build h3)
  (r, h4.WriteString r.builder ")")

/-- `Exactly` of `dsl.go`. -/
def RegexBuilderPtr.Exactly (r : RegexBuilderPtr) (n : Int) (h : Heap) :
    RegexBuilderPtr × Heap :=
  let h1 := h.WriteString r.builder "\x7b"
  let h2 := h1.WriteString r.builder (Itoa n)
  (r, h2.WriteString r.builder "\x7d")

/-- `Maybe` of `dsl.go`. -/
def RegexBuilderPtr.Maybe (r : RegexBuilderPtr) (h : Heap) : RegexBuilderPtr × Heap :=
  (r, h.WriteString r.builder "?")

/-- `OneOrMore` of `dsl.go`. -/
def RegexBuilderPtr.OneOrMore (r : RegexBuilderPtr) (h : Heap) : RegexBuilderPtr × Heap :=
  (r, h.WriteString r.builder "+")

/-- `ZeroOrMore` of `dsl.go`. -/
def RegexBuilderPtr.ZeroOrMore (r : RegexBuilderPtr) (h : Heap) : RegexBuilderPtr × Heap :=
  (r, h.WriteString r.builder "*")

/-- `AtLeast` of `dsl.go`. -/
def RegexBuilderPtr.AtLeast (r : RegexBuilderPtr) (n : Int) (h : Heap) :
    RegexBuilderPtr × Heap :=
  let h1 := h.WriteString r.builder "\x7b"
  let h2 := h1.WriteString r.builder (Itoa n)
  (r, h2.WriteString r.builder ",\x7d")

/-- `Between` of `dsl.go`. -/
def RegexBuilderPtr.Between (r : RegexBuilderPtr) (n m : Int) (h : Heap) :
    RegexBuilderPtr × Heap :=
  let h1 := h.WriteString r.builder "\x7b"
  let h2 := h1.WriteString r.builder (Itoa n)
  let h3 := h2.WriteString r.builder ","
  let h4 := h3.WriteString r.builder (Itoa m)
  (r, h4.WriteString r.builder "\x7d")

/-- `NonGreedy` of `dsl.go`. -/
def RegexBuilderPtr.NonGreedy (r : RegexBuilderPtr) (h : Heap) : RegexBuilderPtr × Heap :=
  (r, h.WriteString r.builder "?")

/-- `Whitespace` of `dsl.go`. -/
def RegexBuilderPtr.Whitespace (r : RegexBuilderPtr) (h : Heap) : RegexBuilderPtr × Heap :=
  (r, h.WriteString r.builder charClassWhitespace)

/-- `NotWhitespace` of `dsl.go`. -/
def RegexBuilderPtr.NotWhitespace (r : RegexBuilderPtr) (h : Heap) : RegexBuilderPtr × Heap :=
  (r, h.WriteString r.builder charClassNotWhitespace)

/-- `Digit` of `dsl.go`. -/
def RegexBuilderPtr.Digit (r : RegexBuilderPtr) (h : Heap) : RegexBuilderPtr × Heap :=
  (r, h.WriteString r.builder charClassDigit)

/-- `NotDigit` of `dsl.go`. -/
def RegexBuilderPtr.NotDigit (r : RegexBuilderPtr) (h : Heap) : RegexBuilderPtr × Heap :=
  (r, h.WriteString r.builder charClassNotDigit)

/-- `WordChar` of `dsl.go`. -/
def RegexBuilderPtr.WordChar (r : RegexBuilderPtr) (h : Heap) : RegexBuilderPtr × Heap :=
  (r, h.WriteString r.builder charClassWord)

/-- `NotWordChar` of `dsl.go`. -/
def RegexBuilderPtr.NotWordChar (r : RegexBuilderPtr) (h : Heap) : RegexBuilderPtr × Heap :=
  (r, h.WriteString r.builder charClassNotWord)

/-- `WordBoundary` of `dsl.go`. -/
def RegexBuilderPtr.WordBoundary (r : RegexBuilderPtr) (h : Heap) : RegexBuilderPtr × Heap :=
  (r, h.WriteString r.builder charClassWordBoundary)

/-- `NotWordBoundary` of `dsl.go`. -/
def RegexBuilderPtr.NotWordBoundary (r : RegexBuilderPtr) (h : Heap) : RegexBuilderPtr × Heap :=
  (r, h.WriteString r.builder charClassNotWordBoundary)

/-- `Tab` of `dsl.go`. -/
def RegexBuilderPtr.Tab (r : RegexBuilderPtr) (h : Heap) : RegexBuilderPtr × Heap :=
  (r, h.WriteString r.builder charTab)

/-- `Newline` of `dsl.go`. -/
def RegexBuilderPtr.Newline (r : RegexBuilderPtr) (h : Heap) : RegexBuilderPtr × Heap :=
  (r, h.WriteString r.builder charNewline)

/-- `CarriageReturn` of `dsl.go`. -/
def RegexBuilderPtr.CarriageReturn (r : RegexBuilderPtr) (h : Heap) : RegexBuilderPtr × Heap :=
  (r, h.WriteString r.builder charCarriageReturn)

/-- `Quote` of `dsl.go`. -/
def RegexBuilderPtr.Quote (r : RegexBuilderPtr) (s : String) (h : Heap) :
    RegexBuilderPtr × Heap :=
  (r, h.WriteString r.builder (QuoteMeta s))

/-- `AnyOf` of `dsl.go`. -/
def RegexBuilderPtr.AnyOf (r : RegexBuilderPtr) (s : String) (h : Heap) :
    RegexBuilderPtr × Heap :=
  let h1 := h.WriteString r.builder "["
  let h2 := h1.WriteString r.builder s
  (r, h2.WriteString r.builder "]")

/-- `NotAnyOf` of `dsl.go`. -/
def RegexBuilderPtr.NotAnyOf (r : RegexBuilderPtr) (s : String) (h : Heap) :
    RegexBuilderPtr × Heap :=
  let h1 := h.WriteString r.builder "[^"
  let h2 := h1.WriteString r.builder s
  (r, h2.WriteString r.builder "]")

/-- `Range` of `dsl.go` (its parameters are `from` and `to`). -/
def RegexBuilderPtr.Range (r : RegexBuilderPtr) (fromRune toRune : Int) (h : Heap) :
    RegexBuilderPtr × Heap :=
  let h1 := h.WriteString r.builder "["
  let h2 := h1.WriteRune r.builder fromRune
  let h3 := h2.WriteString r.builder "-"
  let h4 := h3.WriteRune r.builder toRune
  (r, h4.WriteString r.builder "]")

/-- `WithFlags` of `dsl.go`. -/
def RegexBuilderPtr.WithFlags (r : RegexBuilderPtr) (flags : String) (h : Heap) :
    RegexBuilderPtr × Heap :=
  let h1 := h.WriteString r.builder "(?"
  let h2 := h1.WriteString r.builder flags
  (r, h2.WriteString r.builder ")")

/-- `GroupWithFlags` of `dsl.go`. -/
def RegexBuilderPtr.GroupWithFlags (r : RegexBuilderPtr) (flags : String)
    (group : RegexBuilderPtr) (h : Heap) : RegexBuilderPtr × Heap :=
  let h1 := h.WriteString r.builder "(?"
  let h2 := h1.WriteString r.builder flags
  let h3 := h2.WriteString r.builder ":"
  let h4 := h3.WriteString r.builder (group.Build h3)
  (r, h4.WriteString r.builder ")")

/-- `POSIXClass` of `dsl.go`. -/
def RegexBuilderPtr.POSIXClass (r : RegexBuilderPtr) (cls : String) (h : Heap) :
    RegexBuilderPtr × Heap :=
  let h1 := h.WriteString r.builder "[[:"
  let h2 := h1.WriteString r.builder cls
  (r, h2.WriteString r.builder ":]]")

/-- `NotPOSIXClass` of `dsl.go`. -/
def RegexBuilderPtr.NotPOSIXClass (r : RegexBuilderPtr) (cls : String) (h : Heap) :
    RegexBuilderPtr × Heap :=
  let h1 := h.WriteString r.builder "[^[:"
  let h2 := h1.WriteString r.builder cls
  (r, h2.WriteString r.builder ":]]")

/-- `UnicodeProperty` of `dsl.go`. -/
def RegexBuilderPtr.UnicodeProperty (r : RegexBuilderPtr) (property : String) (h : Heap) :
    RegexBuilderPtr × Heap :=
  let h1 := h.WriteString r.builder "\\p\x7b"
  let h2 := h1.WriteString r.builder property
  (r, h2.WriteString r.builder "\x7d")

/-- `NotUnicodeProperty` of `dsl.go`. -/
def RegexBuilderPtr.NotUnicodeProperty (r : RegexBuilderPtr) (property : String) (h : Heap) :
    RegexBuilderPtr × Heap :=
  let h1 := h.WriteString r.builder "\\P\x7b"
  let h2 := h1.WriteString r.builder property
  (r, h2.WriteString r.builder "\x7d")

/-- A call of an emitter method of `RegexBuilder` other than `Or`, with its
arguments. -/
inductive Emitter where
  | Raw (s : String)
  | Literal (s : String)
  | StartAnchor
  | EndAnchor
  | StartOfString
  | EndOfString
  | Group (group : RegexBuilderPtr)
  | NonCapturingGroup (group : RegexBuilderPtr)
  | NamedGroup (name : String) (group : RegexBuilderPtr)
  | Exactly (n : Int)
  | Maybe
  | OneOrMore
  | ZeroOrMore
  | AtLeast (n : Int)
  | Between (n m : Int)
  | NonGreedy
  | Whitespace
  | NotWhitespace
  | Digit
  | NotDigit
  | WordChar
  | NotWordChar
  | WordBoundary
  | NotWordBoundary
  | Tab
  | Newline
  | CarriageReturn
  | Quote (s : String)
  | AnyOf (s : String)
  | NotAnyOf (s : String)
  | Range (fromRune toRune : Int)
  | WithFlags (flags : String)
  | GroupWithFlags (flags : String) (group : RegexBuilderPtr)
  | POSIXClass (cls : String)
  | NotPOSIXClass (cls : String)
  | UnicodeProperty (property : String)
  | NotUnicodeProperty (property : String)

/-- The emitter call `e` on the builder `r`. -/
def Emitter.apply (e : Emitter) (r : RegexBuilderPtr) (h : Heap) : RegexBuilderPtr × Heap :=
  match e with
  | .Raw s => r.Raw s h
  | .Literal s => r.Literal s h
  | .StartAnchor => r.StartAnchor h
  | .EndAnchor => r.EndAnchor h
  | .StartOfString => r.StartOfString h
  | .EndOfString => r.EndOfString h
  | .Group g => r.Group g h
  | .NonCapturingGroup g => r.NonCapturingGroup g h
  | .NamedGroup name g => r.NamedGroup name g h
  | .Exactly n => r.Exactly n h
  | .Maybe => r.Maybe h
  | .OneOrMore => r.OneOrMore h
  | .ZeroOrMore => r.ZeroOrMore h
  | .AtLeast n => r.AtLeast n h
  | .Between n m => r.Between n m h
  | .NonGreedy => r.NonGreedy h
  | .Whitespace => r.Whitespace h
  | .NotWhitespace => r.NotWhitespace h
  | .Digit => r.Digit h
  | .NotDigit => r.NotDigit h
  | .WordChar => r.WordChar h
  | .NotWordChar => r.NotWordChar h
  | .WordBoundary => r.WordBoundary h
  | .NotWordBoundary => r.NotWordBoundary h
  | .Tab => r.Tab h
  | .Newline => r.Newline h
  | .CarriageReturn => r.CarriageReturn h
  | .Quote s => r.Quote s h
  | .AnyOf s => r.AnyOf s h
  | .NotAnyOf s => r.NotAnyOf s h
  | .Range a b => r.Range a b h
  | .WithFlags flags => r.WithFlags flags h
  | .GroupWithFlags flags g => r.GroupWithFlags flags g h
  | .POSIXClass cls => r.POSIXClass cls h
  | .NotPOSIXClass cls => r.NotPOSIXClass cls h
  | .UnicodeProperty p => r.UnicodeProperty p h
  | .NotUnicodeProperty p => r.NotUnicodeProperty p h

/-- The builder an emitter call takes as its argument, if it takes one. -/
def Emitter.sub : Emitter → Option RegexBuilderPtr
  | .Group g => some g
  | .NonCapturingGroup g => some g
  | .NamedGroup _ g => some g
  | .GroupWithFlags _ g => some g
  | _ => none

/-- The text an emitter call is meant to append, the argument builders being read
in the heap `h`. -/
def Emitter.text (e : Emitter) (h : Heap) : String :=
  match e with
  | .Raw s => s
  | .Literal s => QuoteMeta s
  | .StartAnchor => "^"
  | .EndAnchor => "$"
  | .StartOfString => "\\A"
  | .EndOfString => "\\z"
  | .Group g => "(" ++ g.Build h ++ ")"
  | .NonCapturingGroup g => "(?:" ++ g.Build h ++ ")"
  | .NamedGroup name g => "(?P<" ++ name ++ ">" ++ g.Build h ++ ")"
  | .Exactly n => "\x7b" ++ Itoa n ++ "\x7d"
  | .Maybe => "?"
  | .OneOrMore => "+"
  | .ZeroOrMore => "*"
  | .AtLeast n => "\x7b" ++ Itoa n ++ ",\x7d"
  | .Between n m => "\x7b" ++ Itoa n ++ "," ++ Itoa m ++ "\x7d"
  | .NonGreedy => "?"
  | .Whitespace => "\\s"
  | .NotWhitespace => "\\S"
  | .Digit => "\\d"
  | .NotDigit => "\\D"
  | .WordChar => "\\w"
  | .NotWordChar => "\\W"
  | .WordBoundary => "\\b"
  | .NotWordBoundary => "\\B"
  | .Tab => "\\t"
  | .Newline => "\\n"
  | .CarriageReturn => "\\r"
  | .Quote s => QuoteMeta s
  | .AnyOf s => "[" ++ s ++ "]"
  | .NotAnyOf s => "[^" ++ s ++ "]"
  | .Range a b =>
    "[" ++ String.singleton (runeToChar a) ++ "-" ++ String.singleton (runeToChar b) ++ "]"
  | .WithFlags flags => "(?" ++ flags ++ ")"
  | .GroupWithFlags flags g => "(?" ++ flags ++ ":" ++ g.Build h ++ ")"
  | .POSIXClass cls => "[[:" ++ cls ++ ":]]"
  | .NotPOSIXClass cls => "[^[:" ++ cls ++ ":]]"
  | .UnicodeProperty p => "\\p\x7b" ++ p ++ "\x7d"
  | .NotUnicodeProperty p => "\\P\x7b" ++ p ++ "\x7d"

/-- A chain of emitter calls `r.e1().e2()...`, each on the builder the one before
returned. -/
def Emitter.chain (es : List Emitter) (r : RegexBuilderPtr) (h : Heap) :
    RegexBuilderPtr × Heap :=
  es.foldl (fun acc e => e.apply acc.1 acc.2) (r, h)

/-- The texts of a chain of emitter calls, one after the other. -/
def Emitter.texts : List Emitter → Heap → String
  | [], _ => ""
  | e :: es, h => e.text h ++ Emitter.texts es h

/-- The regex metacharacters: `\ . + * ? ( ) | [ ] { } ^ $`. -/
def metaChars : List Char :=
  ['\\', '.', '+', '*', '?', '(', ')', '|', '[', ']', '{', '}', '^', '$']

/-- The text `s` with a backslash put before each metacharacter. -/
def escaped (s : List Char) : List Char :=
  s.flatMap (fun c => if c ∈ metaChars then ['\\', c] else [c])

/-- The removal of the escaping backslashes: a backslash is dropped and the
character after it kept. -/
def unquote : List Char → List Char
  | [] => []
  | [c] => [c]
  | c :: d :: rest => if c = '\\' then d :: unquote rest else c :: unquote (d :: rest)

/-! ## `patterns/blueprints.go` -/

/-- `patterns.IPv4`. `c1` and `c2` say what the pool hands out to the two calls
of `New`, in the order they are made. -/
def patterns.IPv4 (c1 c2 : Option Nat) (h : Heap) : RegexBuilderPtr × Heap :=
  let octet := (New c1 h).1.Raw "(25[0-5]|2[0-4][0-9]|1[0-9]\x7b2\x7d|[1-9]?[0-9])" (New c1 h).2
  let r0 := New c2 octet.2
  let r1 := r0.1.StartAnchor r0.2
  let r2 := r1.1.Group octet.1 r1.2
  let r3 := r2.1.Literal "." r2.2
  let r4 := r3.1.Group octet.1 r3.2
  let r5 := r4.1.Literal "." r4.2
  let r6 := r5.1.Group octet.1 r5.2
  let r7 := r6.1.Literal "." r6.2
  let r8 := r7.1.Group octet.1 r7.2
  r8.1.EndAnchor r8.2

/-- `patterns.URL`. `c1` to `c6` say what the pool hands out to the six calls of
`New`, in the order they are made. -/
def patterns.URL (c1 c2 c3 c4 c5 c6 : Option Nat) (h : Heap) : RegexBuilderPtr × Heap :=
  let p0 := New c1 h
  let p1 := p0.1.Literal "http" p0.2
  let p2 := p1.1.Maybe p1.2
  let p3 := p2.1.Literal "s" p2.2
  let p4 := p3.1.Maybe p3.2
  let protocol := p4.1.Literal "://" p4.2
  let d0 := New c2 protocol.2
  let domain := d0.1.Raw "[a-zA-Z0-9.-]+" d0.2
  let q0 := New c3 domain.2
  let i0 := New c4 q0.2
  let i1 := i0.1.Literal ":" i0.2
  let i2 := i1.1.Raw "[0-9]+" i1.2
  let q1 := q0.1.NonCapturingGroup i2.1 i2.2
  let port := q1.1.Maybe q1.2
  let a0 := New c5 port.2
  let path := a0.1.Raw "(?:/[a-zA-Z0-9-._~:/?#\\[\\]@!$&\x27()*+,;=]*)?" a0.2
  let r0 := New c6 path.2
  let r1 := r0.1.StartAnchor r0.2
  let r2 := r1.1.Raw (protocol.1.Build r1.2) r1.2
  let r3 := r2.1.Raw (domain.1.Build r2.2) r2.2
  let r4 := r3.1.Raw (port.1.Build r3.2) r3.2
  let r5 := r4.1.Raw (path.1.Build r4.2) r4.2
  r5.1.EndAnchor r5.2

/-- The pool is as the package means it to be: it holds every object once, and
only allocated, empty objects. -/
def Heap.PoolClean (h : Heap) : Prop :=
  h.pool.Nodup ∧ ∀ b ∈ h.pool, b < h.next ∧ h.contents b = ""

/-- The calls of `patterns.IPv4` on its second builder, the first one (`octet`)
being the argument of `Group`. -/
def ipv4Calls (octet : RegexBuilderPtr) : List Emitter :=
  [.StartAnchor, .Group octet, .Literal ".", .Group octet, .Literal ".", .Group octet,
    .Literal ".", .Group octet, .EndAnchor]

/-- The result of `patterns.URL().MustCompile()` at program start (nothing
allocated, an empty pool, an empty cache). -/
def urlCompiled : Except String (Regexp Re) :=
  ((patterns.URL none none none none none none Heap.init).1.MustCompile syntaxParse
    (patterns.URL none none none none none none Heap.init).2 (State.init : State Re)).1

/-- The result of `patterns.IPv4().MustCompile()` at program start. -/
def ipv4Compiled : Except String (Regexp Re) :=
  ((patterns.IPv4 none none Heap.init).1.MustCompile syntaxParse
    (patterns.IPv4 none none Heap.init).2 (State.init : State Re)).1

/-- The pattern of one octet in `patterns.IPv4`. -/
def octetPattern : String := "(25[0-5]|2[0-4][0-9]|1[0-9]\x7b2\x7d|[1-9]?[0-9])"

/-- The pattern `patterns.IPv4` is meant to build. -/
def ipv4Pattern : String :=
  "^(" ++ octetPattern ++ ")\\.(" ++ octetPattern ++ ")\\.(" ++ octetPattern ++ ")\\.("
    ++ octetPattern ++ ")$"

/-- The pattern `patterns.URL` builds. -/
def urlPattern : String :=
  "^http?s?://[a-zA-Z0-9.-]+(?::[0-9]+)?(?:/[a-zA-Z0-9-._~:/?#\\[\\]@!$&\x27()*+,;=]*)?$"

/-- The concatenation of a list of expressions, as the parser builds it. -/
def Re.seq : List Re → Re
  | [] => .empty
  | a :: rest => .cat a (Re.seq rest)

/-- The class `[0-9]`. -/
def digitRe : Re := .cls false [('0', '9')]

/-- The parsed alternation `25[0-5]|2[0-4][0-9]|1[0-9]{2}|[1-9]?[0-9]`. -/
def octetRe : Re :=
  .alt (Re.seq [Re.lit '2', Re.lit '5', .cls false [('0', '5')]])
    (.alt (Re.seq [Re.lit '2', .cls false [('0', '4')], digitRe])
      (.alt (Re.seq [Re.lit '1', Re.seq [digitRe, digitRe]])
        (Re.seq [.alt (.cls false [('1', '9')]) .empty, digitRe])))

/-- The four octet groups and the three dots of the parsed pattern of
`patterns.IPv4`. -/
def ipv4Body : List Re :=
  [Re.seq [octetRe], Re.lit '.', Re.seq [octetRe], Re.lit '.', Re.seq [octetRe], Re.lit '.',
    Re.seq [octetRe]]

/-- The parsed pattern of `patterns.IPv4`. -/
def ipv4Re : Re := .cat .bol (Re.seq (ipv4Body ++ [.eol]))

/-- The characters from `lo` to `hi`. -/
def charsIn (lo hi : Char) : List Char :=
  ((List.range (hi.toNat + 1)).map Char.ofNat).filter (fun c => lo ≤ c && c ≤ hi)

/-- The texts an expression matches in full, for an expression without repetition,
anchors and negated classes (for any other expression the list is not
meant). -/
def Re.words : Re → List (List Char)
  | .empty => [[]]
  | .cls neg rs => if neg then [] else (rs.flatMap (fun r => charsIn r.1 r.2)).map (fun c => [c])
  | .bol => []
  | .eol => []
  | .cat a b => a.words.flatMap (fun u => b.words.map (fun v => u ++ v))
  | .alt a b => a.words ++ b.words
  | .star _ => []

/-- Whether an expression is without repetition, anchors and negated classes. -/
def Re.finite : Re → Bool
  | .empty => true
  | .cls neg _ => !neg
  | .bol => false
  | .eol => false
  | .cat a b => a.finite && b.finite
  | .alt a b => a.finite && b.finite
  | .star _ => false

/-- The decimal texts of the numbers from 0 to 255, without leading zeros. -/
def octetTexts : List (List Char) := (List.range 256).map (fun n => (Nat.repr n).data)

/-- A dotted quad: four decimal numbers from 0 to 255, written without leading
zeros, with single dots between them and nothing before or after. -/
def IsDottedQuad (s : String) : Prop :=
  ∃ a b c d : Nat, a ≤ 255 ∧ b ≤ 255 ∧ c ≤ 255 ∧ d ≤ 255 ∧
    s = toString a ++ "." ++ toString b ++ "." ++ toString c ++ "." ++ toString d

/-! ## Reachable states -/

/-- The states reachable from the initial one by calls of `MustCompileWithCache`
(returning or panicking), `PurgeCache`, `SetCacheSize` and `Compile` (which
`MustCompile` calls), for a fixed (deterministic) compile function. -/
inductive Reachable {P : Type} (parse : String → Except String P) : State P → Prop
  | init : Reachable parse State.init
  | compile (r : RegexBuilder) {s : State P} :
      Reachable parse s → Reachable parse (MustCompileWithCache parse r s).2
  | purge {s : State P} : Reachable parse s → Reachable parse (PurgeCache s)
  | setSize (n : Int) {s : State P} :
      Reachable parse s → Reachable parse (SetCacheSize n s).2
  | direct (r : RegexBuilderPtr) (h : Heap) {s : State P} :
      Reachable parse s → Reachable parse (r.Compile parse h s).2.2

/-- The invariant of the reachable states: a positive capacity that bounds the
number of entries, unique keys, every stored pointer allocated before
`nextAddr` and unique, and every stored `Regexp` the one `regexp.Compile` gives
for its key. -/
structure Inv {P : Type} (parse : String → Except String P) (s : State P) : Prop where
  size_pos : 1 ≤ s.cache.size
  len_le : (s.cache.evictList.length : Int) ≤ s.cache.size
  keys_nodup : s.cache.Keys.Nodup
  addr_lt : ∀ e ∈ s.cache.evictList, e.value.addr < s.nextAddr
  addr_nodup : (s.cache.evictList.map (fun e => e.value.addr)).Nodup
  compiled : ∀ e ∈ s.cache.evictList, regexpCompile parse e.key = .ok e.value.re

/-- A toy compile function for concrete runs: an expression compiles when its
parentheses are balanced in number; the program is the expression's length. -/
def toyParse (expr : String) : Except String Nat :=
  if expr.data.count '(' = expr.data.count ')' then .ok expr.length
  else .error "missing closing )"

/-- The state after calling `MustCompileWithCache` on each builder of `rs` in
order. -/
def callAll {P : Type} (parse : String → Except String P) (rs : List RegexBuilder)
    (s : State P) : State P :=
  rs.foldl (fun st r => (MustCompileWithCache parse r st).2) s

/-- The address `a` is allocated and belongs to the description `d`: an entry
holding a pointer at `a` has the key `d`. -/
def Owns {P : Type} (a : Nat) (d : String) (s : State P) : Prop :=
  a < s.nextAddr ∧ ∀ e ∈ s.cache.evictList, e.value.addr = a → e.key = d

/-- A full cache of capacity 1, holding `a`. -/
def fullOfOne : State Nat :=
  (MustCompileWithCache toyParse { builder := "a" } (SetCacheSize 1 State.init).2).2

/-- A cache of capacity 2 holding `b` (most recently used) and `a`. -/
def twoOfTwo : State Nat :=
  callAll toyParse [{ builder := "a" }, { builder := "b" }] (SetCacheSize 2 State.init).2

/-- The alternatives `|p1|p2...|pn` of the patterns `p1, ..., pn`. -/
def alternatives : List String → String
  | [] => ""
  | p :: ps => "|" ++ p ++ alternatives ps

/-- The pattern `Or` is documented to leave in its receiver: the receiver's
pattern `s` and the patterns `ps` of the arguments, joined with `|` inside a
non-capturing group. -/
def orPattern (s : String) (ps : List String) : String :=
  "(?:" ++ s ++ alternatives ps ++ ")"

/-- A heap with one builder, at address 0, made by `New().Raw(s)` at program
start. -/
def heapOf (s : String) : Heap :=
  ((New none Heap.init).1.Raw s (New none Heap.init).2).2

/-- The heap of `TestOrOperator`: three builders made by `New()`, holding `cat`
(address 0), `dog` (address 1) and `bird` (address 2). -/
def heapCatDogBird : Heap :=
  ((New none ((New none (heapOf "cat")).1.Raw "dog" (New none (heapOf "cat")).2).2).1.Raw "bird"
    (New none ((New none (heapOf "cat")).1.Raw "dog" (New none (heapOf "cat")).2).2).2).2

/-- A heap in which the builder at address 0 was compiled (its object is in the
pool) and written to afterwards (`s`), next to a builder holding `p` at
address 1. -/
def heapReused : Heap :=
  ((RegexBuilderPtr.mk 1 1).Raw "p"
    ((RegexBuilderPtr.mk 0 0).Raw "s"
      ((RegexBuilderPtr.mk 0 0).Compile toyParse
        (New none (heapOf "a")).2 (State.init : State Nat)).2.1).2).2

/-- The heap after `r := New().Raw("a"); r.Compile(); r.Raw("x")` at program
start: the object of `r` (address 0) is in the pool and holds `x`. -/
def heapWrittenAfterCompile : Heap :=
  ((New none Heap.init).1.Raw "x"
    (((New none Heap.init).1.Raw "a" (New none Heap.init).2).1.Compile syntaxParse
      ((New none Heap.init).1.Raw "a" (New none Heap.init).2).2 (State.init : State Re)).2.1).2

/-- The builder of `r := New()` at program start. -/
def firstBuilder : RegexBuilderPtr := (New none Heap.init).1

/-- The heap after `r := New(); r.Compile()` at program start: the object of `r`
is in the pool, and `r` still holds it. -/
def heapAfterCompile : Heap :=
  (firstBuilder.Compile syntaxParse (New none Heap.init).2 (State.init : State Re)).2.1

/-- The builder of `g := New()` after `r := New(); r.Compile()`, the pool handing
out the object it holds. -/
def secondBuilder : RegexBuilderPtr := (New (some 0) heapAfterCompile).1

/-- The heap after `r := New(); r.Compile(); g := New(); g.Raw("p")`, the pool
handing `g` the object it holds. -/
def heapShared : Heap := (secondBuilder.Raw "p" (New (some 0) heapAfterCompile).2).2

/-- The result of `patterns.IPv4().MustCompile()` after
`r := New().Raw("a"); r.Compile(); r.Raw("x")`, the pool handing the first `New`
of `patterns.IPv4` the object it holds. -/
def ipv4CompiledAfterWrite : Except String (Regexp Re) :=
  ((patterns.IPv4 (some 0) none heapWrittenAfterCompile).1.MustCompile syntaxParse
    (patterns.IPv4 (some 0) none heapWrittenAfterCompile).2 (State.init : State Re)).1

/-- A call of a method that writes to its receiver: one of the emitters, or `Or`
with its arguments. -/
inductive Method where
  | emit (e : Emitter)
  | Or (groups : List RegexBuilderPtr)

/-- The method call `m` on the builder `r`; `choice` is what the pool hands out
if the call takes an object from it. -/
def Method.apply (m : Method) (choice : Option Nat) (r : RegexBuilderPtr) (h : Heap) :
    RegexBuilderPtr × Heap :=
  match m with
  | .emit e => e.apply r h
  | .Or groups => r.Or choice groups h

/-- The builders a method call takes as arguments. -/
def Method.subs : Method → List RegexBuilderPtr
  | .emit e => e.sub.toList
  | .Or groups => groups

/-- Whether a method call takes an object from the pool: `Or` does, unless it has
no arguments. -/
def Method.usesPool : Method → Bool
  | .emit _ => false
  | .Or groups => !groups.isEmpty

/-- The pattern a method call is meant to leave in its receiver, from the pattern
`s` the receiver has, the argument builders being read in the heap `h`. -/
def Method.result (m : Method) (s : String) (h : Heap) : String :=
  match m with
  | .emit e => s ++ e.text h
  | .Or groups =>
    if groups.length = 0 then s else orPattern s (groups.map (fun g => g.Build h))

/-- The condition under which a chain of method calls stays clear of objects the
pool holds: if one of the calls takes an object from the pool, the pool is
clean and neither the receiver nor an argument builder is on an object of the
pool, or on one that is not allocated. -/
def Method.PoolReady (ms : List Method) (r : RegexBuilderPtr) (h : Heap) : Prop :=
  (∃ m ∈ ms, m.usesPool = true) →
    h.PoolClean ∧ (r.builder < h.next ∧ r.builder ∉ h.pool) ∧
      ∀ m ∈ ms, ∀ g ∈ m.subs, g.builder < h.next ∧ g.builder ∉ h.pool

/-- A heap with two builders made by `New()` at program start: an empty one
(address 0) and one holding `cat` (address 1). -/
def heapEmptyCat : Heap :=
  ((New none (New none Heap.init).2).1.Raw "cat" (New none (New none Heap.init).2).2).2

/-- A chain of method calls `r.m1().m2()...`, each on the builder the one before
returned; `choices` are what the pool hands out to the calls, in order (a new
object once the list is used up). -/
def Method.chain : List Method → List (Option Nat) → RegexBuilderPtr → Heap →
    RegexBuilderPtr × Heap
  | [], _, r, h => (r, h)
  | m :: ms, choices, r, h =>
    Method.chain ms choices.tail (m.apply choices.head?.join r h).1
      (m.apply choices.head?.join r h).2

/-- The pattern a chain of method calls is meant to leave in its receiver. -/
def Method.results : List Method → String → Heap → String
  | [], s, _ => s
  | m :: ms, s, h => Method.results ms (m.result s h) h

/-! ## Concurrent calls of `MustCompileWithCache`

The container serialises its operations, so a call of `MustCompileWithCache`
touches the shared cache in two atomic steps, `cache.Get` and `cache.Add`, with
the compilation (local to the goroutine) in between. Concurrent calls are
interleavings of these steps. -/

/-- Where a goroutine running `MustCompileWithCache` stands: before `cache.Get`;
after a miss and the compilation, holding `wrappedRe`, before `cache.Add`;
returned; or panicked. -/
inductive Call (P : Type) where
  | start
  | missed (wrappedRe : Regexp P)
  | returned (re : Regexp P)
  | panicked (err : String)
  deriving DecidableEq, Repr

/-- The shared state and the goroutines, each calling `MustCompileWithCache` on a
builder of its own. -/
structure Conc (P : Type) where
  st : State P
  calls : List (Call P)

/-- The goroutine `i` takes its next step, on a builder holding `pattern`:
`cache.Get` (followed on a miss by `regexp.Compile` and `&Regexp{...}`), or
`cache.Add`. A goroutine that returned or panicked takes no step. -/
def Conc.step {P : Type} (parse : String → Except String P) (pattern : String) (i : Nat)
    (c : Conc P) : Conc P :=
  match c.calls[i]? with
  | some .start =>
    match c.st.cache.Get pattern with
    | (some re, cch) =>
      { st := { c.st with cache := cch }, calls := c.calls.set i (.returned re) }
    | (none, cch) =>
      match regexpCompile parse pattern with
      | .error err =>
        { st := { c.st with cache := cch, compileCalls := c.st.compileCalls + 1 }
          calls := c.calls.set i (.panicked err) }
      | .ok re =>
        { st :=
            { cache := cch
              nextAddr := c.st.nextAddr + 1
              compileCalls := c.st.compileCalls + 1 }
          calls := c.calls.set i (.missed { addr := c.st.nextAddr, re := re }) }
  | some (.missed wrappedRe) =>
    { st := { c.st with cache := (c.st.cache.Add pattern wrappedRe).2 }
      calls := c.calls.set i (.returned wrappedRe) }
  | _ => c

/-- The goroutines take steps in the order `sched` gives. -/
def Conc.run {P : Type} (parse : String → Except String P) (pattern : String)
    (sched : List Nat) (c : Conc P) : Conc P :=
  sched.foldl (fun c i => c.step parse pattern i) c

/-- `n` goroutines about to call `MustCompileWithCache`, in the state `s`. -/
def Conc.start {P : Type} (n : Nat) (s : State P) : Conc P :=
  { st := s, calls := List.replicate n .start }

/-- The number of steps a goroutine still has to take, at most. -/
def Call.rank {P : Type} : Option (Call P) → Nat
  | some .start => 2
  | some (.missed _) => 1
  | _ => 0

/-- Whether a goroutine has not yet called `cache.Get`. -/
def Call.isStart {P : Type} : Call P → Bool
  | .start => true
  | _ => false

/-- What a goroutine holds was compiled from the description (`re0` is its
compilation), and no goroutine panicked. -/
def Call.compiledAs {P : Type} (re0 : GoRegexp P) : Call P → Prop
  | .start => True
  | .missed wrappedRe => wrappedRe.re = re0
  | .returned re => re.re = re0
  | .panicked _ => False

/-- Whether a goroutine has returned. -/
def Call.isReturned {P : Type} : Call P → Bool
  | .returned _ => true
  | _ => false

/-- The invariant of `n` concurrent calls on the description `d`, whose compilation
is `re0`, started when `base` compilations had been done: the capacity is
positive, keys are unique, every goroutine holds a compilation of `d`, so does
the entry of `d`, which is resident once a goroutine has returned, and every
compilation done since the start is that of one goroutine past `cache.Get`. -/
structure ConcInv {P : Type} (d : String) (re0 : GoRegexp P) (base n : Nat) (c : Conc P) :
    Prop where
  size_pos : 1 ≤ c.st.cache.size
  keys_nodup : c.st.cache.Keys.Nodup
  length_eq : c.calls.length = n
  calls_ok : ∀ call ∈ c.calls, call.compiledAs re0
  entry_ok : ∀ e ∈ c.st.cache.evictList, e.key = d → e.value.re = re0
  resident : (∃ call ∈ c.calls, call.isReturned = true) → d ∈ c.st.cache.Keys
  count_le : c.st.compileCalls + c.calls.countP Call.isStart ≤ base + n

/-- A call on the cache state: `MustCompileWithCache`, `PurgeCache`, `SetCacheSize`
or `Compile`. -/
inductive Op where
  | cached (r : RegexBuilder)
  | purge
  | setSize (n : Int)
  | direct (r : RegexBuilderPtr) (h : Heap)

/-- The state a call leaves. -/
def Op.apply {P : Type} (parse : String → Except String P) (op : Op) (s : State P) :
    State P :=
  match op with
  | .cached r => (MustCompileWithCache parse r s).2
  | .purge => PurgeCache s
  | .setSize n => (SetCacheSize n s).2
  | .direct r h => (r.Compile parse h s).2.2

/-- The state a sequence of calls leaves. -/
def runOps {P : Type} (parse : String → Except String P) (ops : List Op) (s : State P) :
    State P :=
  ops.foldl (fun st op => op.apply parse st) s

/-! ## Lemmas on the LRU container -/

theorem LRU.lookup_eq_none_iff {V : Type} (c : LRU V) (key : String) :
    c.lookup key = none ↔ key ∉ c.Keys := by
  simp only [LRU.lookup, LRU.Keys, List.find?_eq_none, List.mem_map, beq_iff_eq]
  constructor
  · rintro h ⟨e, he, hk⟩
    exact h e he hk
  · intro h e he hk
    exact h ⟨e, he, hk⟩

theorem LRU.lookup_some {V : Type} {c : LRU V} {key : String} {ent : entry V}
    (h : c.lookup key = some ent) : ent ∈ c.evictList ∧ ent.key = key := by
  unfold LRU.lookup at h
  exact ⟨List.mem_of_find?_eq_some h, by simpa using List.find?_some h⟩

theorem LRU.lookup_of_mem {V : Type} {c : LRU V} {ent : entry V}
    (hnd : c.Keys.Nodup) (h : ent ∈ c.evictList) : c.lookup ent.key = some ent := by
  obtain ⟨size, l⟩ := c
  simp only [LRU.lookup, LRU.Keys] at *
  induction l with
  | nil => simp at h
  | cons a l ih =>
    simp only [List.map_cons, List.nodup_cons, List.mem_map, not_exists, not_and] at hnd
    rcases List.mem_cons.1 h with rfl | h
    · simp
    · have hne : a.key ≠ ent.key := fun hk => hnd.1 ent h hk.symm
      simp [List.find?_cons, hne, ih hnd.2 h]

theorem perm_cons_eraseP_of_find {V : Type} (p : entry V → Bool) :
    ∀ (l : List (entry V)) (ent : entry V), l.find? p = some ent →
      List.Perm l (ent :: l.eraseP p) := by
  intro l
  induction l with
  | nil => intro ent h; simp at h
  | cons a l ih =>
    intro ent h
    by_cases hp : p a = true
    · simp only [List.find?_cons, hp, Option.some.injEq] at h
      subst h
      simp [List.eraseP_cons, hp]
    · simp only [List.find?_cons, hp] at h
      simp only [List.eraseP_cons, hp, Bool.false_eq_true, ↓reduceIte]
      exact (List.Perm.cons a (ih ent h)).trans (List.Perm.swap ent a _)

theorem LRU.Get_miss {V : Type} {c : LRU V} {key : String} (h : c.lookup key = none) :
    c.Get key = (none, c) := by
  simp [LRU.Get, h]

theorem LRU.Get_hit {V : Type} {c : LRU V} {key : String} {ent : entry V}
    (h : c.lookup key = some ent) :
    c.Get key = (some ent.value,
      { c with evictList := ent :: c.evictList.eraseP (fun e => e.key == key) }) := by
  simp [LRU.Get, h]

theorem LRU.Add_miss {V : Type} {c : LRU V} {key : String} (value : V)
    (h : c.lookup key = none) :
    (c.Add key value).2 =
      { c with evictList :=
          if ((c.evictList.length : Int) + 1 > c.size) then
            ({ key := key, value := value } :: c.evictList).dropLast
          else { key := key, value := value } :: c.evictList } := by
  by_cases hev : (c.evictList.length : Int) + 1 > c.size
  · simp [LRU.Add, h, LRU.removeOldest, hev]
  · simp [LRU.Add, h, LRU.removeOldest, hev]

/-! ## The three outcomes of `MustCompileWithCache` -/

theorem MustCompileWithCache_hit {P : Type} (parse : String → Except String P)
    (r : RegexBuilder) (s : State P) {ent : entry (Regexp P)}
    (h : s.cache.lookup r.Build = some ent) :
    MustCompileWithCache parse r s =
      (.ok ent.value,
        { s with cache :=
            { s.cache with
              evictList := ent :: s.cache.evictList.eraseP (fun e => e.key == r.Build) } }) := by
  simp [MustCompileWithCache, LRU.Get_hit h]

theorem MustCompileWithCache_fail {P : Type} (parse : String → Except String P)
    (r : RegexBuilder) (s : State P) {err : String}
    (h : s.cache.lookup r.Build = none) (hc : regexpCompile parse r.Build = .error err) :
    MustCompileWithCache parse r s =
      (.error err, { s with compileCalls := s.compileCalls + 1 }) := by
  simp [MustCompileWithCache, LRU.Get_miss h, hc]

theorem MustCompileWithCache_miss {P : Type} (parse : String → Except String P)
    (r : RegexBuilder) (s : State P) {re : GoRegexp P}
    (h : s.cache.lookup r.Build = none) (hc : regexpCompile parse r.Build = .ok re) :
    MustCompileWithCache parse r s =
      (.ok { addr := s.nextAddr, re := re },
        { cache :=
            { s.cache with
              evictList :=
                if ((s.cache.evictList.length : Int) + 1 > s.cache.size) then
                  ({ key := r.Build, value := { addr := s.nextAddr, re := re } }
                    :: s.cache.evictList).dropLast
                else
                  { key := r.Build, value := { addr := s.nextAddr, re := re } }
                    :: s.cache.evictList }
          nextAddr := s.nextAddr + 1
          compileCalls := s.compileCalls + 1 }) := by
  simp [MustCompileWithCache, LRU.Get_miss h, hc, LRU.Add_miss _ h]

/-! ## The invariant holds in every reachable state -/

theorem Inv_init {P : Type} (parse : String → Except String P) :
    Inv parse (State.init : State P) := by
  constructor <;>
    simp [State.init, newCacheIgnoringError, LRU.New, defaultCacheSize, LRU.Keys]

theorem Inv_PurgeCache {P : Type} {parse : String → Except String P} {s : State P}
    (h : Inv parse s) : Inv parse (PurgeCache s) := by
  have hsize := h.size_pos
  constructor <;> simp [PurgeCache, LRU.Purge, LRU.Keys] <;> omega

theorem SetCacheSize_of_pos {P : Type} {n : Int} (hn : 0 < n) (s : State P) :
    SetCacheSize n s = (none, { s with cache := { size := n, evictList := [] } }) := by
  have h : ¬ n ≤ 0 := not_le.2 hn
  simp [SetCacheSize, LRU.New, h]

theorem SetCacheSize_of_nonpos {P : Type} {n : Int} (hn : n ≤ 0) (s : State P) :
    SetCacheSize n s = (some "cache size must be positive", s) := by
  simp [SetCacheSize, hn]

theorem Inv_SetCacheSize {P : Type} {parse : String → Except String P} {s : State P}
    (n : Int) (h : Inv parse s) : Inv parse (SetCacheSize n s).2 := by
  by_cases hn : n ≤ 0
  · rw [SetCacheSize_of_nonpos hn]
    exact h
  · have hpos : 0 < n := not_le.1 hn
    rw [SetCacheSize_of_pos hpos]
    constructor <;> simp [LRU.Keys] <;> omega

theorem Inv_of_sublist {P : Type} {parse : String → Except String P}
    {size : Int} {l l1 : List (entry (Regexp P))} {next calls : Nat} (calls1 : Nat)
    (h : Inv parse
      { cache := { size := size, evictList := l }
        nextAddr := next
        compileCalls := calls })
    (hsub : List.Sublist l1 l) (hlen : (l1.length : Int) ≤ size) :
    Inv parse
      { cache := { size := size, evictList := l1 }
        nextAddr := next
        compileCalls := calls1 } where
  size_pos := h.size_pos
  len_le := hlen
  keys_nodup := List.Nodup.sublist (List.Sublist.map _ hsub) h.keys_nodup
  addr_lt := fun e he => h.addr_lt e (hsub.subset he)
  addr_nodup := List.Nodup.sublist (List.Sublist.map _ hsub) h.addr_nodup
  compiled := fun e he => h.compiled e (hsub.subset he)

theorem Inv_MustCompileWithCache {P : Type} {parse : String → Except String P}
    {s : State P} (r : RegexBuilder) (h : Inv parse s) :
    Inv parse (MustCompileWithCache parse r s).2 := by
  cases hl : s.cache.lookup r.Build with
  | some ent =>
    rw [MustCompileWithCache_hit parse r s hl]
    have hperm := perm_cons_eraseP_of_find _ _ _ hl
    constructor
    · exact h.size_pos
    · simpa [← hperm.length_eq] using h.len_le
    · have := h.keys_nodup
      simp only [LRU.Keys] at this ⊢
      exact ((hperm.map _).nodup_iff).1 this
    · intro e he
      exact h.addr_lt e (hperm.mem_iff.2 he)
    · exact ((hperm.map _).nodup_iff).1 h.addr_nodup
    · intro e he
      exact h.compiled e (hperm.mem_iff.2 he)
  | none =>
    cases hc : regexpCompile parse r.Build with
    | error err =>
      rw [MustCompileWithCache_fail parse r s hl hc]
      exact ⟨h.size_pos, h.len_le, h.keys_nodup, h.addr_lt, h.addr_nodup, h.compiled⟩
    | ok re =>
      rw [MustCompileWithCache_miss parse r s hl hc]
      have hkey : r.Build ∉ s.cache.Keys := (LRU.lookup_eq_none_iff _ _).1 hl
      have hsize := h.size_pos
      have hlen := h.len_le
      have hbig : Inv parse
          { cache :=
              { size := s.cache.size + 1
                evictList :=
                  { key := r.Build, value := { addr := s.nextAddr, re := re } }
                    :: s.cache.evictList }
            nextAddr := s.nextAddr + 1
            compileCalls := s.compileCalls } := by
        constructor
        · simp only; omega
        · simp only [List.length_cons, Nat.cast_add, Nat.cast_one]; omega
        · simpa [LRU.Keys] using ⟨by simpa [LRU.Keys] using hkey, h.keys_nodup⟩
        · intro e he
          rcases List.mem_cons.1 he with rfl | he
          · simp
          · exact Nat.lt_succ_of_lt (h.addr_lt e he)
        · simp only [List.map_cons, List.nodup_cons, List.mem_map, not_exists, not_and]
          refine ⟨fun e he hk => ?_, h.addr_nodup⟩
          have := h.addr_lt e he
          omega
        · intro e he
          rcases List.mem_cons.1 he with rfl | he
          · exact hc
          · exact h.compiled e he
      have hsmall : ∀ l1, List.Sublist l1
            ({ key := r.Build, value := { addr := s.nextAddr, re := re } } :: s.cache.evictList) →
          (l1.length : Int) ≤ s.cache.size →
          Inv parse
            { cache := { size := s.cache.size, evictList := l1 }
              nextAddr := s.nextAddr + 1
              compileCalls := s.compileCalls + 1 } := by
        intro l1 hsub hl1
        have := Inv_of_sublist (s.compileCalls + 1) hbig hsub (by omega)
        exact ⟨hsize, hl1, this.keys_nodup, this.addr_lt, this.addr_nodup, this.compiled⟩
      by_cases hev : (s.cache.evictList.length : Int) + 1 > s.cache.size
      · simp only [hev, ↓reduceIte]
        refine hsmall _ (List.dropLast_sublist _) ?_
        simp only [List.length_dropLast, List.length_cons, Nat.add_sub_cancel]
        exact hlen
      · simp only [hev, ↓reduceIte]
        refine hsmall _ (List.Sublist.refl _) ?_
        simp only [List.length_cons, Nat.cast_add, Nat.cast_one]
        omega

theorem Compile_state {P : Type} (parse : String → Except String P)
    (r : RegexBuilderPtr) (h : Heap) (s : State P) :
    (r.Compile parse h s).2.2.cache = s.cache ∧
    s.nextAddr ≤ (r.Compile parse h s).2.2.nextAddr ∧
    (r.Compile parse h s).2.2.compileCalls = s.compileCalls + 1 := by
  cases hc : regexpCompile parse (h.contents r.builder) <;>
    simp [RegexBuilderPtr.Compile, hc]

theorem Inv_Compile {P : Type} {parse : String → Except String P} {s : State P}
    (r : RegexBuilderPtr) (h : Heap) (hi : Inv parse s) :
    Inv parse (r.Compile parse h s).2.2 := by
  obtain ⟨hc, hn, _⟩ := Compile_state parse r h s
  constructor
  · rw [hc]; exact hi.size_pos
  · rw [hc]; exact hi.len_le
  · rw [hc]; exact hi.keys_nodup
  · rw [hc]; exact fun e he => lt_of_lt_of_le (hi.addr_lt e he) hn
  · rw [hc]; exact hi.addr_nodup
  · rw [hc]; exact hi.compiled

theorem Reachable.inv {P : Type} {parse : String → Except String P} {s : State P}
    (h : Reachable parse s) : Inv parse s := by
  induction h with
  | init => exact Inv_init parse
  | compile r _ ih => exact Inv_MustCompileWithCache r ih
  | purge _ ih => exact Inv_PurgeCache ih
  | setSize n _ ih => exact Inv_SetCacheSize n ih
  | direct r h _ ih => exact Inv_Compile r h ih

/-! ## What a call leaves behind -/

theorem LRU.lookup_head {V : Type} {c : LRU V} {key : String} {value : V}
    {tl : List (entry V)} (h : c.evictList = { key := key, value := value } :: tl) :
    c.lookup key = some { key := key, value := value } := by
  simp [LRU.lookup, h]

/-- A resident key compiles, in a state satisfying the invariant. -/
theorem Inv.lookup_compiled {P : Type} {parse : String → Except String P} {s : State P}
    (h : Inv parse s) {key : String} {ent : entry (Regexp P)}
    (hl : s.cache.lookup key = some ent) : regexpCompile parse key = .ok ent.value.re := by
  obtain ⟨hmem, hk⟩ := LRU.lookup_some hl
  rw [← hk]
  exact h.compiled ent hmem

/-- A key whose compilation fails is not resident. -/
theorem Inv.lookup_of_error {P : Type} {parse : String → Except String P} {s : State P}
    (h : Inv parse s) {key err : String} (hc : regexpCompile parse key = .error err) :
    s.cache.lookup key = none := by
  cases hl : s.cache.lookup key with
  | none => rfl
  | some ent =>
    have := h.lookup_compiled hl
    rw [hc] at this
    cases this

/-- A call that returns leaves the returned pointer at the front of the recency
order, under the key it was asked for. -/
theorem MustCompileWithCache_front {P : Type} {parse : String → Except String P}
    {s : State P} (h : Inv parse s) (r : RegexBuilder) {re : Regexp P}
    (hre : (MustCompileWithCache parse r s).1 = .ok re) :
    ∃ tl, (MustCompileWithCache parse r s).2.cache.evictList
      = { key := r.Build, value := re } :: tl := by
  cases hl : s.cache.lookup r.Build with
  | some ent =>
    rw [MustCompileWithCache_hit parse r s hl] at hre ⊢
    simp only [Except.ok.injEq] at hre
    obtain ⟨_, hk⟩ := LRU.lookup_some hl
    refine ⟨s.cache.evictList.eraseP (fun e => e.key == r.Build), ?_⟩
    simp only [List.cons.injEq, and_true]
    rw [← hre, ← hk]
  | none =>
    cases hc : regexpCompile parse r.Build with
    | error err =>
      rw [MustCompileWithCache_fail parse r s hl hc] at hre
      cases hre
    | ok re0 =>
      rw [MustCompileWithCache_miss parse r s hl hc] at hre ⊢
      simp only [Except.ok.injEq] at hre
      subst hre
      by_cases hev : (s.cache.evictList.length : Int) + 1 > s.cache.size
      · simp only [hev, ↓reduceIte]
        have hsize := h.size_pos
        cases hlist : s.cache.evictList with
        | nil => rw [hlist] at hev; simp at hev; omega
        | cons a l => exact ⟨(a :: l).dropLast, by simp [List.dropLast]⟩
      · simp only [hev, ↓reduceIte]
        exact ⟨_, rfl⟩

/-- A call that returns gives a pointer allocated before the new `nextAddr`. -/
theorem MustCompileWithCache_addr_lt {P : Type} {parse : String → Except String P}
    {s : State P} (h : Inv parse s) (r : RegexBuilder) {re : Regexp P}
    (hre : (MustCompileWithCache parse r s).1 = .ok re) :
    re.addr < (MustCompileWithCache parse r s).2.nextAddr := by
  obtain ⟨tl, htl⟩ := MustCompileWithCache_front h r hre
  have hinv : Inv parse (MustCompileWithCache parse r s).2 := Inv_MustCompileWithCache r h
  have := hinv.addr_lt { key := r.Build, value := re } (by rw [htl]; exact List.mem_cons_self _ _)
  exact this

/-- A call on a description that compiles returns, and what it returns holds the
`regexp.Compile` result for the description. -/
theorem MustCompileWithCache_ok {P : Type} {parse : String → Except String P}
    {s : State P} (h : Inv parse s) (r : RegexBuilder) {re0 : GoRegexp P}
    (hc : regexpCompile parse r.Build = .ok re0) :
    ∃ re, (MustCompileWithCache parse r s).1 = .ok re ∧ re.re = re0 := by
  cases hl : s.cache.lookup r.Build with
  | some ent =>
    rw [MustCompileWithCache_hit parse r s hl]
    have := h.lookup_compiled hl
    rw [hc] at this
    exact ⟨ent.value, rfl, by simpa using this.symm⟩
  | none =>
    rw [MustCompileWithCache_miss parse r s hl hc]
    exact ⟨_, rfl, rfl⟩

/-- A call on a description that is not resident and compiles returns the pointer
allocated at `nextAddr`, and calls `regexp.Compile` once. -/
theorem MustCompileWithCache_fresh {P : Type} (parse : String → Except String P)
    (r : RegexBuilder) (s : State P) {re0 : GoRegexp P}
    (hl : s.cache.lookup r.Build = none) (hc : regexpCompile parse r.Build = .ok re0) :
    (MustCompileWithCache parse r s).1 = .ok { addr := s.nextAddr, re := re0 } ∧
      (MustCompileWithCache parse r s).2.nextAddr = s.nextAddr + 1 ∧
      (MustCompileWithCache parse r s).2.compileCalls = s.compileCalls + 1 := by
  rw [MustCompileWithCache_miss parse r s hl hc]
  exact ⟨rfl, rfl, rfl⟩

/-! ## Sequences of insertions -/

/-- Inserting a description that is not resident and compiles: the keys are the new
key followed by the old ones, cut to the capacity. -/
theorem MustCompileWithCache_miss_keys {P : Type} (parse : String → Except String P)
    (r : RegexBuilder) (s : State P) {re : GoRegexp P} (C : Nat)
    (hsize : s.cache.size = (C : Int)) (hlen : s.cache.evictList.length ≤ C)
    (h : s.cache.lookup r.Build = none) (hc : regexpCompile parse r.Build = .ok re) :
    (MustCompileWithCache parse r s).2.cache.Keys = (r.Build :: s.cache.Keys).take C ∧
    (MustCompileWithCache parse r s).2.cache.size = (C : Int) := by
  rw [MustCompileWithCache_miss parse r s h hc]
  refine ⟨?_, hsize⟩
  simp only [LRU.Keys]
  by_cases hev : (s.cache.evictList.length : Int) + 1 > s.cache.size
  · have hC : s.cache.evictList.length = C := by omega
    rw [if_pos hev]
    simp only [List.dropLast_eq_take, List.length_cons, Nat.add_sub_cancel,
      List.map_take, List.map_cons, hC]
  · have hC : s.cache.evictList.length + 1 ≤ C := by omega
    rw [if_neg hev]
    simp only [List.map_cons]
    rw [List.take_of_length_le]
    simpa using hC

theorem take_append_take {α : Type} (C : Nat) (A B : List α) :
    (A ++ B.take C).take C = (A ++ B).take C := by
  rw [List.take_append_eq_append_take, List.take_append_eq_append_take, List.take_take]
  congr 2
  omega

/-- After inserting pairwise distinct descriptions that compile and are not resident,
the keys are these descriptions, last inserted first, followed by the old keys,
cut to the capacity; one pointer was allocated and one compilation done for
each. -/
theorem callAll_keys {P : Type} (parse : String → Except String P) (C : Nat) :
    ∀ (ds : List String) (s : State P), s.cache.size = (C : Int) →
      s.cache.evictList.length ≤ C → ds.Nodup →
      (∀ d ∈ ds, ∃ re, regexpCompile parse d = .ok re) →
      (∀ d ∈ ds, d ∉ s.cache.Keys) →
      (callAll parse (ds.map RegexBuilder.mk) s).cache.Keys
          = (ds.reverse ++ s.cache.Keys).take C ∧
        (callAll parse (ds.map RegexBuilder.mk) s).cache.size = (C : Int) ∧
        (callAll parse (ds.map RegexBuilder.mk) s).nextAddr = s.nextAddr + ds.length := by
  intro ds
  induction ds with
  | nil =>
    intro s hsize hlen _ _ _
    refine ⟨?_, hsize, rfl⟩
    simp only [callAll, List.map_nil, List.foldl_nil, List.reverse_nil, List.nil_append]
    rw [List.take_of_length_le]
    simpa [LRU.Keys] using hlen
  | cons d ds ih =>
    intro s hsize hlen hnd hcomp hres
    obtain ⟨re, hre⟩ := hcomp d (List.mem_cons_self _ _)
    have hl : s.cache.lookup (RegexBuilder.mk d).Build = none :=
      (LRU.lookup_eq_none_iff _ _).2 (hres d (List.mem_cons_self _ _))
    obtain ⟨hkeys, hsize1⟩ :=
      MustCompileWithCache_miss_keys parse ⟨d⟩ s C hsize hlen hl hre
    obtain ⟨_, hnext, _⟩ := MustCompileWithCache_fresh parse ⟨d⟩ s hl hre
    have hlen1 : (MustCompileWithCache parse ⟨d⟩ s).2.cache.evictList.length ≤ C := by
      have := congrArg List.length hkeys
      simp only [LRU.Keys, List.length_map, List.length_take] at this
      omega
    rw [List.nodup_cons] at hnd
    have hres1 : ∀ x ∈ ds, x ∉ (MustCompileWithCache parse ⟨d⟩ s).2.cache.Keys := by
      intro x hx hmem
      rw [hkeys] at hmem
      rcases List.mem_cons.1 (List.mem_of_mem_take hmem) with hxd | hxs
      · have hxd1 : x = d := hxd
        exact hnd.1 (hxd1 ▸ hx)
      · exact hres x (List.mem_cons_of_mem _ hx) hxs
    obtain ⟨ihk, ihs, ihn⟩ := ih (MustCompileWithCache parse ⟨d⟩ s).2 hsize1 hlen1 hnd.2
      (fun x hx => hcomp x (List.mem_cons_of_mem _ hx)) hres1
    have hstep : callAll parse ((d :: ds).map RegexBuilder.mk) s
        = callAll parse (ds.map RegexBuilder.mk) (MustCompileWithCache parse ⟨d⟩ s).2 := by
      simp [callAll]
    rw [hstep]
    refine ⟨?_, ihs, ?_⟩
    · rw [ihk, hkeys, take_append_take]
      simp [RegexBuilder.Build]
    · rw [ihn, hnext, List.length_cons]
      omega

/-! ## The claims -/

/-- C1. Cache hit identity: in every reachable state, two consecutive
`MustCompileWithCache` calls on builders whose `Build()` is the same description
`d`, a description that compiles, return the identical `Regexp` instance: the
same pointer (same address, hence the same contents). -/
theorem cache_hit_identity {P : Type} (parse : String → Except String P) (s : State P)
    (hs : Reachable parse s) (r1 r2 : RegexBuilder) (d : String) (re0 : GoRegexp P)
    (h1 : r1.Build = d) (h2 : r2.Build = d) (hd : regexpCompile parse d = .ok re0) :
    ∃ re : Regexp P,
      (MustCompileWithCache parse r1 s).1 = .ok re ∧
      (MustCompileWithCache parse r2 (MustCompileWithCache parse r1 s).2).1 = .ok re := by
  have hinv := hs.inv
  obtain ⟨re, hre, _⟩ := MustCompileWithCache_ok hinv r1 (h1 ▸ hd)
  refine ⟨re, hre, ?_⟩
  obtain ⟨tl, htl⟩ := MustCompileWithCache_front hinv r1 hre
  have hl := LRU.lookup_head htl
  rw [h1, ← h2] at hl
  rw [MustCompileWithCache_hit parse r2 _ hl]

/-- Witness of C1: from the initial state, with the toy compile function, on two
builders holding `hello`. -/
theorem cache_hit_identity_witness :
    Reachable toyParse (State.init : State Nat) ∧
    (RegexBuilder.mk "hello").Build = "hello" ∧
    regexpCompile toyParse "hello" = .ok { expr := "hello", prog := 5 } ∧
    ∃ re : Regexp Nat,
      (MustCompileWithCache toyParse ⟨"hello"⟩ State.init).1 = .ok re ∧
      (MustCompileWithCache toyParse ⟨"hello"⟩
        (MustCompileWithCache toyParse ⟨"hello"⟩ State.init).2).1 = .ok re :=
  ⟨Reachable.init, rfl, rfl,
    cache_hit_identity toyParse State.init Reachable.init ⟨"hello"⟩ ⟨"hello"⟩ "hello"
      { expr := "hello", prog := 5 } rfl rfl rfl⟩

/-- C2. Purge invalidation: for a description `d` that compiles, in every reachable
state, `MustCompileWithCache(d); PurgeCache(); MustCompileWithCache(d)` returns
on the second call a `Regexp` instance at another address than the one the
first call returned. -/
theorem purge_invalidation {P : Type} (parse : String → Except String P) (s : State P)
    (hs : Reachable parse s) (r1 r2 : RegexBuilder) (d : String) (re0 : GoRegexp P)
    (h1 : r1.Build = d) (h2 : r2.Build = d) (hd : regexpCompile parse d = .ok re0) :
    ∃ re1 re4 : Regexp P,
      (MustCompileWithCache parse r1 s).1 = .ok re1 ∧
      (MustCompileWithCache parse r2 (PurgeCache (MustCompileWithCache parse r1 s).2)).1
        = .ok re4 ∧
      re4.addr ≠ re1.addr := by
  have hinv := hs.inv
  obtain ⟨re1, hre1, _⟩ := MustCompileWithCache_ok hinv r1 (h1 ▸ hd)
  have hlt := MustCompileWithCache_addr_lt hinv r1 hre1
  have hl : (PurgeCache (MustCompileWithCache parse r1 s).2).cache.lookup r2.Build = none := by
    simp [PurgeCache, LRU.Purge, LRU.lookup]
  obtain ⟨hre4, _, _⟩ := MustCompileWithCache_fresh parse r2 _ hl (h2 ▸ hd)
  refine ⟨re1, _, hre1, hre4, ?_⟩
  simp only [PurgeCache]
  omega

/-- Witness of C2: the run of `TestCache`, with the toy compile function. -/
theorem purge_invalidation_witness :
    Reachable toyParse (State.init : State Nat) ∧
    regexpCompile toyParse "hello" = .ok { expr := "hello", prog := 5 } ∧
    ∃ re1 re4 : Regexp Nat,
      (MustCompileWithCache toyParse ⟨"hello"⟩ State.init).1 = .ok re1 ∧
      (MustCompileWithCache toyParse ⟨"hello"⟩
        (PurgeCache (MustCompileWithCache toyParse ⟨"hello"⟩ State.init).2)).1 = .ok re4 ∧
      re4.addr ≠ re1.addr :=
  ⟨Reachable.init, rfl,
    purge_invalidation toyParse State.init Reachable.init ⟨"hello"⟩ ⟨"hello"⟩ "hello"
      { expr := "hello", prog := 5 } rfl rfl rfl⟩

/-- C3. Capacity bound invariant: in every state reachable from the initial cache by
`MustCompileWithCache` (returning or panicking), `PurgeCache` and
`SetCacheSize` calls, the number of resident entries is at most the current
capacity. -/
theorem capacity_bound {P : Type} (parse : String → Except String P) (s : State P)
    (hs : Reachable parse s) : (s.cache.Len : Int) ≤ s.cache.size :=
  hs.inv.len_le

/-- Witness of C3: capacity 1, then two descriptions that compile and one that
does not. -/
theorem capacity_bound_witness :
    Reachable toyParse
      (MustCompileWithCache toyParse ⟨"(b"⟩
        (MustCompileWithCache toyParse ⟨"b"⟩
          (MustCompileWithCache toyParse ⟨"a"⟩
            (SetCacheSize 1 (State.init : State Nat)).2).2).2).2 ∧
    (((MustCompileWithCache toyParse ⟨"(b"⟩
        (MustCompileWithCache toyParse ⟨"b"⟩
          (MustCompileWithCache toyParse ⟨"a"⟩
            (SetCacheSize 1 (State.init : State Nat)).2).2).2).2.cache.Len : Nat) : Int) ≤
      (MustCompileWithCache toyParse ⟨"(b"⟩
        (MustCompileWithCache toyParse ⟨"b"⟩
          (MustCompileWithCache toyParse ⟨"a"⟩
            (SetCacheSize 1 (State.init : State Nat)).2).2).2).2.cache.size :=
  ⟨Reachable.compile _ (Reachable.compile _ (Reachable.compile _
      (Reachable.setSize 1 Reachable.init))),
    capacity_bound toyParse _
      (Reachable.compile _ (Reachable.compile _ (Reachable.compile _
        (Reachable.setSize 1 Reachable.init))))⟩

/-- C4. LRU recency refresh: starting from an empty cache of capacity 2, for
builders `r1`, `r2`, `r3` with pairwise distinct descriptions that compile, the
calls `r1`, `r2`, `r1`, `r3` return `p1`, `p2`, `p1` again (a hit) and `p3`, and
leave exactly the descriptions of `r3` and `r1` resident, that of `r2` being
evicted: a following call on `r1` returns the original instance `p1`, and a
call on `r2` after that (or in its place) compiles again and returns an
instance at another address than `p2`. -/
theorem lru_recency_refresh {P : Type} (parse : String → Except String P) (s : State P)
    (hs : s.cache = { size := 2, evictList := [] }) (r1 r2 r3 : RegexBuilder)
    (re1 re2 re3 : GoRegexp P)
    (h12 : r1.Build ≠ r2.Build) (h13 : r1.Build ≠ r3.Build) (h23 : r2.Build ≠ r3.Build)
    (hc1 : regexpCompile parse r1.Build = .ok re1)
    (hc2 : regexpCompile parse r2.Build = .ok re2)
    (hc3 : regexpCompile parse r3.Build = .ok re3) :
    ∃ p1 p2 p3 q2 : Regexp P,
      (MustCompileWithCache parse r1 s).1 = .ok p1 ∧
      (MustCompileWithCache parse r2 (callAll parse [r1] s)).1 = .ok p2 ∧
      (MustCompileWithCache parse r1 (callAll parse [r1, r2] s)).1 = .ok p1 ∧
      (MustCompileWithCache parse r3 (callAll parse [r1, r2, r1] s)).1 = .ok p3 ∧
      (callAll parse [r1, r2, r1, r3] s).cache.Keys = [r3.Build, r1.Build] ∧
      (callAll parse [r1, r2, r1, r3] s).cache.Contains r2.Build = false ∧
      (MustCompileWithCache parse r1 (callAll parse [r1, r2, r1, r3] s)).1 = .ok p1 ∧
      (MustCompileWithCache parse r2 (callAll parse [r1, r2, r1, r3] s)).1 = .ok q2 ∧
      (MustCompileWithCache parse r2 (callAll parse [r1, r2, r1, r3, r1] s)).1 = .ok q2 ∧
      (MustCompileWithCache parse r2 (callAll parse [r1, r2, r1, r3, r1] s)).2.compileCalls
        = (callAll parse [r1, r2, r1, r3, r1] s).compileCalls + 1 ∧
      q2.addr ≠ p1.addr ∧ q2.addr ≠ p2.addr ∧ q2.addr ≠ p3.addr := by
  obtain ⟨c, next, calls⟩ := s
  simp only at hs
  subst hs
  have h21 := h12.symm
  have h31 := h13.symm
  have h32 := h23.symm
  refine ⟨⟨next, re1⟩, ⟨next + 1, re2⟩, ⟨next + 2, re3⟩, ⟨next + 3, re2⟩, ?_⟩
  simp [callAll, MustCompileWithCache, LRU.Get, LRU.Add, LRU.lookup, LRU.removeOldest,
    LRU.Keys, LRU.Contains, List.find?_cons, List.eraseP_cons, hc1, hc2, hc3, h12, h13, h23,
    h21, h31, h32]

/-- Witness of C4: capacity 2 and the descriptions `a`, `b`, `c`. -/
theorem lru_recency_refresh_witness :
    (SetCacheSize 2 (State.init : State Nat)).2.cache = { size := 2, evictList := [] } ∧
    ∃ p1 p2 p3 q2 : Regexp Nat,
      (MustCompileWithCache toyParse ⟨"a"⟩ (SetCacheSize 2 State.init).2).1 = .ok p1 ∧
      (MustCompileWithCache toyParse ⟨"b"⟩
        (callAll toyParse [⟨"a"⟩] (SetCacheSize 2 State.init).2)).1 = .ok p2 ∧
      (MustCompileWithCache toyParse ⟨"a"⟩
        (callAll toyParse [⟨"a"⟩, ⟨"b"⟩] (SetCacheSize 2 State.init).2)).1 = .ok p1 ∧
      (MustCompileWithCache toyParse ⟨"c"⟩
        (callAll toyParse [⟨"a"⟩, ⟨"b"⟩, ⟨"a"⟩] (SetCacheSize 2 State.init).2)).1 = .ok p3 ∧
      (callAll toyParse [⟨"a"⟩, ⟨"b"⟩, ⟨"a"⟩, ⟨"c"⟩] (SetCacheSize 2 State.init).2).cache.Keys
        = ["c", "a"] ∧
      (callAll toyParse [⟨"a"⟩, ⟨"b"⟩, ⟨"a"⟩, ⟨"c"⟩]
        (SetCacheSize 2 State.init).2).cache.Contains "b" = false ∧
      (MustCompileWithCache toyParse ⟨"a"⟩
        (callAll toyParse [⟨"a"⟩, ⟨"b"⟩, ⟨"a"⟩, ⟨"c"⟩] (SetCacheSize 2 State.init).2)).1
          = .ok p1 ∧
      (MustCompileWithCache toyParse ⟨"b"⟩
        (callAll toyParse [⟨"a"⟩, ⟨"b"⟩, ⟨"a"⟩, ⟨"c"⟩] (SetCacheSize 2 State.init).2)).1
          = .ok q2 ∧
      (MustCompileWithCache toyParse ⟨"b"⟩
        (callAll toyParse [⟨"a"⟩, ⟨"b"⟩, ⟨"a"⟩, ⟨"c"⟩, ⟨"a"⟩] (SetCacheSize 2 State.init).2)).1
          = .ok q2 ∧
      (MustCompileWithCache toyParse ⟨"b"⟩
        (callAll toyParse [⟨"a"⟩, ⟨"b"⟩, ⟨"a"⟩, ⟨"c"⟩, ⟨"a"⟩]
          (SetCacheSize 2 State.init).2)).2.compileCalls
        = (callAll toyParse [⟨"a"⟩, ⟨"b"⟩, ⟨"a"⟩, ⟨"c"⟩, ⟨"a"⟩]
            (SetCacheSize 2 State.init).2).compileCalls + 1 ∧
      q2.addr ≠ p1.addr ∧ q2.addr ≠ p2.addr ∧ q2.addr ≠ p3.addr :=
  ⟨rfl,
    lru_recency_refresh toyParse (SetCacheSize 2 State.init).2 rfl ⟨"a"⟩ ⟨"b"⟩ ⟨"c"⟩
      { expr := "a", prog := 1 } { expr := "b", prog := 1 } { expr := "c", prog := 1 }
      (by decide) (by decide) (by decide) rfl rfl rfl⟩

/-- C5. Capacity overflow: for every capacity `C ≥ 1` and every list `d0 :: rest`
of `C + 1` pairwise distinct descriptions that compile and are not resident,
after `MustCompileWithCache` on them in order exactly `C` entries are resident,
their keys are the last `C` descriptions (`rest`, last inserted first), and the
first one, `d0`, is not resident: fetching it again returns an instance at
another address than the one its insertion returned. -/
theorem capacity_overflow {P : Type} (parse : String → Except String P) (C : Nat)
    (_hC : 1 ≤ C) (s : State P) (hsize : s.cache.size = (C : Int))
    (hlen : s.cache.Len ≤ C) (d0 : String) (rest : List String)
    (hrest : rest.length = C) (hnd : (d0 :: rest).Nodup)
    (hcomp : ∀ d ∈ d0 :: rest, ∃ re, regexpCompile parse d = .ok re)
    (hres : ∀ d ∈ d0 :: rest, s.cache.Contains d = false) :
    (callAll parse ((d0 :: rest).map RegexBuilder.mk) s).cache.Len = C ∧
    (callAll parse ((d0 :: rest).map RegexBuilder.mk) s).cache.Keys = rest.reverse ∧
    (callAll parse ((d0 :: rest).map RegexBuilder.mk) s).cache.Contains d0 = false ∧
    ∃ p q : Regexp P,
      (MustCompileWithCache parse ⟨d0⟩ s).1 = .ok p ∧
      (MustCompileWithCache parse ⟨d0⟩
        (callAll parse ((d0 :: rest).map RegexBuilder.mk) s)).1 = .ok q ∧
      q.addr ≠ p.addr := by
  have hres1 : ∀ d ∈ d0 :: rest, d ∉ s.cache.Keys := by
    intro d hd
    have := hres d hd
    refine (LRU.lookup_eq_none_iff _ _).1 ?_
    cases hlk : s.cache.lookup d with
    | none => rfl
    | some ent => simp [LRU.Contains, hlk] at this
  obtain ⟨hk, _, hn⟩ := callAll_keys parse C (d0 :: rest) s hsize hlen hnd hcomp hres1
  have hkeys : (callAll parse ((d0 :: rest).map RegexBuilder.mk) s).cache.Keys
      = rest.reverse := by
    rw [hk, List.reverse_cons, List.append_assoc, List.take_append_eq_append_take,
      List.take_of_length_le (by simp [hrest])]
    simp [hrest]
  have hd0 : d0 ∉ (callAll parse ((d0 :: rest).map RegexBuilder.mk) s).cache.Keys := by
    rw [hkeys, List.mem_reverse]
    exact (List.nodup_cons.1 hnd).1
  have hl := (LRU.lookup_eq_none_iff _ _).2 hd0
  obtain ⟨re, hre⟩ := hcomp d0 (List.mem_cons_self _ _)
  have hl0 : s.cache.lookup (RegexBuilder.mk d0).Build = none :=
    (LRU.lookup_eq_none_iff _ _).2 (hres1 d0 (List.mem_cons_self _ _))
  obtain ⟨hp, _, _⟩ := MustCompileWithCache_fresh parse ⟨d0⟩ s hl0 hre
  obtain ⟨hq, _, _⟩ := MustCompileWithCache_fresh parse ⟨d0⟩ _ hl hre
  refine ⟨?_, hkeys, ?_, _, _, hp, hq, ?_⟩
  · have := congrArg List.length hkeys
    simpa [LRU.Keys, LRU.Len, hrest] using this
  · simp only [LRU.Contains, hl, Option.isSome_none]
  · simp only [hn, List.length_cons]
    omega

/-- Witness of C5: capacity 2 and the three descriptions `a`, `b`, `c`. -/
theorem capacity_overflow_witness :
    (SetCacheSize 2 (State.init : State Nat)).2.cache.size = ((2 : Nat) : Int) ∧
    ["a", "b", "c"].Nodup ∧
    (callAll toyParse (["a", "b", "c"].map RegexBuilder.mk)
      (SetCacheSize 2 (State.init : State Nat)).2).cache.Len = 2 ∧
    (callAll toyParse (["a", "b", "c"].map RegexBuilder.mk)
      (SetCacheSize 2 (State.init : State Nat)).2).cache.Keys = ["c", "b"] ∧
    (callAll toyParse (["a", "b", "c"].map RegexBuilder.mk)
      (SetCacheSize 2 (State.init : State Nat)).2).cache.Contains "a" = false :=
  have h := capacity_overflow toyParse 2 (by decide) (SetCacheSize 2 (State.init : State Nat)).2
    rfl (by decide) "a" ["b", "c"] rfl (by decide)
    (by
      intro d hd
      simp only [List.mem_cons, List.mem_singleton, List.not_mem_nil, or_false] at hd
      rcases hd with rfl | rfl | rfl <;> exact ⟨_, rfl⟩)
    (by decide)
  ⟨rfl, by decide, h.1, h.2.1, h.2.2.1⟩

/-- C6. Failures are not cached: for a description on which the compile function
fails, in every reachable state, `MustCompileWithCache` panics with the compile
error and leaves the cache unchanged (same entries in the same recency order,
same capacity) and allocates nothing, and an immediately repeated call panics
with the same error. -/
theorem failures_not_cached {P : Type} (parse : String → Except String P) (s : State P)
    (hs : Reachable parse s) (r : RegexBuilder) (err : String)
    (hc : regexpCompile parse r.Build = .error err) :
    (MustCompileWithCache parse r s).1 = .error err ∧
    (MustCompileWithCache parse r s).2.cache = s.cache ∧
    (MustCompileWithCache parse r s).2.nextAddr = s.nextAddr ∧
    (MustCompileWithCache parse r (MustCompileWithCache parse r s).2).1 = .error err := by
  have hl := hs.inv.lookup_of_error hc
  have h := MustCompileWithCache_fail parse r s hl hc
  have hl2 : (MustCompileWithCache parse r s).2.cache.lookup r.Build = none := by
    rw [h]; exact hl
  rw [MustCompileWithCache_fail parse r _ hl2 hc, h]
  exact ⟨rfl, rfl, rfl, rfl⟩

/-- Witness of C6: a malformed description after one that compiles. -/
theorem failures_not_cached_witness :
    Reachable toyParse (MustCompileWithCache toyParse ⟨"a"⟩ (State.init : State Nat)).2 ∧
    regexpCompile toyParse "(?P<x" = .error "missing closing )" ∧
    (MustCompileWithCache toyParse ⟨"(?P<x"⟩
      (MustCompileWithCache toyParse ⟨"a"⟩ (State.init : State Nat)).2).1
        = .error "missing closing )" ∧
    (MustCompileWithCache toyParse ⟨"(?P<x"⟩
      (MustCompileWithCache toyParse ⟨"a"⟩ (State.init : State Nat)).2).2.cache
        = (MustCompileWithCache toyParse ⟨"a"⟩ (State.init : State Nat)).2.cache :=
  have h := failures_not_cached toyParse
    (MustCompileWithCache toyParse ⟨"a"⟩ (State.init : State Nat)).2
    (Reachable.compile _ Reachable.init) ⟨"(?P<x"⟩ "missing closing )" rfl
  ⟨Reachable.compile _ Reachable.init, rfl, h.1, h.2.1⟩

/-- C7. `SetCacheSize` rejects non-positive sizes atomically: for every `n ≤ 0` and
every state, `SetCacheSize(n)` returns an error and leaves the state (entries,
recency order, capacity) unchanged, so that any following
`MustCompileWithCache` call behaves as it would have without the call: an entry
inserted before is still returned with the same instance. -/
theorem SetCacheSize_rejects_nonpositive {P : Type} (n : Int) (hn : n ≤ 0) (s : State P) :
    (SetCacheSize n s).1 = some "cache size must be positive" ∧
    (SetCacheSize n s).2 = s ∧
    ∀ (parse : String → Except String P) (r : RegexBuilder),
      MustCompileWithCache parse r (SetCacheSize n s).2 = MustCompileWithCache parse r s := by
  rw [SetCacheSize_of_nonpos hn]
  exact ⟨rfl, rfl, fun _ _ => rfl⟩

/-- Witness of C7: `SetCacheSize(0)` after one insertion. -/
theorem SetCacheSize_rejects_nonpositive_witness :
    (0 : Int) ≤ 0 ∧
    (SetCacheSize 0 (MustCompileWithCache toyParse ⟨"a"⟩ State.init).2).1
      = some "cache size must be positive" ∧
    (SetCacheSize 0 (MustCompileWithCache toyParse ⟨"a"⟩ State.init).2).2
      = (MustCompileWithCache toyParse ⟨"a"⟩ State.init).2 :=
  have h := SetCacheSize_rejects_nonpositive 0 (le_refl 0)
    (MustCompileWithCache toyParse ⟨"a"⟩ State.init).2
  ⟨le_refl 0, h.1, h.2.1⟩

/-- C8. `SetCacheSize` is a full reset: for every `n > 0` and every state,
`SetCacheSize(n)` returns no error and leaves an empty cache whose capacity is
exactly `n` (not the default size), so that no description is resident and the
next `MustCompileWithCache` call, whatever its description, calls
`regexp.Compile`. -/
theorem SetCacheSize_full_reset {P : Type} (n : Int) (hn : 0 < n) (s : State P) :
    (SetCacheSize n s).1 = none ∧
    (SetCacheSize n s).2.cache = { size := n, evictList := [] } ∧
    (SetCacheSize n s).2.nextAddr = s.nextAddr ∧
    (∀ key, (SetCacheSize n s).2.cache.Contains key = false) ∧
    ∀ (parse : String → Except String P) (r : RegexBuilder),
      (MustCompileWithCache parse r (SetCacheSize n s).2).2.compileCalls
        = s.compileCalls + 1 := by
  rw [SetCacheSize_of_pos hn]
  refine ⟨rfl, rfl, rfl, fun key => by simp [LRU.Contains, LRU.lookup], fun parse r => ?_⟩
  have hl : ({ s with cache := { size := n, evictList := [] } } : State P).cache.lookup r.Build
      = none := by simp [LRU.lookup]
  cases hc : regexpCompile parse r.Build with
  | error err => rw [MustCompileWithCache_fail parse r _ hl hc]
  | ok re => rw [MustCompileWithCache_miss parse r _ hl hc]

/-- Witness of C8: `SetCacheSize(3)` after one insertion. -/
theorem SetCacheSize_full_reset_witness :
    (0 : Int) < 3 ∧
    (SetCacheSize 3 (MustCompileWithCache toyParse ⟨"a"⟩ State.init).2).1 = none ∧
    (SetCacheSize 3 (MustCompileWithCache toyParse ⟨"a"⟩ State.init).2).2.cache
      = { size := 3, evictList := [] } :=
  have h := SetCacheSize_full_reset 3 (by decide)
    (MustCompileWithCache toyParse ⟨"a"⟩ State.init).2
  ⟨by decide, h.1, h.2.1⟩

/-- C9. Entry provenance invariant: in every reachable state, every resident entry
holds the `regexp.Compile` result for its own key, so the source text
(`String()`) of the stored `Regexp` equals the key. -/
theorem entry_provenance {P : Type} (parse : String → Except String P) (s : State P)
    (hs : Reachable parse s) (e : entry (Regexp P)) (he : e ∈ s.cache.evictList) :
    regexpCompile parse e.key = .ok e.value.re ∧ e.value.String = e.key := by
  have h := hs.inv.compiled e he
  refine ⟨h, ?_⟩
  unfold regexpCompile at h
  cases hp : parse e.key with
  | error err => rw [hp] at h; cases h
  | ok prog =>
    rw [hp] at h
    simp only [Except.ok.injEq] at h
    simp [Regexp.String, GoRegexp.String, ← h]

/-- Witness of C9: the entry left by one insertion. -/
theorem entry_provenance_witness :
    Reachable toyParse (MustCompileWithCache toyParse ⟨"ab"⟩ (State.init : State Nat)).2 ∧
    ({ key := "ab", value := { addr := 0, re := { expr := "ab", prog := 2 } } } :
        entry (Regexp Nat))
      ∈ (MustCompileWithCache toyParse ⟨"ab"⟩ (State.init : State Nat)).2.cache.evictList ∧
    regexpCompile toyParse "ab" = .ok { expr := "ab", prog := 2 } ∧
    (Regexp.mk 0 { expr := "ab", prog := 2 } : Regexp Nat).String = "ab" :=
  ⟨Reachable.compile _ Reachable.init, by decide,
    entry_provenance toyParse _ (Reachable.compile ⟨"ab"⟩ Reachable.init)
      { key := "ab", value := { addr := 0, re := { expr := "ab", prog := 2 } } } (by decide)⟩

/-- C10. Failure condition: in every reachable state, `MustCompileWithCache` panics
with an error exactly when `regexp.Compile` fails with that error on the
builder's description; when the description compiles the call returns a
`Regexp` holding the compile result. -/
theorem failure_condition {P : Type} (parse : String → Except String P) (s : State P)
    (hs : Reachable parse s) (r : RegexBuilder) :
    (∀ err, (MustCompileWithCache parse r s).1 = .error err ↔
      regexpCompile parse r.Build = .error err) ∧
    (∀ re0, regexpCompile parse r.Build = .ok re0 →
      ∃ re, (MustCompileWithCache parse r s).1 = .ok re ∧ re.re = re0) := by
  refine ⟨fun err => ⟨fun h => ?_, fun h => ?_⟩, fun re0 h => MustCompileWithCache_ok hs.inv r h⟩
  · cases hc : regexpCompile parse r.Build with
    | error err1 =>
      have hl := hs.inv.lookup_of_error hc
      rw [MustCompileWithCache_fail parse r s hl hc] at h
      simpa using h
    | ok re0 =>
      obtain ⟨re, hre, _⟩ := MustCompileWithCache_ok hs.inv r hc
      rw [hre] at h
      cases h
  · have hl := hs.inv.lookup_of_error h
    rw [MustCompileWithCache_fail parse r s hl h]

/-- Witness of C10: a malformed and a well-formed description after one
insertion. -/
theorem failure_condition_witness :
    Reachable toyParse (MustCompileWithCache toyParse ⟨"a"⟩ (State.init : State Nat)).2 ∧
    ((MustCompileWithCache toyParse ⟨"(a"⟩
        (MustCompileWithCache toyParse ⟨"a"⟩ (State.init : State Nat)).2).1
          = .error "missing closing )" ↔
      regexpCompile toyParse (RegexBuilder.mk "(a").Build = .error "missing closing )") :=
  ⟨Reachable.compile _ Reachable.init,
    (failure_condition toyParse _ (Reachable.compile ⟨"a"⟩ Reachable.init) ⟨"(a"⟩).1
      "missing closing )"⟩

/-! ## Hits, misses and evictions in detail -/

theorem LRU.Contains_eq_true {V : Type} {c : LRU V} {key : String}
    (h : c.Contains key = true) : ∃ ent, c.lookup key = some ent := by
  cases hl : c.lookup key with
  | none => simp [LRU.Contains, hl] at h
  | some ent => exact ⟨ent, rfl⟩

theorem LRU.Contains_eq_false {V : Type} {c : LRU V} {key : String}
    (h : c.Contains key = false) : c.lookup key = none := by
  cases hl : c.lookup key with
  | none => rfl
  | some ent => simp [LRU.Contains, hl] at h

/-- With unique keys, taking the entry of a key out of the list leaves the entries
of the other keys, in their order. -/
theorem eraseP_key_eq_filter {V : Type} (key : String) :
    ∀ l : List (entry V), (l.map (fun e => e.key)).Nodup →
      l.eraseP (fun e => e.key == key) = l.filter (fun e => e.key != key) := by
  intro l
  induction l with
  | nil => intro _; rfl
  | cons a l ih =>
    intro hnd
    simp only [List.map_cons, List.nodup_cons, List.mem_map, not_exists, not_and] at hnd
    by_cases hk : a.key = key
    · have hfil : l.filter (fun e => e.key != key) = l := by
        rw [List.filter_eq_self]
        intro e he
        have := hnd.1 e he
        simp only [bne_iff_ne, ne_eq]
        rw [← hk]
        exact this
      simp [List.eraseP_cons, List.filter_cons, hk, hfil]
    · simp [List.eraseP_cons, List.filter_cons, hk, ih hnd.2]

/-- Lookups see the same entries in two caches holding the same entries in another
order, keys being unique. -/
theorem LRU.lookup_perm {V : Type} {c1 c2 : LRU V} (hperm : List.Perm c1.evictList c2.evictList)
    (hnd : c1.Keys.Nodup) (key : String) : c1.lookup key = c2.lookup key := by
  have hnd2 : c2.Keys.Nodup := ((hperm.map _).nodup_iff).1 hnd
  cases hl : c2.lookup key with
  | none =>
    rw [LRU.lookup_eq_none_iff] at hl ⊢
    intro hmem
    exact hl (((hperm.map _).mem_iff).1 hmem)
  | some ent =>
    obtain ⟨hmem, hk⟩ := LRU.lookup_some hl
    rw [← hk]
    exact LRU.lookup_of_mem hnd (hperm.mem_iff.2 hmem)

/-- C11. Compile-call count: in every state, `MustCompileWithCache` calls
`regexp.Compile` zero times when the description is resident (a hit) and exactly
once when it is not (a miss, whether the compilation succeeds or fails). -/
theorem compile_call_count {P : Type} (parse : String → Except String P) (s : State P)
    (r : RegexBuilder) :
    (MustCompileWithCache parse r s).2.compileCalls =
      if s.cache.Contains r.Build then s.compileCalls else s.compileCalls + 1 := by
  cases hl : s.cache.lookup r.Build with
  | some ent =>
    rw [MustCompileWithCache_hit parse r s hl]
    simp [LRU.Contains, hl]
  | none =>
    have hc : s.cache.Contains r.Build = false := by simp [LRU.Contains, hl]
    cases hre : regexpCompile parse r.Build with
    | error err =>
      rw [MustCompileWithCache_fail parse r s hl hre]
      simp [hc]
    | ok re =>
      rw [MustCompileWithCache_miss parse r s hl hre]
      simp [hc]

/-- C12. Single eviction per insertion: in a reachable state, for a description that
compiles and is not resident, `MustCompileWithCache` makes the new entry the
most recently used one and keeps the old entries as they are and in their
order, all of them when the cache is not full, all but the least recently used
(the last) one when the cache is full; in that case the number of entries is
unchanged and the key of the removed entry is no longer resident. -/
theorem single_eviction {P : Type} (parse : String → Except String P) (s : State P)
    (hs : Reachable parse s) (r : RegexBuilder) (re : GoRegexp P)
    (hl : s.cache.Contains r.Build = false) (hc : regexpCompile parse r.Build = .ok re) :
    ((s.cache.Len : Int) < s.cache.size →
      (MustCompileWithCache parse r s).2.cache.evictList =
        { key := r.Build, value := { addr := s.nextAddr, re := re } } :: s.cache.evictList) ∧
    ((s.cache.Len : Int) = s.cache.size →
      (MustCompileWithCache parse r s).2.cache.evictList =
        { key := r.Build, value := { addr := s.nextAddr, re := re } }
          :: s.cache.evictList.dropLast ∧
      (MustCompileWithCache parse r s).2.cache.Len = s.cache.Len ∧
      ∃ oldest, s.cache.evictList = s.cache.evictList.dropLast ++ [oldest] ∧
        (MustCompileWithCache parse r s).2.cache.Contains oldest.key = false) := by
  have hinv := hs.inv
  have hlk := LRU.Contains_eq_false hl
  rw [MustCompileWithCache_miss parse r s hlk hc]
  refine ⟨fun hlt => ?_, fun hfull => ?_⟩
  · simp only [LRU.Len] at hlt
    have : ¬ ((s.cache.evictList.length : Int) + 1 > s.cache.size) := by omega
    simp only [this, ↓reduceIte]
  · simp only [LRU.Len] at hfull
    have hev : (s.cache.evictList.length : Int) + 1 > s.cache.size := by omega
    have hsize := hinv.size_pos
    have hne : s.cache.evictList ≠ [] := by
      intro h0
      rw [h0] at hfull
      simp at hfull
      omega
    obtain ⟨oldest, hold⟩ : ∃ oldest, s.cache.evictList.getLast? = some oldest := by
      cases hg : s.cache.evictList.getLast? with
      | none => exact absurd (List.getLast?_eq_none_iff.1 hg) hne
      | some x => exact ⟨x, rfl⟩
    have hsplit : s.cache.evictList = s.cache.evictList.dropLast ++ [oldest] := by
      have := List.dropLast_append_getLast? oldest hold
      exact this.symm
    have hdrop : ({ key := r.Build, value := { addr := s.nextAddr, re := re } }
        :: s.cache.evictList : List (entry (Regexp P))).dropLast
        = { key := r.Build, value := { addr := s.nextAddr, re := re } }
          :: s.cache.evictList.dropLast := by
      cases hlist : s.cache.evictList with
      | nil => exact absurd hlist hne
      | cons a l => simp [List.dropLast]
    simp only [hev, ↓reduceIte, hdrop, LRU.Len, List.length_cons, List.length_dropLast]
    refine ⟨trivial, ?_, oldest, hsplit, ?_⟩
    · have : 0 < s.cache.evictList.length := List.length_pos.2 hne
      omega
    · have hnd := hinv.keys_nodup
      simp only [LRU.Keys] at hnd
      rw [hsplit, List.map_append, List.nodup_append] at hnd
      have hnotin : oldest.key ∉ s.cache.evictList.dropLast.map (fun e => e.key) := by
        intro hmem
        exact hnd.2.2 hmem (by simp)
      have hned : oldest.key ≠ r.Build := by
        intro hk
        have hmem : r.Build ∈ s.cache.Keys := by
          simp only [LRU.Keys]
          rw [hsplit, ← hk]
          simp
        exact (LRU.lookup_eq_none_iff _ _).1 hlk hmem
      have : ({ size := s.cache.size,
                evictList := { key := r.Build, value := { addr := s.nextAddr, re := re } }
                  :: s.cache.evictList.dropLast } : LRU (Regexp P)).lookup oldest.key
          = none := by
        rw [LRU.lookup_eq_none_iff]
        simp only [LRU.Keys, List.map_cons, List.mem_cons, not_or]
        exact ⟨hned, hnotin⟩
      simp only [LRU.Contains, this, Option.isSome_none]

/-- Witness of C12: a full cache of capacity 1 holding `a`, and the insertion of
`b`. -/
theorem single_eviction_witness :
    Reachable toyParse fullOfOne ∧
    fullOfOne.cache.Contains "b" = false ∧
    (fullOfOne.cache.Len : Int) = fullOfOne.cache.size ∧
    (MustCompileWithCache toyParse ⟨"b"⟩ fullOfOne).2.cache.evictList =
      { key := "b", value := { addr := fullOfOne.nextAddr, re := { expr := "b", prog := 1 } } }
        :: fullOfOne.cache.evictList.dropLast ∧
    (MustCompileWithCache toyParse ⟨"b"⟩ fullOfOne).2.cache.Len = fullOfOne.cache.Len :=
  have hr : Reachable toyParse fullOfOne :=
    Reachable.compile _ (Reachable.setSize 1 Reachable.init)
  have h := (single_eviction toyParse fullOfOne hr ⟨"b"⟩ { expr := "b", prog := 1 }
    (by decide) rfl).2 (by decide)
  ⟨hr, by decide, by decide, h.1, h.2.1⟩

/-- C14. `PurgeCache` clears everything and nothing else: in every state, after
`PurgeCache` the cache has no entry (no description is resident), its capacity
is the one before the call, and the rest of the state is untouched. -/
theorem PurgeCache_clears {P : Type} (s : State P) :
    (PurgeCache s).cache.Len = 0 ∧
    (PurgeCache s).cache.evictList = [] ∧
    (∀ key, (PurgeCache s).cache.Contains key = false) ∧
    (PurgeCache s).cache.size = s.cache.size ∧
    (PurgeCache s).nextAddr = s.nextAddr ∧
    (PurgeCache s).compileCalls = s.compileCalls := by
  refine ⟨rfl, rfl, fun key => ?_, rfl, rfl, rfl⟩
  simp [PurgeCache, LRU.Purge, LRU.Contains, LRU.lookup]

/-- C15. A hit only refreshes recency: in a reachable state, for a resident
description, `MustCompileWithCache` returns the stored instance, moves its entry
to the front (most recently used) and leaves the other entries behind it in
their order; the entries are the same ones (every description has the instance
it had), the capacity is unchanged and nothing is allocated. -/
theorem hit_refreshes_recency {P : Type} (parse : String → Except String P) (s : State P)
    (hs : Reachable parse s) (r : RegexBuilder) (hres : s.cache.Contains r.Build = true) :
    ∃ ent, s.cache.lookup r.Build = some ent ∧
      (MustCompileWithCache parse r s).1 = .ok ent.value ∧
      (MustCompileWithCache parse r s).2.cache.evictList =
        ent :: s.cache.evictList.filter (fun e => e.key != r.Build) ∧
      List.Perm (MustCompileWithCache parse r s).2.cache.evictList s.cache.evictList ∧
      (∀ key, (MustCompileWithCache parse r s).2.cache.lookup key = s.cache.lookup key) ∧
      (MustCompileWithCache parse r s).2.cache.size = s.cache.size ∧
      (MustCompileWithCache parse r s).2.nextAddr = s.nextAddr := by
  obtain ⟨ent, hl⟩ := LRU.Contains_eq_true hres
  have hinv := hs.inv
  have hperm := perm_cons_eraseP_of_find _ _ _ hl
  have hinv1 := Inv_MustCompileWithCache r hinv
  rw [MustCompileWithCache_hit parse r s hl] at hinv1 ⊢
  refine ⟨ent, hl, rfl, ?_, hperm.symm, fun key => ?_, rfl, rfl⟩
  · simp only
    rw [eraseP_key_eq_filter r.Build _ hinv.keys_nodup]
  · exact LRU.lookup_perm hperm.symm hinv1.keys_nodup key

/-- Witness of C15: capacity 2 holding `b` and `a`, and a call on `a`. -/
theorem hit_refreshes_recency_witness :
    Reachable toyParse twoOfTwo ∧
    twoOfTwo.cache.Contains "a" = true ∧
    twoOfTwo.cache.Keys = ["b", "a"] ∧
    (MustCompileWithCache toyParse ⟨"a"⟩ twoOfTwo).2.cache.Keys = ["a", "b"] ∧
    ∃ ent, twoOfTwo.cache.lookup "a" = some ent ∧
      (MustCompileWithCache toyParse ⟨"a"⟩ twoOfTwo).1 = .ok ent.value ∧
      (MustCompileWithCache toyParse ⟨"a"⟩ twoOfTwo).2.cache.evictList =
        ent :: twoOfTwo.cache.evictList.filter (fun e => e.key != "a") :=
  have hr : Reachable toyParse twoOfTwo :=
    Reachable.compile ⟨"b"⟩ (Reachable.compile ⟨"a"⟩ (Reachable.setSize 2 Reachable.init))
  have h := hit_refreshes_recency toyParse twoOfTwo hr ⟨"a"⟩ (by decide)
  ⟨hr, by decide, by decide, by decide,
    h.elim fun ent he => ⟨ent, he.1, he.2.1, he.2.2.1⟩⟩

/-! ## Addresses keep their description -/

theorem Reachable.apply {P : Type} {parse : String → Except String P} {s : State P}
    (h : Reachable parse s) (op : Op) : Reachable parse (op.apply parse s) := by
  cases op with
  | cached r => exact Reachable.compile r h
  | purge => exact Reachable.purge h
  | setSize n => exact Reachable.setSize n h
  | direct r hp => exact Reachable.direct r hp h

theorem Reachable.runOps {P : Type} {parse : String → Except String P} (ops : List Op) :
    ∀ {s : State P}, Reachable parse s → Reachable parse (runOps parse ops s) := by
  induction ops with
  | nil => intro s h; exact h
  | cons op ops ih =>
    intro s h
    exact ih (h.apply op)

theorem Owns_MustCompileWithCache {P : Type} (parse : String → Except String P)
    {a : Nat} {d : String} {s : State P} (r : RegexBuilder) (h : Owns a d s) :
    Owns a d (MustCompileWithCache parse r s).2 := by
  obtain ⟨hlt, hown⟩ := h
  cases hl : s.cache.lookup r.Build with
  | some ent =>
    rw [MustCompileWithCache_hit parse r s hl]
    have hperm := perm_cons_eraseP_of_find _ _ _ hl
    exact ⟨hlt, fun e he => hown e (hperm.mem_iff.2 he)⟩
  | none =>
    cases hc : regexpCompile parse r.Build with
    | error err =>
      rw [MustCompileWithCache_fail parse r s hl hc]
      exact ⟨hlt, hown⟩
    | ok re =>
      rw [MustCompileWithCache_miss parse r s hl hc]
      refine ⟨Nat.lt_succ_of_lt hlt, fun e he hea => ?_⟩
      have hmem : e ∈ ({ key := r.Build, value := { addr := s.nextAddr, re := re } }
          :: s.cache.evictList : List (entry (Regexp P))) := by
        simp only at he
        split at he
        · exact (List.dropLast_sublist _).subset he
        · exact he
      rcases List.mem_cons.1 hmem with rfl | hold
      · simp only at hea
        omega
      · exact hown e hold hea

theorem Owns_apply {P : Type} (parse : String → Except String P)
    {a : Nat} {d : String} {s : State P} (op : Op) (h : Owns a d s) :
    Owns a d (op.apply parse s) := by
  cases op with
  | cached r => exact Owns_MustCompileWithCache parse r h
  | purge => exact ⟨h.1, fun e he => absurd he (List.not_mem_nil e)⟩
  | setSize n =>
    by_cases hn : n ≤ 0
    · simp only [Op.apply, SetCacheSize_of_nonpos hn]
      exact h
    · simp only [Op.apply, SetCacheSize_of_pos (not_le.1 hn)]
      exact ⟨h.1, fun e he => absurd he (List.not_mem_nil e)⟩
  | direct r hp =>
    obtain ⟨hc, hn, _⟩ := Compile_state parse r hp s
    refine ⟨lt_of_lt_of_le h.1 hn, fun e he => ?_⟩
    simp only [Op.apply, hc] at he
    exact h.2 e he

theorem Owns_runOps {P : Type} (parse : String → Except String P)
    {a : Nat} {d : String} (ops : List Op) :
    ∀ {s : State P}, Owns a d s → Owns a d (runOps parse ops s) := by
  induction ops with
  | nil => intro s h; exact h
  | cons op ops ih =>
    intro s h
    exact ih (Owns_apply parse op h)

/-- C13. Cache miss distinctness: for two descriptions that compile and differ as
strings, in every reachable state, the instance `MustCompileWithCache` returns
for the first and the instance it returns for the second, right after or after
any further calls on the cache, are at different addresses. -/
theorem cache_miss_distinctness {P : Type} (parse : String → Except String P)
    (s : State P) (hs : Reachable parse s) (r1 r2 : RegexBuilder) (re1 re2 : GoRegexp P)
    (hne : r1.Build ≠ r2.Build) (hc1 : regexpCompile parse r1.Build = .ok re1)
    (hc2 : regexpCompile parse r2.Build = .ok re2) (ops : List Op) :
    ∃ p1 p2 : Regexp P,
      (MustCompileWithCache parse r1 s).1 = .ok p1 ∧
      (MustCompileWithCache parse r2
        (runOps parse ops (MustCompileWithCache parse r1 s).2)).1 = .ok p2 ∧
      p1.addr ≠ p2.addr := by
  have hinv := hs.inv
  obtain ⟨p1, hp1, _⟩ := MustCompileWithCache_ok hinv r1 hc1
  have hinv1 := Inv_MustCompileWithCache r1 hinv
  obtain ⟨tl, htl⟩ := MustCompileWithCache_front hinv r1 hp1
  have hown : Owns p1.addr r1.Build (MustCompileWithCache parse r1 s).2 := by
    refine ⟨MustCompileWithCache_addr_lt hinv r1 hp1, fun e he hea => ?_⟩
    have hfront : ({ key := r1.Build, value := p1 } : entry (Regexp P))
        ∈ (MustCompileWithCache parse r1 s).2.cache.evictList := by
      rw [htl]; exact List.mem_cons_self _ _
    have := List.inj_on_of_nodup_map hinv1.addr_nodup he hfront hea
    rw [this]
  have hown2 := Owns_runOps parse ops hown
  have hinv2 := ((hs.compile r1).runOps ops).inv
  obtain ⟨p2, hp2, _⟩ := MustCompileWithCache_ok hinv2 r2 hc2
  refine ⟨p1, p2, hp1, hp2, fun hadd => ?_⟩
  cases hl : (runOps parse ops (MustCompileWithCache parse r1 s).2).cache.lookup r2.Build with
  | some ent =>
    rw [MustCompileWithCache_hit parse r2 _ hl] at hp2
    simp only [Except.ok.injEq] at hp2
    obtain ⟨hmem, hk⟩ := LRU.lookup_some hl
    have := hown2.2 ent hmem (by rw [hp2, hadd])
    exact hne (this.symm.trans hk)
  | none =>
    rw [MustCompileWithCache_miss parse r2 _ hl hc2] at hp2
    simp only [Except.ok.injEq] at hp2
    have := hown2.1
    rw [hadd, ← hp2] at this
    simp at this

/-- Witness of C13: the run of `TestCache` (`hello`, `hello` again, then
`world`), with the toy compile function. -/
theorem cache_miss_distinctness_witness :
    Reachable toyParse (State.init : State Nat) ∧
    (RegexBuilder.mk "hello").Build ≠ (RegexBuilder.mk "world").Build ∧
    ∃ p1 p2 : Regexp Nat,
      (MustCompileWithCache toyParse ⟨"hello"⟩ State.init).1 = .ok p1 ∧
      (MustCompileWithCache toyParse ⟨"world"⟩
        (runOps toyParse [Op.cached ⟨"hello"⟩]
          (MustCompileWithCache toyParse ⟨"hello"⟩ State.init).2)).1 = .ok p2 ∧
      p1.addr ≠ p2.addr :=
  ⟨Reachable.init, by decide,
    cache_miss_distinctness toyParse State.init Reachable.init ⟨"hello"⟩ ⟨"world"⟩
      { expr := "hello", prog := 5 } { expr := "world", prog := 5 } (by decide) rfl rfl
      [Op.cached ⟨"hello"⟩]⟩

/-! ## `Compile` and `MustCompile` -/

theorem regexpCompile_expr {P : Type} {parse : String → Except String P} {expr : String}
    {re : GoRegexp P} (h : regexpCompile parse expr = .ok re) : re.expr = expr := by
  unfold regexpCompile at h
  cases hp : parse expr with
  | error err => rw [hp] at h; cases h
  | ok prog =>
    rw [hp] at h
    simp only [Except.ok.injEq] at h
    rw [← h]

theorem Compile_of_error {P : Type} {parse : String → Except String P}
    (r : RegexBuilderPtr) (h : Heap) (st : State P) {err : String}
    (hc : regexpCompile parse (r.Build h) = .error err) :
    r.Compile parse h st =
      ((none, some err), (h.Reset r.builder).poolPut r.builder,
        { st with compileCalls := st.compileCalls + 1 }) := by
  simp only [RegexBuilderPtr.Build] at hc
  simp [RegexBuilderPtr.Compile, hc]

theorem Compile_of_ok {P : Type} {parse : String → Except String P}
    (r : RegexBuilderPtr) (h : Heap) (st : State P) {re : GoRegexp P}
    (hc : regexpCompile parse (r.Build h) = .ok re) :
    r.Compile parse h st =
      ((some { addr := st.nextAddr, re := re }, none), (h.Reset r.builder).poolPut r.builder,
        { st with nextAddr := st.nextAddr + 1, compileCalls := st.compileCalls + 1 }) := by
  simp only [RegexBuilderPtr.Build] at hc
  simp [RegexBuilderPtr.Compile, hc]

/-- C16. `MustCompileWithCache` agrees with `MustCompile`: for a builder whose
pattern compiles, in every reachable cache state, the `Regexp` returned by
`MustCompileWithCache` (from the cache or freshly compiled) and the `Regexp`
`MustCompile` returns for a builder with the same pattern hold the same compiled
expression, and their source text is the builder's `Build()` string. -/
theorem MustCompileWithCache_agrees_MustCompile {P : Type}
    (parse : String → Except String P) (s : State P) (hs : Reachable parse s)
    (r r2 : RegexBuilderPtr) (h h2 : Heap) (st2 : State P) (re : GoRegexp P)
    (hsame : r2.Build h2 = r.Build h) (hc : regexpCompile parse (r.Build h) = .ok re) :
    ∃ p q : Regexp P,
      (r.MustCompileWithCache parse h s).1 = .ok p ∧
      (r2.MustCompile parse h2 st2).1 = .ok q ∧
      p.re = q.re ∧ p.String = q.String ∧ p.String = r.Build h := by
  have hc1 : regexpCompile parse (r.deref h).Build = .ok re := hc
  obtain ⟨p, hp, hpre⟩ := MustCompileWithCache_ok hs.inv (r.deref h) hc1
  have hq : (r2.MustCompile parse h2 st2).1 = .ok { addr := st2.nextAddr, re := re } := by
    simp only [RegexBuilderPtr.MustCompile, Compile_of_ok r2 h2 st2 (hsame ▸ hc)]
  refine ⟨p, _, hp, hq, hpre, ?_, ?_⟩
  · simp only [Regexp.String, hpre]
  · simp only [Regexp.String, GoRegexp.String, hpre]
    exact regexpCompile_expr hc

/-- Witness of C16: the pattern `ab`, served from the cache, against `MustCompile`
on another builder holding `ab`. -/
theorem MustCompileWithCache_agrees_MustCompile_witness :
    Reachable toyParse (MustCompileWithCache toyParse ⟨"ab"⟩ (State.init : State Nat)).2 ∧
    (RegexBuilderPtr.mk 0 0).Build (heapOf "ab") = "ab" ∧
    ∃ p q : Regexp Nat,
      ((RegexBuilderPtr.mk 0 0).MustCompileWithCache toyParse (heapOf "ab")
        (MustCompileWithCache toyParse ⟨"ab"⟩ State.init).2).1 = .ok p ∧
      ((RegexBuilderPtr.mk 0 0).MustCompile toyParse (heapOf "ab")
        (MustCompileWithCache toyParse ⟨"ab"⟩ State.init).2).1 = .ok q ∧
      p.re = q.re ∧ p.String = q.String ∧ p.String = (RegexBuilderPtr.mk 0 0).Build (heapOf "ab") :=
  ⟨Reachable.compile _ Reachable.init, by decide,
    MustCompileWithCache_agrees_MustCompile toyParse _ (Reachable.compile ⟨"ab"⟩ Reachable.init)
      ⟨0, 0⟩ ⟨0, 0⟩ (heapOf "ab") (heapOf "ab") _ { expr := "ab", prog := 2 } rfl rfl⟩

/-- C19. `Compile` returns an error exactly when `regexp.Compile` rejects the
pattern the builder holds, and then returns no `Regexp`; otherwise it returns
no error and a `Regexp` whose source text is the pattern the builder held when
`Compile` was called (the builder itself is empty afterwards). -/
theorem Compile_result {P : Type} (parse : String → Except String P)
    (r : RegexBuilderPtr) (h : Heap) (st : State P) :
    ((r.Compile parse h st).1.2 ≠ none ↔
      ∃ err, regexpCompile parse (r.Build h) = .error err) ∧
    (∀ err, regexpCompile parse (r.Build h) = .error err →
      (r.Compile parse h st).1 = (none, some err)) ∧
    (∀ re, regexpCompile parse (r.Build h) = .ok re →
      ∃ p : Regexp P, (r.Compile parse h st).1 = (some p, none) ∧ p.re = re ∧
        p.String = r.Build h) ∧
    r.Build (r.Compile parse h st).2.1 = "" := by
  cases hc : regexpCompile parse (r.Build h) with
  | error err =>
    rw [Compile_of_error r h st hc]
    refine ⟨⟨fun _ => ⟨err, rfl⟩, fun _ => by simp⟩, ?_, ?_, ?_⟩
    · intro err1 h1
      simp only [Except.error.injEq] at h1
      rw [h1]
    · intro re h1
      cases h1
    · simp [RegexBuilderPtr.Build, Heap.contents, Heap.poolPut, Heap.Reset]
  | ok re =>
    rw [Compile_of_ok r h st hc]
    refine ⟨⟨fun hne => absurd rfl hne, fun ⟨err, he⟩ => by cases he⟩, ?_, ?_, ?_⟩
    · intro err1 h1
      cases h1
    · intro re1 h1
      simp only [Except.ok.injEq] at h1
      refine ⟨_, rfl, h1, ?_⟩
      simp only [Regexp.String, GoRegexp.String]
      exact regexpCompile_expr hc
    · simp [RegexBuilderPtr.Build, Heap.contents, Heap.poolPut, Heap.Reset]

/-- Witness of C19: the malformed pattern of `TestCompileError`. -/
theorem Compile_result_witness :
    regexpCompile toyParse ((RegexBuilderPtr.mk 0 0).Build (heapOf "(?P<name>a"))
      = .error "missing closing )" ∧
    ((RegexBuilderPtr.mk 0 0).Compile toyParse (heapOf "(?P<name>a") (State.init : State Nat)).1
      = (none, some "missing closing )") :=
  ⟨rfl,
    (Compile_result toyParse ⟨0, 0⟩ (heapOf "(?P<name>a") (State.init : State Nat)).2.1
      "missing closing )" rfl⟩

/-! ## The heap of builders -/

theorem Heap.contents_WriteString_same (h : Heap) (b : Nat) (s : String) :
    (h.WriteString b s).contents b = h.contents b ++ s := by
  simp [Heap.WriteString, Heap.contents]

theorem Heap.contents_WriteString_ne (h : Heap) {b x : Nat} (s : String) (hx : x ≠ b) :
    (h.WriteString b s).contents x = h.contents x := by
  simp [Heap.WriteString, Heap.contents, Function.update_noteq hx]

theorem Heap.contents_Reset_same (h : Heap) (b : Nat) : (h.Reset b).contents b = "" := by
  simp [Heap.Reset, Heap.contents]

theorem Heap.contents_Reset_ne (h : Heap) {b x : Nat} (hx : x ≠ b) :
    (h.Reset b).contents x = h.contents x := by
  simp [Heap.Reset, Heap.contents, Function.update_noteq hx]

theorem Heap.contents_poolPut (h : Heap) (b x : Nat) :
    (h.poolPut b).contents x = h.contents x := rfl

/-- What `builderPool.Get()` hands out when the pooled objects are empty: an empty
object, either one of the pool or a new one, every other object being left as it
is. -/
theorem Heap.poolGet_spec (choice : Option Nat) (h : Heap)
    (hclean : ∀ b ∈ h.pool, h.contents b = "") :
    ((h.poolGet choice).1 ∈ h.pool ∨ (h.poolGet choice).1 = h.next) ∧
    (h.poolGet choice).2.contents (h.poolGet choice).1 = "" ∧
    ∀ x, x ≠ (h.poolGet choice).1 → (h.poolGet choice).2.contents x = h.contents x := by
  have halloc : (h.alloc.1 ∈ h.pool ∨ h.alloc.1 = h.next) ∧
      h.alloc.2.contents h.alloc.1 = "" ∧
      ∀ x, x ≠ h.alloc.1 → h.alloc.2.contents x = h.contents x := by
    refine ⟨Or.inr rfl, by simp [Heap.alloc, Heap.contents], fun x hx => ?_⟩
    simp only [Heap.alloc] at hx
    simp [Heap.alloc, Heap.contents, Function.update_noteq hx]
  cases choice with
  | none => exact halloc
  | some i =>
    cases hget : h.pool[i]? with
    | none =>
      have : h.poolGet (some i) = h.alloc := by simp [Heap.poolGet, hget]
      rw [this]
      exact halloc
    | some b =>
      have : h.poolGet (some i) = (b, { h with pool := h.pool.eraseIdx i }) := by
        simp [Heap.poolGet, hget]
      rw [this]
      have hmem : b ∈ h.pool := List.getElem?_mem hget
      exact ⟨Or.inl hmem, hclean b hmem, fun x _ => rfl⟩

/-- The loop of `Or`: writing into an object none of the arguments uses appends the
alternatives and leaves every other object as it is. -/
theorem foldl_orStep (nb : Nat) :
    ∀ (groups : List RegexBuilderPtr) (h : Heap), (∀ g ∈ groups, g.builder ≠ nb) →
      (groups.foldl (orStep nb) h).contents nb
          = h.contents nb ++ alternatives (groups.map (fun g => g.Build h)) ∧
        ∀ x, x ≠ nb → (groups.foldl (orStep nb) h).contents x = h.contents x := by
  intro groups
  induction groups with
  | nil =>
    intro h _
    simp [alternatives]
  | cons g gs ih =>
    intro h hg
    have hgnb : g.builder ≠ nb := hg g (List.mem_cons_self _ _)
    have hstep_nb : (orStep nb h g).contents nb = h.contents nb ++ "|" ++ g.Build h := by
      simp only [orStep, RegexBuilderPtr.Build, Heap.contents_WriteString_same,
        Heap.contents_WriteString_ne _ _ hgnb]
    have hstep_ne : ∀ x, x ≠ nb → (orStep nb h g).contents x = h.contents x := by
      intro x hx
      simp only [orStep, Heap.contents_WriteString_ne _ _ hx]
    obtain ⟨ih1, ih2⟩ := ih (orStep nb h g) (fun g1 h1 => hg g1 (List.mem_cons_of_mem _ h1))
    have hmap : gs.map (fun g1 => g1.Build (orStep nb h g)) = gs.map (fun g1 => g1.Build h) := by
      apply List.map_congr_left
      intro g1 h1
      exact hstep_ne _ (hg g1 (List.mem_cons_of_mem _ h1))
    refine ⟨?_, fun x hx => ?_⟩
    · simp only [List.foldl_cons, ih1, hstep_nb, hmap, List.map_cons, alternatives,
        String.append_assoc]
    · simp only [List.foldl_cons, ih2 x hx, hstep_ne x hx]

/-- The claim C20 as stated fails when the receiver is among its own arguments:
after `r.Or(r)` on a builder holding `s`, the argument (the receiver itself)
holds `(?:s|s)`, not `s` any more. -/
theorem Or_argument_is_receiver :
    (RegexBuilderPtr.mk 0 0) ∈ [RegexBuilderPtr.mk 0 0] ∧
    (RegexBuilderPtr.mk 0 0).Build (heapOf "s") = "s" ∧
    (RegexBuilderPtr.mk 0 0).Build
      ((RegexBuilderPtr.mk 0 0).Or none [RegexBuilderPtr.mk 0 0] (heapOf "s")).2 = "(?:s|s)" ∧
    (RegexBuilderPtr.mk 0 0).Build
      ((RegexBuilderPtr.mk 0 0).Or none [RegexBuilderPtr.mk 0 0] (heapOf "s")).2
        ≠ (RegexBuilderPtr.mk 0 0).Build (heapOf "s") := by
  decide

/-- What `Or` with a non-empty argument list does when the pool holds empty objects
only and neither the receiver nor the arguments are on objects of the pool:
it returns the receiver with the pattern `(?:s|p1|...|pn)`, leaves every object
but the receiver's and the one taken from the pool as it is, and gives the
latter back to the pool, empty. -/
theorem RegexBuilderPtr.Or_spec (choice : Option Nat) (r : RegexBuilderPtr)
    (groups : List RegexBuilderPtr) (h : Heap) (hne : groups ≠ [])
    (hclean : ∀ b ∈ h.pool, h.contents b = "")
    (hr : r.builder < h.next ∧ r.builder ∉ h.pool)
    (hg : ∀ g ∈ groups, g.builder < h.next ∧ g.builder ∉ h.pool) :
    (r.Or choice groups h).1 = r ∧
    r.Build (r.Or choice groups h).2
      = orPattern (r.Build h) (groups.map (fun g => g.Build h)) ∧
    (∀ x, x ≠ r.builder → x ≠ (h.poolGet choice).1 →
      (r.Or choice groups h).2.contents x = h.contents x) ∧
    (r.Or choice groups h).2.contents (h.poolGet choice).1 = "" ∧
    (r.Or choice groups h).2.pool = (h.poolGet choice).1 :: (h.poolGet choice).2.pool ∧
    (r.Or choice groups h).2.next = (h.poolGet choice).2.next ∧
    r.builder ≠ (h.poolGet choice).1 ∧
    ∀ g ∈ groups, g.builder ≠ (h.poolGet choice).1 := by
  obtain ⟨hnb, hempty, hframe⟩ := Heap.poolGet_spec choice h hclean
  obtain ⟨nb, hnbdef⟩ : ∃ nb, (h.poolGet choice).1 = nb := ⟨_, rfl⟩
  obtain ⟨h1, hh1⟩ : ∃ h1, (h.poolGet choice).2 = h1 := ⟨_, rfl⟩
  rw [hnbdef] at hnb hempty hframe
  rw [hh1] at hempty hframe
  rw [hnbdef, hh1]
  have hrnb : r.builder ≠ nb := by
    intro heq
    rcases hnb with hin | hnext
    · exact hr.2 (heq ▸ hin)
    · have := hr.1
      omega
  have hgnb : ∀ g ∈ groups, g.builder ≠ nb := by
    intro g hmem heq
    rcases hnb with hin | hnext
    · exact (hg g hmem).2 (heq ▸ hin)
    · have := (hg g hmem).1
      omega
  have hlen : ¬ groups.length = 0 := by
    cases groups with
    | nil => exact absurd rfl hne
    | cons _ _ => simp
  -- the object the text is collected in, before the loop
  have hstart_nb :
      ((h1.WriteString nb "(?:").WriteString nb
        ((h1.WriteString nb "(?:").contents r.builder)).contents nb
        = "(?:" ++ h.contents r.builder := by
    rw [Heap.contents_WriteString_same, Heap.contents_WriteString_same, hempty,
      Heap.contents_WriteString_ne _ _ hrnb, hframe _ hrnb, String.empty_append]
  have hstart : ∀ x, x ≠ nb →
      ((h1.WriteString nb "(?:").WriteString nb
        ((h1.WriteString nb "(?:").contents r.builder)).contents x = h.contents x := by
    intro x hx
    rw [Heap.contents_WriteString_ne _ _ hx, Heap.contents_WriteString_ne _ _ hx, hframe x hx]
  -- after the loop
  obtain ⟨hfold_nb, hfold_ne⟩ := foldl_orStep nb groups
    ((h1.WriteString nb "(?:").WriteString nb ((h1.WriteString nb "(?:").contents r.builder))
    hgnb
  have hmap : groups.map (fun g =>
      g.Build ((h1.WriteString nb "(?:").WriteString nb
        ((h1.WriteString nb "(?:").contents r.builder)))
      = groups.map (fun g => g.Build h) := by
    apply List.map_congr_left
    intro g hmem
    exact hstart _ (hgnb g hmem)
  rw [hmap, hstart_nb] at hfold_nb
  have hfold_ne1 : ∀ x, x ≠ nb →
      (groups.foldl (orStep nb)
        ((h1.WriteString nb "(?:").WriteString nb
          ((h1.WriteString nb "(?:").contents r.builder))).contents x = h.contents x :=
    fun x hx => (hfold_ne x hx).trans (hstart x hx)
  have hfold_pool : ∀ (gs : List RegexBuilderPtr) (h0 : Heap),
      (gs.foldl (orStep nb) h0).pool = h0.pool ∧ (gs.foldl (orStep nb) h0).next = h0.next := by
    intro gs
    induction gs with
    | nil => intro h0; exact ⟨rfl, rfl⟩
    | cons g gs ih => intro h0; exact ih (orStep nb h0 g)
  have hOr : (r.Or choice groups h).2 =
      (((((groups.foldl (orStep nb)
        ((h1.WriteString nb "(?:").WriteString nb
          ((h1.WriteString nb "(?:").contents r.builder))).WriteString nb ")").Reset
            r.builder).WriteString r.builder
        ((((groups.foldl (orStep nb)
          ((h1.WriteString nb "(?:").WriteString nb
            ((h1.WriteString nb "(?:").contents r.builder))).WriteString nb ")").Reset
              r.builder).contents nb)).Reset nb).poolPut nb := by
    unfold RegexBuilderPtr.Or
    rw [if_neg hlen, hnbdef, hh1]
  have hfst : (r.Or choice groups h).1 = r := by
    unfold RegexBuilderPtr.Or
    rw [if_neg hlen]
  obtain ⟨hpool4, hnext4⟩ := hfold_pool groups
    ((h1.WriteString nb "(?:").WriteString nb ((h1.WriteString nb "(?:").contents r.builder))
  rw [hOr]
  clear hOr hfold_ne hstart hstart_nb hmap
  generalize groups.foldl (orStep nb)
    ((h1.WriteString nb "(?:").WriteString nb
      ((h1.WriteString nb "(?:").contents r.builder)) = h4 at hfold_nb hfold_ne1 hpool4 hnext4 ⊢
  refine ⟨hfst, ?_, fun x hxr hxn => ?_, ?_, ?_, ?_, hrnb, hgnb⟩
  · simp only [RegexBuilderPtr.Build, Heap.contents_poolPut]
    rw [Heap.contents_Reset_ne _ hrnb, Heap.contents_WriteString_same,
      Heap.contents_Reset_same, Heap.contents_Reset_ne _ hrnb.symm,
      Heap.contents_WriteString_same, hfold_nb, String.empty_append]
    simp only [orPattern, RegexBuilderPtr.Build]
  · simp only [Heap.contents_poolPut]
    rw [Heap.contents_Reset_ne _ hxn, Heap.contents_WriteString_ne _ _ hxr,
      Heap.contents_Reset_ne _ hxr, Heap.contents_WriteString_ne _ _ hxn, hfold_ne1 _ hxn]
  · simp only [Heap.contents_poolPut]
    rw [Heap.contents_Reset_same]
  · show nb :: h4.pool = nb :: h1.pool
    rw [hpool4]
    rfl
  · show h4.next = h1.next
    rw [hnext4]
    rfl

/-- C20, amended. `Or` joins with `|` inside a non-capturing group: when the pool
holds empty objects only, neither the receiver `r` nor the arguments are on
objects of the pool (they are allocated, and have not been given to the pool by
`Compile`), and no argument other than `r` itself is on the object of `r`,
then, whatever object the pool hands out, `r.Or(g1, ..., gn)` returns `r`; for
a non-empty argument list `r`'s pattern becomes `(?:s|p1|...|pn)`, from `r`'s
pattern `s` and the arguments' patterns in argument order, and every argument
that is not `r` itself keeps its pattern; for an empty argument list nothing
changes. -/
theorem Or_pattern (choice : Option Nat) (r : RegexBuilderPtr)
    (groups : List RegexBuilderPtr) (h : Heap)
    (hclean : ∀ b ∈ h.pool, h.contents b = "")
    (hr : r.builder < h.next ∧ r.builder ∉ h.pool)
    (hg : ∀ g ∈ groups, g.builder < h.next ∧ g.builder ∉ h.pool)
    (hown : ∀ g ∈ groups, g.addr ≠ r.addr → g.builder ≠ r.builder) :
    (r.Or choice groups h).1 = r ∧
    (groups ≠ [] →
      r.Build (r.Or choice groups h).2
        = orPattern (r.Build h) (groups.map (fun g => g.Build h))) ∧
    (∀ g ∈ groups, g.addr ≠ r.addr →
      g.Build (r.Or choice groups h).2 = g.Build h) ∧
    (groups = [] → ∀ x : RegexBuilderPtr, x.Build (r.Or choice groups h).2 = x.Build h) := by
  cases hgroups : groups with
  | nil =>
    refine ⟨by simp [RegexBuilderPtr.Or], fun hne => absurd rfl hne, ?_, ?_⟩
    · intro g hmem
      cases hmem
    · intro _ x
      simp [RegexBuilderPtr.Or]
  | cons g0 gs =>
    rw [← hgroups]
    have hne : groups ≠ [] := by simp [hgroups]
    obtain ⟨hfst, hpat, hframe, -, -, -, -, hgnb⟩ :=
      RegexBuilderPtr.Or_spec choice r groups h hne hclean hr hg
    exact ⟨hfst, fun _ => hpat,
      fun g hmem hgr => hframe g.builder (hown g hmem hgr) (hgnb g hmem),
      fun hnil => absurd hnil hne⟩

/-- Witness of C20, amended: the builders of `TestOrOperator`, three builders on
three objects. -/
theorem Or_pattern_witness :
    (∀ b ∈ heapCatDogBird.pool, heapCatDogBird.contents b = "") ∧
    (∀ g ∈ [RegexBuilderPtr.mk 1 1, RegexBuilderPtr.mk 2 2],
      g.addr ≠ (RegexBuilderPtr.mk 0 0).addr → g.builder ≠ (RegexBuilderPtr.mk 0 0).builder) ∧
    ((RegexBuilderPtr.mk 0 0).builder < heapCatDogBird.next ∧
      (RegexBuilderPtr.mk 0 0).builder ∉ heapCatDogBird.pool) ∧
    (RegexBuilderPtr.mk 0 0).Build
      ((RegexBuilderPtr.mk 0 0).Or none [⟨1, 1⟩, ⟨2, 2⟩] heapCatDogBird).2 = "(?:cat|dog|bird)" ∧
    (RegexBuilderPtr.mk 1 1).Build
      ((RegexBuilderPtr.mk 0 0).Or none [⟨1, 1⟩, ⟨2, 2⟩] heapCatDogBird).2 = "dog" :=
  have h := Or_pattern none ⟨0, 0⟩ [⟨1, 1⟩, ⟨2, 2⟩] heapCatDogBird (by decide) (by decide)
    (by decide) (by decide)
  ⟨by decide, by decide, by decide, h.2.1 (by decide), h.2.2.1 ⟨1, 1⟩ (by decide) (by decide)⟩

/-- Outside the conditions of the amended C20: on a receiver that was compiled before
(its object is in the pool) and written to again, `Or` may be handed the
receiver's own object by the pool, and then leaves the receiver empty. -/
theorem Or_on_pooled_receiver :
    (RegexBuilderPtr.mk 0 0).builder ∈ heapReused.pool ∧
    (RegexBuilderPtr.mk 0 0).Build heapReused = "s" ∧
    (RegexBuilderPtr.mk 1 1).Build heapReused = "p" ∧
    (RegexBuilderPtr.mk 0 0).Build
      ((RegexBuilderPtr.mk 0 0).Or (some 0) [⟨1, 1⟩] heapReused).2 = "" := by
  decide

/-- Outside the conditions of the amended C20: after `r := New()`, `r.Compile()`,
`g := New()` and `g.Raw("p")`, the pool having handed `g` the object `r` still
holds, `g` is not `r` itself, and `r.Or(g)` does not leave `g` with its
pattern `p`. -/
theorem Or_on_shared_buffer :
    secondBuilder.addr ≠ firstBuilder.addr ∧
    secondBuilder.Build heapShared = "p" ∧
    secondBuilder.Build (firstBuilder.Or none [secondBuilder] heapShared).2 = "(?:p|p)" := by
  decide

/-! ## Concurrent calls -/

/-- `Add` leaves the new entry at the front, followed by old entries of other keys
in their order. -/
theorem LRU.Add_front {V : Type} (c : LRU V) (key : String) (value : V)
    (hsize : 1 ≤ c.size) (hnd : c.Keys.Nodup) :
    ∃ rest, (c.Add key value).2 = { size := c.size, evictList := { key := key, value := value } :: rest } ∧
      List.Sublist rest c.evictList ∧ key ∉ rest.map (fun e => e.key) := by
  cases hl : c.lookup key with
  | some ent =>
    refine ⟨c.evictList.eraseP (fun e => e.key == key), by simp [LRU.Add, hl],
      List.eraseP_sublist _, ?_⟩
    rw [eraseP_key_eq_filter key _ hnd]
    simp
  | none =>
    have hkey : key ∉ c.Keys := (LRU.lookup_eq_none_iff _ _).1 hl
    rw [LRU.Add_miss value hl]
    by_cases hev : (c.evictList.length : Int) + 1 > c.size
    · cases hlist : c.evictList with
      | nil => rw [hlist] at hev; simp at hev; omega
      | cons a l =>
        refine ⟨(a :: l).dropLast, ?_, List.dropLast_sublist _, ?_⟩
        · rw [hlist] at hev
          simp only [hev, ↓reduceIte]
          simp [List.dropLast]
        · intro hmem
          apply hkey
          simp only [LRU.Keys]
          rw [hlist]
          exact (List.Sublist.map _ (List.dropLast_sublist (a :: l))).subset hmem
    · exact ⟨c.evictList, by simp only [hev, ↓reduceIte], List.Sublist.refl _, hkey⟩

theorem Conc.step_hit {P : Type} (parse : String → Except String P) (pattern : String)
    (i : Nat) (c : Conc P) {ent : entry (Regexp P)} (hi : c.calls[i]? = some .start)
    (hl : c.st.cache.lookup pattern = some ent) :
    c.step parse pattern i =
      { st := { c.st with cache :=
                  { c.st.cache with
                    evictList := ent :: c.st.cache.evictList.eraseP (fun e => e.key == pattern) } }
        calls := c.calls.set i (.returned ent.value) } := by
  simp [Conc.step, hi, LRU.Get_hit hl]

theorem Conc.step_miss {P : Type} (parse : String → Except String P) (pattern : String)
    (i : Nat) (c : Conc P) {re : GoRegexp P} (hi : c.calls[i]? = some .start)
    (hl : c.st.cache.lookup pattern = none) (hc : regexpCompile parse pattern = .ok re) :
    c.step parse pattern i =
      { st :=
          { cache := c.st.cache
            nextAddr := c.st.nextAddr + 1
            compileCalls := c.st.compileCalls + 1 }
        calls := c.calls.set i (.missed { addr := c.st.nextAddr, re := re }) } := by
  simp [Conc.step, hi, LRU.Get_miss hl, hc]

theorem Conc.step_fail {P : Type} (parse : String → Except String P) (pattern : String)
    (i : Nat) (c : Conc P) {err : String} (hi : c.calls[i]? = some .start)
    (hl : c.st.cache.lookup pattern = none) (hc : regexpCompile parse pattern = .error err) :
    c.step parse pattern i =
      { st := { c.st with compileCalls := c.st.compileCalls + 1 }
        calls := c.calls.set i (.panicked err) } := by
  simp [Conc.step, hi, LRU.Get_miss hl, hc]

theorem Conc.step_add {P : Type} (parse : String → Except String P) (pattern : String)
    (i : Nat) (c : Conc P) {w : Regexp P} (hi : c.calls[i]? = some (.missed w)) :
    c.step parse pattern i =
      { st := { c.st with cache := (c.st.cache.Add pattern w).2 }
        calls := c.calls.set i (.returned w) } := by
  simp [Conc.step, hi]

theorem Conc.step_done {P : Type} (parse : String → Except String P) (pattern : String)
    (i : Nat) (c : Conc P) (hi : Call.rank c.calls[i]? = 0) :
    c.step parse pattern i = c := by
  unfold Conc.step
  cases hget : c.calls[i]? with
  | none => rfl
  | some call =>
    cases call with
    | start => rw [hget] at hi; simp [Call.rank] at hi
    | missed w => rw [hget] at hi; simp [Call.rank] at hi
    | returned re => rfl
    | panicked err => rfl

/-- A goroutine that takes its two steps without another one in between does what
the sequential `MustCompileWithCache` does. -/
theorem Conc.step_step_sequential {P : Type} (parse : String → Except String P)
    (pattern : String) (i : Nat) (c : Conc P) (hi : c.calls[i]? = some .start) :
    (c.step parse pattern i).step parse pattern i =
      { st := (MustCompileWithCache parse ⟨pattern⟩ c.st).2
        calls := c.calls.set i
          (match (MustCompileWithCache parse ⟨pattern⟩ c.st).1 with
            | .ok re => .returned re
            | .error err => .panicked err) } := by
  have hlt : i < c.calls.length := by
    by_contra hge
    rw [List.getElem?_eq_none (not_lt.1 hge)] at hi
    cases hi
  have hbuild : (RegexBuilder.mk pattern).Build = pattern := rfl
  cases hl : c.st.cache.lookup pattern with
  | some ent =>
    rw [Conc.step_hit parse pattern i c hi hl, Conc.step_done]
    · rw [MustCompileWithCache_hit parse ⟨pattern⟩ c.st (hbuild.symm ▸ hl)]
      rfl
    · simp [Call.rank, List.getElem?_set_self hlt]
  | none =>
    cases hc : regexpCompile parse pattern with
    | error err =>
      rw [Conc.step_fail parse pattern i c hi hl hc, Conc.step_done]
      · rw [MustCompileWithCache_fail parse ⟨pattern⟩ c.st (hbuild.symm ▸ hl)
          (hbuild.symm ▸ hc)]
      · simp [Call.rank, List.getElem?_set_self hlt]
    | ok re =>
      rw [Conc.step_miss parse pattern i c hi hl hc, Conc.step_add parse pattern i _
        (List.getElem?_set_self hlt)]
      simp [MustCompileWithCache, hbuild, LRU.Get_miss hl, hc, List.set_set]

theorem countP_set {α : Type} (p : α → Bool) :
    ∀ (l : List α) (i : Nat) (a b : α), l[i]? = some a →
      (l.set i b).countP p + (if p a then 1 else 0)
        = l.countP p + (if p b then 1 else 0) := by
  intro l
  induction l with
  | nil => intro i a b h; simp at h
  | cons x xs ih =>
    intro i a b h
    cases i with
    | zero =>
      simp only [List.getElem?_cons_zero, Option.some.injEq] at h
      subst h
      simp only [List.set_cons_zero, List.countP_cons]
      omega
    | succ j =>
      simp only [List.getElem?_cons_succ] at h
      have := ih j a b h
      simp only [List.set_cons_succ, List.countP_cons]
      omega

theorem forall_mem_set {α : Type} {q : α → Prop} {l : List α} {i : Nat} {b : α}
    (hl : ∀ a ∈ l, q a) (hb : q b) : ∀ a ∈ l.set i b, q a := by
  intro a ha
  rcases List.mem_or_eq_of_mem_set ha with h | h
  · exact hl a h
  · exact h ▸ hb

theorem ConcInv_start {P : Type} {parse : String → Except String P} (d : String)
    (re0 : GoRegexp P) (n : Nat) {s : State P} (hs : Inv parse s)
    (hres : s.cache.Contains d = false) :
    ConcInv d re0 s.compileCalls n (Conc.start n s) where
  size_pos := hs.size_pos
  keys_nodup := hs.keys_nodup
  length_eq := by simp [Conc.start]
  calls_ok := by
    intro call hmem
    simp only [Conc.start, List.mem_replicate] at hmem
    rw [hmem.2]
    trivial
  entry_ok := by
    intro e he hk
    have hl := LRU.Contains_eq_false hres
    rw [LRU.lookup_eq_none_iff] at hl
    exact absurd (by simp only [Conc.start, LRU.Keys, List.mem_map]; exact ⟨e, he, hk⟩) hl
  resident := by
    rintro ⟨call, hmem, hret⟩
    simp only [Conc.start, List.mem_replicate] at hmem
    rw [hmem.2] at hret
    cases hret
  count_le := by
    have : (List.replicate n (Call.start : Call P)).countP Call.isStart ≤ n := by
      have := List.countP_le_length Call.isStart (l := List.replicate n (Call.start : Call P))
      simpa using this
    simpa [Conc.start] using this

/-- The invariant of concurrent calls is kept by every step of every goroutine. -/
theorem ConcInv_step {P : Type} {parse : String → Except String P} {d : String}
    {re0 : GoRegexp P} {base n : Nat} {c : Conc P} (hc : regexpCompile parse d = .ok re0)
    (i : Nat) (h : ConcInv d re0 base n c) : ConcInv d re0 base n (c.step parse d i) := by
  cases hget : c.calls[i]? with
  | none => rw [Conc.step_done parse d i c (by rw [hget]; rfl)]; exact h
  | some call =>
    cases call with
    | returned re => rw [Conc.step_done parse d i c (by rw [hget]; rfl)]; exact h
    | panicked err => rw [Conc.step_done parse d i c (by rw [hget]; rfl)]; exact h
    | start =>
      have hcount := countP_set Call.isStart c.calls i .start
      cases hl : c.st.cache.lookup d with
      | some ent =>
        rw [Conc.step_hit parse d i c hget hl]
        have hperm := perm_cons_eraseP_of_find _ _ _ hl
        obtain ⟨hmem, hk⟩ := LRU.lookup_some hl
        have hcnt := hcount (.returned ent.value) hget
        simp only [Call.isStart, ↓reduceIte, Bool.false_eq_true] at hcnt
        refine ⟨h.size_pos, ?_, by simpa using h.length_eq, ?_, ?_, fun _ => ?_, ?_⟩
        · have := h.keys_nodup
          simp only [LRU.Keys] at this ⊢
          exact ((hperm.map _).nodup_iff).1 this
        · exact forall_mem_set h.calls_ok (h.entry_ok ent hmem hk)
        · intro e he
          exact h.entry_ok e (hperm.mem_iff.2 he)
        · simp only [LRU.Keys, List.map_cons, List.mem_cons]
          exact Or.inl hk.symm
        · have := h.count_le
          simp only
          omega
      | none =>
        rw [Conc.step_miss parse d i c hget hl hc]
        have hcnt := hcount (.missed { addr := c.st.nextAddr, re := re0 }) hget
        simp only [Call.isStart, ↓reduceIte, Bool.false_eq_true] at hcnt
        refine ⟨h.size_pos, h.keys_nodup, by simpa using h.length_eq, ?_, h.entry_ok, ?_, ?_⟩
        · exact forall_mem_set h.calls_ok rfl
        · rintro ⟨call, hmem, hret⟩
          apply h.resident
          rcases List.mem_or_eq_of_mem_set hmem with hold | hnew
          · exact ⟨call, hold, hret⟩
          · rw [hnew] at hret
            cases hret
        · have := h.count_le
          simp only
          omega
    | missed w =>
      rw [Conc.step_add parse d i c hget]
      have hw : w.re = re0 := h.calls_ok _ (List.getElem?_mem hget)
      obtain ⟨rest, hadd, hsub, hnot⟩ := LRU.Add_front c.st.cache d w h.size_pos h.keys_nodup
      have hcnt := countP_set Call.isStart c.calls i (.missed w) (.returned w) hget
      simp only [Call.isStart, ↓reduceIte, Bool.false_eq_true] at hcnt
      simp only [hadd]
      refine ⟨h.size_pos, ?_, by simpa using h.length_eq, ?_, ?_, fun _ => ?_, ?_⟩
      · simp only [LRU.Keys, List.map_cons, List.nodup_cons]
        exact ⟨hnot, List.Nodup.sublist (List.Sublist.map _ hsub) h.keys_nodup⟩
      · exact forall_mem_set h.calls_ok hw
      · intro e he hk
        rcases List.mem_cons.1 he with rfl | hold
        · exact hw
        · exact h.entry_ok e (hsub.subset hold) hk
      · simp [LRU.Keys]
      · have := h.count_le
        simp only
        omega

theorem ConcInv_run {P : Type} {parse : String → Except String P} {d : String}
    {re0 : GoRegexp P} {base n : Nat} (hc : regexpCompile parse d = .ok re0)
    (sched : List Nat) :
    ∀ {c : Conc P}, ConcInv d re0 base n c → ConcInv d re0 base n (c.run parse d sched) := by
  induction sched with
  | nil => intro c h; exact h
  | cons i sched ih =>
    intro c h
    exact ih (ConcInv_step hc i h)

/-- A step of the goroutine `i` brings it one step closer to its return, and leaves
the other goroutines where they stand. -/
theorem Conc.rank_step {P : Type} (parse : String → Except String P) (pattern : String)
    (i j : Nat) (c : Conc P) :
    Call.rank (c.step parse pattern i).calls[j]?
      ≤ Call.rank c.calls[j]? - (if j = i then 1 else 0) := by
  by_cases hji : j = i
  · subst hji
    simp only [↓reduceIte]
    cases hget : c.calls[j]? with
    | none => rw [Conc.step_done parse pattern j c (by rw [hget]; rfl), hget]; simp [Call.rank]
    | some call =>
      have hlt : j < c.calls.length := by
        by_contra hge
        rw [List.getElem?_eq_none (not_lt.1 hge)] at hget
        cases hget
      cases call with
      | returned re =>
        rw [Conc.step_done parse pattern j c (by rw [hget]; rfl), hget]; simp [Call.rank]
      | panicked err =>
        rw [Conc.step_done parse pattern j c (by rw [hget]; rfl), hget]; simp [Call.rank]
      | missed w =>
        rw [Conc.step_add parse pattern j c hget]
        simp [Call.rank, List.getElem?_set_self hlt]
      | start =>
        cases hl : c.st.cache.lookup pattern with
        | some ent =>
          rw [Conc.step_hit parse pattern j c hget hl]
          simp [Call.rank, List.getElem?_set_self hlt]
        | none =>
          cases hc : regexpCompile parse pattern with
          | error err =>
            rw [Conc.step_fail parse pattern j c hget hl hc]
            simp [Call.rank, List.getElem?_set_self hlt]
          | ok re =>
            rw [Conc.step_miss parse pattern j c hget hl hc]
            simp [Call.rank, List.getElem?_set_self hlt]
  · simp only [hji, ↓reduceIte, Nat.sub_zero]
    have hij : i ≠ j := fun h => hji h.symm
    have hsame : (c.step parse pattern i).calls[j]? = c.calls[j]? := by
      unfold Conc.step
      split
      · split
        · simp [List.getElem?_set_ne hij]
        · split <;> simp [List.getElem?_set_ne hij]
      · simp [List.getElem?_set_ne hij]
      · rfl
    rw [hsame]

theorem Conc.rank_run {P : Type} (parse : String → Except String P) (pattern : String)
    (j : Nat) (sched : List Nat) :
    ∀ c : Conc P,
      Call.rank (c.run parse pattern sched).calls[j]? ≤ Call.rank c.calls[j]? - sched.count j := by
  induction sched with
  | nil => intro c; simp [Conc.run]
  | cons i sched ih =>
    intro c
    have h1 := ih (c.step parse pattern i)
    have h2 := Conc.rank_step parse pattern i j c
    have hrun : c.run parse pattern (i :: sched)
        = (c.step parse pattern i).run parse pattern sched := rfl
    rw [hrun, List.count_cons]
    by_cases hji : j = i
    · subst hji
      simp only [↓reduceIte, beq_self_eq_true] at h2 ⊢
      omega
    · have hij : ¬ (i == j) = true := by simpa using fun h => hji h.symm
      simp only [hji, ↓reduceIte, hij, Bool.false_eq_true] at h2 ⊢
      omega

/-- C18. Concurrent same-key requests: `N` goroutines call `MustCompileWithCache`
on builders holding the same description `d`, which compiles and is not
resident, in a reachable state; their steps (`cache.Get`, then on a miss the
compilation and `cache.Add`) interleave in any order in which every goroutine
gets to take its two steps. Then at most `N` compilations are done, every
goroutine returns a `Regexp` compiled from `d`, and (one call at least being
made) the cache holds exactly one entry for `d`. -/
theorem concurrent_same_key {P : Type} (parse : String → Except String P) (s : State P)
    (hs : Reachable parse s) (d : String) (re0 : GoRegexp P)
    (hc : regexpCompile parse d = .ok re0) (hres : s.cache.Contains d = false)
    (N : Nat) (sched : List Nat) (hfair : ∀ i < N, 2 ≤ sched.count i) :
    (Conc.run parse d sched (Conc.start N s)).st.compileCalls ≤ s.compileCalls + N ∧
    (Conc.run parse d sched (Conc.start N s)).calls.length = N ∧
    (∀ call ∈ (Conc.run parse d sched (Conc.start N s)).calls,
      ∃ re, call = .returned re ∧ re.re = re0) ∧
    (1 ≤ N → (Conc.run parse d sched (Conc.start N s)).st.cache.Keys.count d = 1) := by
  have hinv := ConcInv_run hc sched (ConcInv_start d re0 N hs.inv hres)
  have hall : ∀ call ∈ (Conc.run parse d sched (Conc.start N s)).calls,
      ∃ re, call = .returned re ∧ re.re = re0 := by
    intro call hmem
    obtain ⟨j, hj⟩ := List.mem_iff_getElem?.1 hmem
    have hjN : j < N := by
      rw [← hinv.length_eq]
      by_contra hge
      rw [List.getElem?_eq_none (not_lt.1 hge)] at hj
      cases hj
    have hrank := Conc.rank_run parse d j sched (Conc.start N s)
    have hstart : (Conc.start N s).calls[j]? = some .start := by
      simp [Conc.start, hjN]
    rw [hj, hstart] at hrank
    have hfj := hfair j hjN
    have hok := hinv.calls_ok call hmem
    cases call with
    | start => simp [Call.rank] at hrank; omega
    | missed w => simp [Call.rank] at hrank; omega
    | returned re => exact ⟨re, rfl, hok⟩
    | panicked err => exact absurd hok (by simp [Call.compiledAs])
  refine ⟨?_, hinv.length_eq, hall, fun hN => ?_⟩
  · have := hinv.count_le
    omega
  · have hlen := hinv.length_eq
    obtain ⟨call, hcall⟩ : ∃ call, call ∈ (Conc.run parse d sched (Conc.start N s)).calls := by
      cases hcalls : (Conc.run parse d sched (Conc.start N s)).calls with
      | nil => rw [hcalls] at hlen; simp at hlen; omega
      | cons a l => exact ⟨a, List.mem_cons_self _ _⟩
    obtain ⟨re, hre, _⟩ := hall call hcall
    have hmem := hinv.resident ⟨call, hcall, by rw [hre]; rfl⟩
    exact List.count_eq_one_of_mem hinv.keys_nodup hmem

/-- Witness of C18: two goroutines on `ab` from the initial state, the second
one running its two steps between the steps of the first. -/
theorem concurrent_same_key_witness :
    Reachable toyParse (State.init : State Nat) ∧
    (State.init : State Nat).cache.Contains "ab" = false ∧
    (∀ i < 2, 2 ≤ [0, 1, 1, 0].count i) ∧
    (Conc.run toyParse "ab" [0, 1, 1, 0] (Conc.start 2 (State.init : State Nat))).st.compileCalls
      ≤ (State.init : State Nat).compileCalls + 2 ∧
    (Conc.run toyParse "ab" [0, 1, 1, 0] (Conc.start 2 (State.init : State Nat))).calls
      = [.returned { addr := 0, re := { expr := "ab", prog := 2 } },
         .returned { addr := 1, re := { expr := "ab", prog := 2 } }] ∧
    (Conc.run toyParse "ab" [0, 1, 1, 0]
      (Conc.start 2 (State.init : State Nat))).st.cache.Keys.count "ab" = 1 :=
  have h := concurrent_same_key toyParse State.init Reachable.init "ab"
    { expr := "ab", prog := 2 } rfl (by decide) 2 [0, 1, 1, 0] (by decide)
  ⟨Reachable.init, by decide, by decide, h.1, by decide, h.2.2.2 (by decide)⟩

/-! ## The emitters -/

theorem special_ofNat : ∀ n < 128, special n = decide (Char.ofNat n ∈ metaChars) := by
  decide

theorem metaChars_ascii : ∀ c ∈ metaChars, c.toNat < 128 := by
  decide

/-- The special bytes of `regexp.QuoteMeta` are the metacharacters. -/
theorem special_toNat (c : Char) : special c.toNat = decide (c ∈ metaChars) := by
  by_cases hc : c.toNat < 128
  · have := special_ofNat c.toNat hc
    rwa [Char.ofNat_toNat] at this
  · have h1 : special c.toNat = false := by simp [special, hc]
    have h2 : c ∉ metaChars := fun hmem => hc (metaChars_ascii c hmem)
    simp [h1, h2]

theorem QuoteMeta_data (s : String) : (QuoteMeta s).data = escaped s.data := by
  simp only [QuoteMeta, escaped, special_toNat, decide_eq_true_eq]

theorem unquote_escaped : ∀ l : List Char, unquote (escaped l) = l := by
  intro l
  induction l with
  | nil => rfl
  | cons c l ih =>
    have hcons : escaped (c :: l) = (if c ∈ metaChars then ['\\', c] else [c]) ++ escaped l := by
      simp [escaped]
    rw [hcons]
    by_cases hc : c ∈ metaChars
    · simp only [hc, ↓reduceIte, List.cons_append, List.nil_append, unquote, ih]
    · have hne : c ≠ '\\' := by
        intro h
        apply hc
        rw [h]
        decide
      simp only [hc, ↓reduceIte, List.cons_append, List.nil_append]
      cases hl : escaped l with
      | nil =>
        rw [hl] at ih
        rw [← ih]
        rfl
      | cons d rest =>
        rw [hl] at ih
        simp only [unquote, hne, ↓reduceIte, ih]

/-- C21. `Literal` and `Quote` escape every special character: for every string `s`
they do the same to the builder, returning it with the text `QuoteMeta(s)`
appended; that text is `s` with a backslash before each metacharacter
(`\ . + * ? ( ) | [ ] { } ^ $`) and every other character unchanged, and
removing the escaping backslashes gives `s` back. -/
theorem Literal_Quote_escape (r : RegexBuilderPtr) (s : String) (h : Heap) :
    r.Literal s h = r.Quote s h ∧
    (r.Literal s h).1 = r ∧
    r.Build (r.Literal s h).2 = r.Build h ++ QuoteMeta s ∧
    (QuoteMeta s).data = escaped s.data ∧
    unquote (QuoteMeta s).data = s.data := by
  refine ⟨rfl, rfl, ?_, QuoteMeta_data s, ?_⟩
  · simp [RegexBuilderPtr.Literal, RegexBuilderPtr.Build, Heap.contents_WriteString_same]
  · rw [QuoteMeta_data, unquote_escaped]

/-- `Group` on builders that hold different `strings.Builder` objects: for `r`
(pattern `s`) and `g` (pattern `p`), `r.Group(g)` returns `r`, leaves `r` with
the pattern `s ++ "(" ++ p ++ ")"` and `g` with `p`; so `g` can be passed again
and contributes the same text: after a second `r.Group(g)` the pattern of `r`
is `s ++ "(" ++ p ++ ")" ++ "(" ++ p ++ ")"`. -/
theorem Group_wraps (r g : RegexBuilderPtr) (h : Heap) (hne : r.builder ≠ g.builder) :
    (r.Group g h).1 = r ∧
    r.Build (r.Group g h).2 = r.Build h ++ "(" ++ g.Build h ++ ")" ∧
    g.Build (r.Group g h).2 = g.Build h ∧
    r.Build (r.Group g (r.Group g h).2).2
      = r.Build h ++ "(" ++ g.Build h ++ ")" ++ "(" ++ g.Build h ++ ")" ∧
    g.Build (r.Group g (r.Group g h).2).2 = g.Build h := by
  have hgr : g.builder ≠ r.builder := fun e => hne e.symm
  have h1 : ∀ h0 : Heap, r.Build (r.Group g h0).2 = r.Build h0 ++ "(" ++ g.Build h0 ++ ")" := by
    intro h0
    simp only [RegexBuilderPtr.Group, RegexBuilderPtr.Build, Heap.contents_WriteString_same,
      Heap.contents_WriteString_ne _ _ hgr]
  have h2 : ∀ h0 : Heap, g.Build (r.Group g h0).2 = g.Build h0 := by
    intro h0
    simp only [RegexBuilderPtr.Group, RegexBuilderPtr.Build,
      Heap.contents_WriteString_ne _ _ hgr]
  refine ⟨rfl, h1 h, h2 h, ?_, ?_⟩
  · rw [h1, h2, h1]
  · rw [h2, h2]

/-- `Group` on the builders of `TestOrOperator` holding `cat` and `dog`. -/
theorem Group_wraps_witness :
    (RegexBuilderPtr.mk 0 0).builder ≠ (RegexBuilderPtr.mk 1 1).builder ∧
    (RegexBuilderPtr.mk 0 0).Build
      ((RegexBuilderPtr.mk 0 0).Group ⟨1, 1⟩ heapCatDogBird).2 = "cat(dog)" ∧
    (RegexBuilderPtr.mk 1 1).Build
      ((RegexBuilderPtr.mk 0 0).Group ⟨1, 1⟩ heapCatDogBird).2 = "dog" :=
  have h := Group_wraps ⟨0, 0⟩ ⟨1, 1⟩ heapCatDogBird (by decide)
  ⟨by decide, h.2.1, h.2.2.1⟩

theorem Heap.extends_WriteString {h h1 : Heap} {b : Nat} (s : String)
    (hx : ∃ t, h1.contents b = h.contents b ++ t) :
    ∃ t, (h1.WriteString b s).contents b = h.contents b ++ t := by
  obtain ⟨t, ht⟩ := hx
  exact ⟨t ++ s, by rw [Heap.contents_WriteString_same, ht, String.append_assoc]⟩

theorem Heap.extends_refl (h : Heap) (b : Nat) : ∃ t, h.contents b = h.contents b ++ t :=
  ⟨"", by simp⟩

/-- C27. Emitters only append: every emitter method other than `Or`, with any
arguments (also a sub-builder that is the receiver itself), returns the builder
it was called on and leaves it with a pattern that starts with the pattern `s`
it had; `Build` only reads the text of the builder (it returns no new heap), so
two consecutive `Build` calls return the same string, before and after an
emitter call. -/
theorem emitters_only_append (e : Emitter) (r : RegexBuilderPtr) (h : Heap) :
    (e.apply r h).1 = r ∧
    (∃ t, r.Build (e.apply r h).2 = r.Build h ++ t) ∧
    r.Build h = h.contents r.builder ∧
    r.Build (e.apply r h).2 = (e.apply r h).2.contents r.builder := by
  refine ⟨?_, ?_, rfl, rfl⟩
  · cases e <;> rfl
  · simp only [RegexBuilderPtr.Build]
    cases e <;>
      simp only [Emitter.apply, RegexBuilderPtr.Raw, RegexBuilderPtr.Literal,
        RegexBuilderPtr.StartAnchor, RegexBuilderPtr.EndAnchor, RegexBuilderPtr.StartOfString,
        RegexBuilderPtr.EndOfString, RegexBuilderPtr.Group, RegexBuilderPtr.NonCapturingGroup,
        RegexBuilderPtr.NamedGroup, RegexBuilderPtr.Exactly, RegexBuilderPtr.Maybe,
        RegexBuilderPtr.OneOrMore, RegexBuilderPtr.ZeroOrMore, RegexBuilderPtr.AtLeast,
        RegexBuilderPtr.Between, RegexBuilderPtr.NonGreedy, RegexBuilderPtr.Whitespace,
        RegexBuilderPtr.NotWhitespace, RegexBuilderPtr.Digit, RegexBuilderPtr.NotDigit,
        RegexBuilderPtr.WordChar, RegexBuilderPtr.NotWordChar, RegexBuilderPtr.WordBoundary,
        RegexBuilderPtr.NotWordBoundary, RegexBuilderPtr.Tab, RegexBuilderPtr.Newline,
        RegexBuilderPtr.CarriageReturn, RegexBuilderPtr.Quote, RegexBuilderPtr.AnyOf,
        RegexBuilderPtr.NotAnyOf, RegexBuilderPtr.Range, RegexBuilderPtr.WithFlags,
        RegexBuilderPtr.GroupWithFlags, RegexBuilderPtr.POSIXClass,
        RegexBuilderPtr.NotPOSIXClass, RegexBuilderPtr.UnicodeProperty,
        RegexBuilderPtr.NotUnicodeProperty, Heap.WriteRune] <;>
      repeat (first
        | exact Heap.extends_refl h r.builder
        | apply Heap.extends_WriteString)

theorem Heap.contents_WriteRune_same (h : Heap) (b : Nat) (r : Int) :
    (h.WriteRune b r).contents b = h.contents b ++ String.singleton (runeToChar r) :=
  Heap.contents_WriteString_same h b _

theorem Heap.contents_WriteRune_ne (h : Heap) {b x : Nat} (r : Int) (hx : x ≠ b) :
    (h.WriteRune b r).contents x = h.contents x :=
  Heap.contents_WriteString_ne h _ hx

/-- An emitter call leaves every other `strings.Builder` as it is. -/
theorem Emitter.apply_frame (e : Emitter) (r : RegexBuilderPtr) (h : Heap) (x : Nat)
    (hx : x ≠ r.builder) : (e.apply r h).2.contents x = h.contents x := by
  cases e <;>
    simp only [Emitter.apply, RegexBuilderPtr.Raw, RegexBuilderPtr.Literal,
      RegexBuilderPtr.StartAnchor, RegexBuilderPtr.EndAnchor, RegexBuilderPtr.StartOfString,
      RegexBuilderPtr.EndOfString, RegexBuilderPtr.Group, RegexBuilderPtr.NonCapturingGroup,
      RegexBuilderPtr.NamedGroup, RegexBuilderPtr.Exactly, RegexBuilderPtr.Maybe,
      RegexBuilderPtr.OneOrMore, RegexBuilderPtr.ZeroOrMore, RegexBuilderPtr.AtLeast,
      RegexBuilderPtr.Between, RegexBuilderPtr.NonGreedy, RegexBuilderPtr.Whitespace,
      RegexBuilderPtr.NotWhitespace, RegexBuilderPtr.Digit, RegexBuilderPtr.NotDigit,
      RegexBuilderPtr.WordChar, RegexBuilderPtr.NotWordChar, RegexBuilderPtr.WordBoundary,
      RegexBuilderPtr.NotWordBoundary, RegexBuilderPtr.Tab, RegexBuilderPtr.Newline,
      RegexBuilderPtr.CarriageReturn, RegexBuilderPtr.Quote, RegexBuilderPtr.AnyOf,
      RegexBuilderPtr.NotAnyOf, RegexBuilderPtr.Range, RegexBuilderPtr.WithFlags,
      RegexBuilderPtr.GroupWithFlags, RegexBuilderPtr.POSIXClass,
      RegexBuilderPtr.NotPOSIXClass, RegexBuilderPtr.UnicodeProperty,
      RegexBuilderPtr.NotUnicodeProperty, Heap.contents_WriteString_ne _ _ hx,
      Heap.contents_WriteRune_ne _ _ hx]

/-- An emitter call whose argument builder, if any, is not the receiver appends the
text of the call. -/
theorem Emitter.apply_text (e : Emitter) (r : RegexBuilderPtr) (h : Heap)
    (hsub : ∀ g, e.sub = some g → g.builder ≠ r.builder) :
    r.Build (e.apply r h).2 = r.Build h ++ e.text h := by
  cases e <;>
    first
    | (simp only [Emitter.apply, Emitter.text, RegexBuilderPtr.Raw, RegexBuilderPtr.Literal,
        RegexBuilderPtr.StartAnchor, RegexBuilderPtr.EndAnchor, RegexBuilderPtr.StartOfString,
        RegexBuilderPtr.EndOfString, RegexBuilderPtr.Exactly, RegexBuilderPtr.Maybe,
        RegexBuilderPtr.OneOrMore, RegexBuilderPtr.ZeroOrMore, RegexBuilderPtr.AtLeast,
        RegexBuilderPtr.Between, RegexBuilderPtr.NonGreedy, RegexBuilderPtr.Whitespace,
        RegexBuilderPtr.NotWhitespace, RegexBuilderPtr.Digit, RegexBuilderPtr.NotDigit,
        RegexBuilderPtr.WordChar, RegexBuilderPtr.NotWordChar, RegexBuilderPtr.WordBoundary,
        RegexBuilderPtr.NotWordBoundary, RegexBuilderPtr.Tab, RegexBuilderPtr.Newline,
        RegexBuilderPtr.CarriageReturn, RegexBuilderPtr.Quote, RegexBuilderPtr.AnyOf,
        RegexBuilderPtr.NotAnyOf, RegexBuilderPtr.Range, RegexBuilderPtr.WithFlags,
        RegexBuilderPtr.POSIXClass, RegexBuilderPtr.NotPOSIXClass,
        RegexBuilderPtr.UnicodeProperty, RegexBuilderPtr.NotUnicodeProperty,
        RegexBuilderPtr.Build, Heap.contents_WriteString_same, Heap.contents_WriteRune_same,
        String.append_assoc, charClassWhitespace, charClassNotWhitespace, charClassDigit,
        charClassNotDigit, charClassWord, charClassNotWord, charClassWordBoundary,
        charClassNotWordBoundary, charTab, charNewline, charCarriageReturn,
        anchorStartOfString, anchorEndOfString]; done)
    | (rename_i g
       have hg : g.builder ≠ r.builder := hsub g rfl
       simp only [Emitter.apply, Emitter.text, RegexBuilderPtr.Group,
         RegexBuilderPtr.NonCapturingGroup, RegexBuilderPtr.NamedGroup,
         RegexBuilderPtr.GroupWithFlags, RegexBuilderPtr.Build,
         Heap.contents_WriteString_same, Heap.contents_WriteString_ne _ _ hg,
         String.append_assoc])

theorem Emitter.text_congr (e : Emitter) (h h1 : Heap)
    (hsub : ∀ g, e.sub = some g → h1.contents g.builder = h.contents g.builder) :
    e.text h1 = e.text h := by
  cases e <;>
    first
    | rfl
    | (simp only [Emitter.text, RegexBuilderPtr.Build]
       rw [hsub _ rfl])

theorem Emitter.texts_congr (es : List Emitter) (h h1 : Heap)
    (hsub : ∀ e ∈ es, ∀ g, e.sub = some g → h1.contents g.builder = h.contents g.builder) :
    Emitter.texts es h1 = Emitter.texts es h := by
  induction es with
  | nil => rfl
  | cons e es ih =>
    simp only [Emitter.texts]
    rw [Emitter.text_congr e h h1 (hsub e (List.mem_cons_self _ _)),
      ih (fun e1 he1 => hsub e1 (List.mem_cons_of_mem _ he1))]

/-- A chain of emitter calls whose argument builders are not the receiver returns
the receiver, with the texts of the calls appended, and leaves every other
`strings.Builder` as it is. -/
theorem Emitter.chain_text (es : List Emitter) (r : RegexBuilderPtr) :
    ∀ h : Heap, (∀ e ∈ es, ∀ g, e.sub = some g → g.builder ≠ r.builder) →
      (Emitter.chain es r h).1 = r ∧
      r.Build (Emitter.chain es r h).2 = r.Build h ++ Emitter.texts es h ∧
      ∀ x, x ≠ r.builder → (Emitter.chain es r h).2.contents x = h.contents x := by
  induction es with
  | nil =>
    intro h _
    exact ⟨rfl, by simp [Emitter.chain, Emitter.texts], fun _ _ => rfl⟩
  | cons e es ih =>
    intro h hsub
    have hfst : (e.apply r h).1 = r := by cases e <;> rfl
    have hpair : e.apply r h = (r, (e.apply r h).2) := Prod.ext hfst rfl
    have hstep : Emitter.chain (e :: es) r h = Emitter.chain es r (e.apply r h).2 := by
      simp only [Emitter.chain, List.foldl_cons]
      exact congrArg (fun p => List.foldl (fun acc e => e.apply acc.1 acc.2) p es) hpair
    obtain ⟨ih1, ih2, ih3⟩ := ih (e.apply r h).2
      (fun e1 he1 => hsub e1 (List.mem_cons_of_mem _ he1))
    have htext := Emitter.apply_text e r h (hsub e (List.mem_cons_self _ _))
    have htexts : Emitter.texts es (e.apply r h).2 = Emitter.texts es h :=
      Emitter.texts_congr es h _ (fun e1 he1 g hg =>
        Emitter.apply_frame e r h g.builder (hsub e1 (List.mem_cons_of_mem _ he1) g hg))
    rw [hstep]
    refine ⟨ih1, ?_, fun x hx => ?_⟩
    · rw [ih2, htext, htexts, String.append_assoc]
      rfl
    · rw [ih3 x hx, Emitter.apply_frame e r h x hx]

/-- The characters of a range. -/
theorem mem_charsIn (lo hi c : Char) : c ∈ charsIn lo hi ↔ lo ≤ c ∧ c ≤ hi := by
  simp only [charsIn, List.mem_filter, List.mem_map, List.mem_range, Bool.and_eq_true,
    decide_eq_true_eq]
  constructor
  · rintro ⟨_, h⟩
    exact h
  · intro h
    refine ⟨⟨c.toNat, ?_, Char.ofNat_toNat c⟩, h⟩
    have := h.2
    rw [Char.le_def] at this
    have h2 : c.val.toNat ≤ hi.val.toNat := this
    simp only [Char.toNat]
    omega

/-- A class that is not negated matches the characters of its ranges. -/
theorem clsMatch_iff (rs : List (Char × Char)) (c : Char) :
    clsMatch false rs c = true ↔ c ∈ rs.flatMap (fun r => charsIn r.1 r.2) := by
  simp [clsMatch, mem_charsIn]

/-- The matcher on an expression without repetition, anchors and negated classes:
a match from a position ends where one of its words has been read. -/
theorem Re.mem_ends_iff (r : Re) (hf : r.finite = true) :
    ∀ (st st1 : Pos), st1 ∈ r.ends st ↔
      ∃ w ∈ r.words, st.2 = w ++ st1.2 ∧ st1.1 = (st.1 && w.isEmpty) := by
  induction r with
  | empty =>
    intro st st1
    simp only [Re.ends, Re.words, List.mem_singleton, exists_eq_left, List.nil_append,
      List.isEmpty_nil, Bool.and_true]
    constructor
    · rintro rfl; exact ⟨rfl, rfl⟩
    · rintro ⟨h1, h2⟩; exact Prod.ext h2 h1.symm
  | cls neg rs =>
    intro st st1
    have hneg : neg = false := by simpa [Re.finite] using hf
    subst hneg
    obtain ⟨b, s⟩ := st
    obtain ⟨b1, s1⟩ := st1
    cases s with
    | nil => simp [Re.ends, Re.words]
    | cons c cs =>
      simp only [Re.ends, Re.words, Bool.false_eq_true, ↓reduceIte, List.mem_map,
        exists_exists_and_eq_and, List.singleton_append, List.cons.injEq, List.isEmpty_cons,
        Bool.and_false]
      by_cases hm : clsMatch false rs c = true
      · have hmem := (clsMatch_iff rs c).1 hm
        simp only [hm, ↓reduceIte, List.mem_singleton, Prod.mk.injEq]
        constructor
        · rintro ⟨rfl, rfl⟩
          exact ⟨c, hmem, ⟨rfl, rfl⟩, rfl⟩
        · rintro ⟨a, _, ⟨_, h2⟩, h3⟩
          exact ⟨h3, h2.symm⟩
      · simp only [hm, Bool.false_eq_true, ↓reduceIte, List.not_mem_nil, false_iff, not_exists,
          not_and]
        rintro a ha ⟨rfl, _⟩
        exact absurd ((clsMatch_iff rs c).2 ha) hm
  | bol => simp [Re.finite] at hf
  | eol => simp [Re.finite] at hf
  | star a _ => simp [Re.finite] at hf
  | cat a b iha ihb =>
    intro st st1
    simp only [Re.finite, Bool.and_eq_true] at hf
    simp only [Re.ends, Re.words, List.mem_flatMap, List.mem_map]
    constructor
    · rintro ⟨st2, h2, h3⟩
      obtain ⟨u, hu, hu1, hu2⟩ := (iha hf.1 st st2).1 h2
      obtain ⟨v, hv, hv1, hv2⟩ := (ihb hf.2 st2 st1).1 h3
      refine ⟨u ++ v, ⟨u, hu, v, hv, rfl⟩, ?_, ?_⟩
      · rw [hu1, hv1, List.append_assoc]
      · rw [hv2, hu2]
        cases u <;> simp
    · rintro ⟨w, ⟨u, hu, v, hv, rfl⟩, h1, h2⟩
      refine ⟨(st.1 && u.isEmpty, v ++ st1.2), (iha hf.1 st _).2 ⟨u, hu, ?_, rfl⟩,
        (ihb hf.2 _ st1).2 ⟨v, hv, rfl, ?_⟩⟩
      · rw [h1, List.append_assoc]
      · rw [h2]
        cases u <;> simp
  | alt a b iha ihb =>
    intro st st1
    simp only [Re.finite, Bool.and_eq_true] at hf
    simp only [Re.ends, Re.words, List.mem_append, iha hf.1, ihb hf.2]
    constructor
    · rintro (⟨w, hw, h⟩ | ⟨w, hw, h⟩)
      · exact ⟨w, Or.inl hw, h⟩
      · exact ⟨w, Or.inr hw, h⟩
    · rintro ⟨w, hw | hw, h⟩
      · exact Or.inl ⟨w, hw, h⟩
      · exact Or.inr ⟨w, hw, h⟩


/-- The matcher on a concatenation that ends with `$`: the matches of the
expressions before it that end at the end of the text. -/
theorem Re.mem_ends_seq_eol (xs : List Re) :
    ∀ (st st1 : Pos), st1 ∈ (Re.seq (xs ++ [.eol])).ends st ↔
      st1 ∈ (Re.seq xs).ends st ∧ st1.2 = [] := by
  induction xs with
  | nil =>
    intro st st1
    simp only [List.nil_append, Re.seq, Re.ends, List.mem_flatMap, List.mem_singleton]
    constructor
    · rintro ⟨st2, h2, rfl⟩
      by_cases he : st.2.isEmpty = true
      · rw [if_pos he, List.mem_singleton] at h2
        subst h2
        exact ⟨rfl, List.isEmpty_iff.1 he⟩
      · rw [if_neg he] at h2
        exact absurd h2 (List.not_mem_nil _)
    · rintro ⟨rfl, h2⟩
      refine ⟨st1, ?_, rfl⟩
      rw [if_pos (List.isEmpty_iff.2 h2)]
      exact List.mem_singleton_self _
  | cons x xs ih =>
    intro st st1
    rw [List.cons_append]
    simp only [Re.seq, Re.ends, List.mem_flatMap]
    simp only [ih]
    constructor
    · rintro ⟨st2, h2, h3, h4⟩
      exact ⟨⟨st2, h2, h3⟩, h4⟩
    · rintro ⟨⟨st2, h2, h3⟩, h4⟩
      exact ⟨st2, h2, h3, h4⟩

/-- An expression anchored at both ends, without repetition in between, matches
a text exactly when the text is one of the words in between. -/
theorem Re.IsMatch_anchored (xs : List Re) (hf : (Re.seq xs).finite = true) (s : List Char) :
    (Re.cat .bol (Re.seq (xs ++ [.eol]))).IsMatch s = true ↔ s ∈ (Re.seq xs).words := by
  have hat : ∀ i, (Re.cat .bol (Re.seq (xs ++ [.eol]))).matchAt s i = true ↔
      i = 0 ∧ s ∈ (Re.seq xs).words := by
    intro i
    cases i with
    | zero =>
      simp only [Re.matchAt, Re.ends, beq_self_eq_true, if_true, List.drop_zero,
        List.flatMap_cons, List.flatMap_nil, List.append_nil, Bool.not_eq_true',
        List.isEmpty_eq_false, true_and]
      constructor
      · intro hne
        obtain ⟨st1, h1⟩ := List.exists_mem_of_ne_nil _ hne
        obtain ⟨h2, h3⟩ := (Re.mem_ends_seq_eol xs _ _).1 h1
        obtain ⟨w, hw, hw1, _⟩ := (Re.mem_ends_iff _ hf _ _).1 h2
        rw [h3, List.append_nil] at hw1
        have hs : s = w := hw1
        rw [hs]
        exact hw
      · intro hw
        exact List.ne_nil_of_mem ((Re.mem_ends_seq_eol xs (true, s) (s.isEmpty, [])).2
          ⟨(Re.mem_ends_iff _ hf _ _).2 ⟨s, hw, (List.append_nil s).symm, by simp⟩, rfl⟩)
    | succ n =>
      simp [Re.matchAt, Re.ends]
  simp only [Re.IsMatch, List.any_eq_true, List.mem_range, hat]
  constructor
  · rintro ⟨_, _, _, h⟩
    exact h
  · intro h
    exact ⟨0, Nat.succ_pos _, rfl, h⟩

set_option maxRecDepth 100000 in
/-- The pattern `patterns.IPv4` is meant to build parses into `ipv4Re`. -/
theorem syntaxParse_ipv4Pattern : syntaxParse ipv4Pattern = .ok ipv4Re := by
  rfl

set_option maxRecDepth 1000000 in
/-- Every text the octet alternation matches in full is the decimal text of a number
from 0 to 255. -/
theorem octet_words_sub : octetRe.words.all (fun w => octetTexts.contains w) = true := by
  decide

set_option maxRecDepth 1000000 in
/-- The decimal text of every number from 0 to 255 is matched in full by the octet
alternation. -/
theorem octet_texts_sub : octetTexts.all (fun w => octetRe.words.contains w) = true := by
  decide

/-- The texts the octet alternation matches in full: the numbers from 0 to 255 in
decimal, without leading zeros. -/
theorem mem_octet_words (w : List Char) :
    w ∈ octetRe.words ↔ ∃ n : Nat, n ≤ 255 ∧ w = (toString n).data := by
  have htexts : w ∈ octetTexts ↔ ∃ n : Nat, n ≤ 255 ∧ w = (toString n).data := by
    simp only [octetTexts, List.mem_map, List.mem_range]
    constructor
    · rintro ⟨n, hn, rfl⟩
      exact ⟨n, by omega, rfl⟩
    · rintro ⟨n, hn, rfl⟩
      exact ⟨n, by omega, rfl⟩
  rw [← htexts]
  constructor
  · intro hw
    have h := List.all_eq_true.1 octet_words_sub w hw
    simpa using h
  · intro hw
    have h := List.all_eq_true.1 octet_texts_sub w hw
    simpa using h

/-- The words of four groups of `o` with a separator between them. -/
theorem Re.mem_words_quad (o d : Re) (c : Char) (hd : d.words = [[c]]) (s : List Char) :
    s ∈ (Re.seq [Re.seq [o], d, Re.seq [o], d, Re.seq [o], d, Re.seq [o]]).words ↔
      ∃ w1 ∈ o.words, ∃ w2 ∈ o.words, ∃ w3 ∈ o.words, ∃ w4 ∈ o.words,
        s = w1 ++ c :: (w2 ++ c :: (w3 ++ c :: w4)) := by
  simp only [Re.seq, Re.words, hd, List.mem_flatMap, List.mem_map, List.mem_singleton,
    exists_exists_and_eq_and, exists_eq_left, List.append_nil, List.singleton_append]
  constructor
  · rintro ⟨w1, h1, _, ⟨w2, h2, _, ⟨w3, h3, w4, h4, rfl⟩, rfl⟩, rfl⟩
    exact ⟨w1, h1, w2, h2, w3, h3, w4, h4, rfl⟩
  · rintro ⟨w1, h1, w2, h2, w3, h3, w4, h4, rfl⟩
    exact ⟨w1, h1, _, ⟨w2, h2, _, ⟨w3, h3, w4, h4, rfl⟩, rfl⟩, rfl⟩

/-- The texts between the anchors of the parsed pattern of `patterns.IPv4`: four
octet texts with dots between them. -/
theorem mem_ipv4Body_words (s : List Char) :
    s ∈ (Re.seq ipv4Body).words ↔
      ∃ w1 ∈ octetRe.words, ∃ w2 ∈ octetRe.words, ∃ w3 ∈ octetRe.words, ∃ w4 ∈ octetRe.words,
        s = w1 ++ '.' :: (w2 ++ '.' :: (w3 ++ '.' :: w4)) :=
  Re.mem_words_quad octetRe (Re.lit '.') '.' (by decide) s

/-- The parsed pattern of `patterns.IPv4` matches the dotted quads and nothing
else. -/
theorem ipv4Re_IsMatch (s : String) : ipv4Re.IsMatch s.data = true ↔ IsDottedQuad s := by
  rw [ipv4Re, Re.IsMatch_anchored ipv4Body (by decide), mem_ipv4Body_words]
  simp only [mem_octet_words, IsDottedQuad]
  constructor
  · rintro ⟨_, ⟨a, ha, rfl⟩, _, ⟨b, hb, rfl⟩, _, ⟨c, hc, rfl⟩, _, ⟨d, hd, rfl⟩, hs⟩
    refine ⟨a, b, c, d, ha, hb, hc, hd, ?_⟩
    apply String.ext
    rw [hs]
    simp [String.data_append]
  · rintro ⟨a, b, c, d, ha, hb, hc, hd, rfl⟩
    refine ⟨_, ⟨a, ha, rfl⟩, _, ⟨b, hb, rfl⟩, _, ⟨c, hc, rfl⟩, _, ⟨d, hd, rfl⟩, ?_⟩
    simp [String.data_append]

/-- An emitter call leaves the pool and the allocation mark as they are. -/
theorem Emitter.apply_pool (e : Emitter) (r : RegexBuilderPtr) (h : Heap) :
    (e.apply r h).2.pool = h.pool ∧ (e.apply r h).2.next = h.next := by
  cases e <;> exact ⟨rfl, rfl⟩

/-- An emitter call on a builder whose object is not in the pool keeps the pool
clean. -/
theorem Emitter.apply_clean (e : Emitter) (r : RegexBuilderPtr) (h : Heap)
    (hc : h.PoolClean) (hr : r.builder ∉ h.pool) : (e.apply r h).2.PoolClean := by
  obtain ⟨hpool, hnext⟩ := Emitter.apply_pool e r h
  refine ⟨hpool ▸ hc.1, fun b hb => ?_⟩
  rw [hpool] at hb
  rw [hnext, Emitter.apply_frame e r h b (fun hbr => hr (hbr ▸ hb))]
  exact hc.2 b hb

/-- What `builderPool.Get()` leaves behind when the pool is clean: a clean pool,
without the object handed out, which is allocated. -/
theorem Heap.poolGet_clean (choice : Option Nat) (h : Heap) (hc : h.PoolClean) :
    (h.poolGet choice).2.PoolClean ∧
    (h.poolGet choice).1 ∉ (h.poolGet choice).2.pool ∧
    (h.poolGet choice).1 < (h.poolGet choice).2.next ∧
    h.next ≤ (h.poolGet choice).2.next ∧
    ∀ x ∈ (h.poolGet choice).2.pool, x ∈ h.pool := by
  have halloc : h.alloc.2.PoolClean ∧ h.alloc.1 ∉ h.alloc.2.pool ∧
      h.alloc.1 < h.alloc.2.next ∧ h.next ≤ h.alloc.2.next ∧
      ∀ x ∈ h.alloc.2.pool, x ∈ h.pool := by
    refine ⟨⟨hc.1, fun b hb => ?_⟩, fun hb => ?_, Nat.lt_succ_self _, Nat.le_succ _,
      fun x hx => hx⟩
    · have hb1 := hc.2 b hb
      have hne : b ≠ h.next := Nat.ne_of_lt hb1.1
      refine ⟨Nat.lt_succ_of_lt hb1.1, ?_⟩
      simp only [Heap.alloc, Heap.contents, Function.update_noteq hne]
      exact hb1.2
    · exact absurd (hc.2 _ hb).1 (Nat.lt_irrefl _)
  cases choice with
  | none => exact halloc
  | some i =>
    cases hi : h.pool[i]? with
    | none =>
      have : h.poolGet (some i) = h.alloc := by simp [Heap.poolGet, hi]
      rw [this]
      exact halloc
    | some b =>
      have heq : h.poolGet (some i) = (b, { h with pool := h.pool.eraseIdx i }) := by
        simp [Heap.poolGet, hi]
      rw [heq]
      have hlt : i < h.pool.length := (List.getElem?_eq_some_iff.1 hi).1
      have hb : h.pool[i] = b := (List.getElem?_eq_some_iff.1 hi).2
      have herase : h.pool.eraseIdx i = h.pool.erase b := by
        rw [← hb, hc.1.erase_getElem i hlt]
      have hbmem : b ∈ h.pool := List.getElem?_mem hi
      refine ⟨⟨?_, fun x hx => ?_⟩, ?_, (hc.2 b hbmem).1, Nat.le_refl _, fun x hx => ?_⟩
      · show (h.pool.eraseIdx i).Nodup
        rw [herase]
        exact hc.1.erase b
      · have hx1 : x ∈ h.pool.eraseIdx i := hx
        rw [herase] at hx1
        exact hc.2 x (List.mem_of_mem_erase hx1)
      · show b ∉ h.pool.eraseIdx i
        rw [herase]
        exact hc.1.not_mem_erase
      · have hx1 : x ∈ h.pool.eraseIdx i := hx
        rw [herase] at hx1
        exact List.mem_of_mem_erase hx1

/-- What `New` returns when the pool is clean: an empty builder on an object that
is allocated and no longer in the pool (one the pool held, or a new one), every
other object being left as it is and the pool staying clean. -/
theorem New_clean (choice : Option Nat) (h : Heap) (hc : h.PoolClean) :
    (New choice h).2.PoolClean ∧
    (New choice h).1.builder ∉ (New choice h).2.pool ∧
    (New choice h).1.builder < (New choice h).2.next ∧
    ((New choice h).1.builder ∈ h.pool ∨ (New choice h).1.builder = h.next) ∧
    (New choice h).1.Build (New choice h).2 = "" ∧
    ∀ x, x ≠ (New choice h).1.builder → (New choice h).2.contents x = h.contents x := by
  obtain ⟨hmem, hempty, hframe⟩ := Heap.poolGet_spec choice h (fun b hb => (hc.2 b hb).2)
  obtain ⟨h1, h2, h3, -, -⟩ := Heap.poolGet_clean choice h hc
  exact ⟨h1, h2, h3, hmem, hempty, hframe⟩

/-- A builder `New` returns is a new builder: its address is the next unused one,
so it is none of the builders made before. -/
theorem New_addr (choice : Option Nat) (h : Heap) :
    (New choice h).1.addr = h.builders ∧ (New choice h).2.builders = h.builders + 1 := by
  have hget : (h.poolGet choice).2.builders = h.builders := by
    cases choice with
    | none => rfl
    | some i =>
      cases hi : h.pool[i]? with
      | none => simp [Heap.poolGet, hi, Heap.alloc]
      | some b => simp [Heap.poolGet, hi]
  exact ⟨hget, congrArg (· + 1) hget⟩

set_option maxRecDepth 100000 in
/-- With a clean pool, `patterns.IPv4` builds the pattern it is meant to build,
whatever the pool hands out. -/
theorem IPv4_pattern (c1 c2 : Option Nat) (h : Heap) (hc : h.PoolClean) :
    (patterns.IPv4 c1 c2 h).1.Build (patterns.IPv4 c1 c2 h).2 = ipv4Pattern := by
  obtain ⟨hc1, ho1, ho2, -, ho4, -⟩ := New_clean c1 h hc
  obtain ⟨o, hoeq⟩ : ∃ o, (New c1 h).1 = o := ⟨_, rfl⟩
  obtain ⟨h1, h1eq⟩ : ∃ h1, (New c1 h).2 = h1 := ⟨_, rfl⟩
  rw [h1eq] at hc1
  rw [hoeq, h1eq] at ho1 ho2 ho4
  have hraw : o.Build ((Emitter.Raw octetPattern).apply o h1).2 = octetPattern := by
    rw [Emitter.apply_text _ _ _ (fun g hg => by cases hg), ho4]
    rfl
  have hc2 := Emitter.apply_clean (Emitter.Raw octetPattern) o h1 hc1 ho1
  obtain ⟨hpool, hnext⟩ := Emitter.apply_pool (Emitter.Raw octetPattern) o h1
  obtain ⟨h2, h2eq⟩ : ∃ h2, ((Emitter.Raw octetPattern).apply o h1).2 = h2 := ⟨_, rfl⟩
  rw [h2eq] at hraw hc2 hpool hnext
  obtain ⟨-, -, -, hr3, hr4, hr5⟩ := New_clean c2 h2 hc2
  obtain ⟨r, hreq⟩ : ∃ r, (New c2 h2).1 = r := ⟨_, rfl⟩
  obtain ⟨h3, h3eq⟩ : ∃ h3, (New c2 h2).2 = h3 := ⟨_, rfl⟩
  rw [hreq, h3eq] at hr4 hr5
  rw [hreq] at hr3
  have hne : o.builder ≠ r.builder := by
    intro heq
    rcases hr3 with hr3 | hr3
    · rw [hpool, ← heq] at hr3
      exact ho1 hr3
    · rw [hnext, ← heq] at hr3
      exact absurd ho2 (hr3 ▸ Nat.lt_irrefl _)
  have hoct : o.Build h3 = octetPattern := by
    have := hr5 o.builder hne
    rw [RegexBuilderPtr.Build, this]
    exact hraw
  have hdef : patterns.IPv4 c1 c2 h = Emitter.chain (ipv4Calls o) r h3 := by
    rw [← hreq, ← h3eq, ← h2eq, ← hoeq, ← h1eq]
    rfl
  have hsub : ∀ e ∈ ipv4Calls o, ∀ g, e.sub = some g → g.builder ≠ r.builder := by
    intro e he g hg
    simp only [ipv4Calls, List.mem_cons, List.mem_singleton, List.not_mem_nil, or_false] at he
    rcases he with rfl | rfl | rfl | rfl | rfl | rfl | rfl | rfl | rfl <;>
      first
      | (cases hg; done)
      | (cases hg; exact hne)
  obtain ⟨hfst, htext, -⟩ := Emitter.chain_text (ipv4Calls o) r h3 hsub
  rw [hdef, hfst, htext, hr4]
  simp only [ipv4Calls, Emitter.texts, Emitter.text, hoct]
  decide

set_option maxRecDepth 100000 in
/-- The tests of `TestIPv4` on the model: the three addresses are matched, the
three other texts are not; a leading zero and a trailing newline are not
accepted either. -/
theorem IPv4_tests :
    ipv4Compiled.toOption.map (fun re =>
      [re.IsMatch "192.168.0.1", re.IsMatch "0.0.0.0", re.IsMatch "255.255.255.255",
        re.IsMatch "256.0.0.1", re.IsMatch "192.168.1", re.IsMatch "abc.def.ghi.jkl",
        re.IsMatch "01.2.3.4", re.IsMatch "1.2.3.4\n"])
      = some [true, true, true, false, false, false, false, false] := by
  decide

/-- With the pool in its clean state, `patterns.IPv4().MustCompile()` returns a
pattern, whatever the pool hands out, and the pattern matches a string exactly
when the string is four decimal numbers from 0 to 255 without leading zeros,
separated by single dots, with nothing before or after. -/
theorem IPv4_matches_dotted_quads (c1 c2 : Option Nat) (h : Heap) (hclean : h.PoolClean)
    (st : State Re) :
    ∃ re : Regexp Re,
      ((patterns.IPv4 c1 c2 h).1.MustCompile syntaxParse (patterns.IPv4 c1 c2 h).2 st).1
        = .ok re ∧
      ∀ s : String, re.IsMatch s = true ↔ IsDottedQuad s := by
  have hpat := IPv4_pattern c1 c2 h hclean
  rw [RegexBuilderPtr.Build] at hpat
  refine ⟨{ addr := st.nextAddr, re := { expr := ipv4Pattern, prog := ipv4Re } }, ?_,
    fun s => ipv4Re_IsMatch s⟩
  simp only [RegexBuilderPtr.MustCompile, RegexBuilderPtr.Compile, hpat, regexpCompile,
    syntaxParse_ipv4Pattern]

/-- At program start the pool is clean, and `patterns.IPv4().MustCompile()` matches
the dotted quads and nothing else. -/
theorem IPv4_matches_dotted_quads_witness :
    Heap.init.PoolClean ∧
    ∃ re : Regexp Re, ipv4Compiled = .ok re ∧ ∀ s : String, re.IsMatch s = true ↔ IsDottedQuad s :=
  ⟨⟨List.nodup_nil, fun _ hb => absurd hb (List.not_mem_nil _)⟩,
    IPv4_matches_dotted_quads none none Heap.init
      ⟨List.nodup_nil, fun _ hb => absurd hb (List.not_mem_nil _)⟩ State.init⟩

set_option maxRecDepth 100000 in
/-- C24 (the code at the failing inputs): `patterns.URL()` builds the pattern
`^http?s?://...`, in which each `Maybe` makes one character optional (the `p`
and the `s`), and the compiled pattern matches `htt://example.com` and
`htts://example.com`, which begin with neither `http://` nor `https://`. The
texts of `TestURL` are matched and rejected as the test expects. -/
theorem URL_accepts_truncated_scheme :
    (patterns.URL none none none none none none Heap.init).1.Build
      (patterns.URL none none none none none none Heap.init).2 = urlPattern ∧
    urlCompiled.toOption.map (fun re =>
      [re.IsMatch "htt://example.com", re.IsMatch "htts://example.com",
        re.IsMatch "http://example.com", re.IsMatch "https://example.com/path?query=1",
        re.IsMatch "http://www.example.com:8080", re.IsMatch "ftp://example.com",
        re.IsMatch "example.com"])
      = some [true, true, true, true, true, false, false] := by
  decide

/-- C26 (the code at the failing input): after `r := New().Raw("a")`,
`r.Compile()` and `r.Raw("x")` the pool holds the object of `r` with the text
`x` in it, and a `New()` that is handed this object returns a builder whose
`Build()` is `x`. -/
theorem pool_holds_written_builder :
    heapWrittenAfterCompile.pool = [0] ∧
    heapWrittenAfterCompile.contents 0 = "x" ∧
    (New (some 0) heapWrittenAfterCompile).1.Build (New (some 0) heapWrittenAfterCompile).2
      = "x" := by
  decide

/-- A method call returns its receiver. -/
theorem Method.apply_fst (m : Method) (k : Option Nat) (r : RegexBuilderPtr) (h : Heap) :
    (m.apply k r h).1 = r := by
  cases m with
  | emit e => cases e <;> rfl
  | Or groups =>
    simp only [Method.apply, RegexBuilderPtr.Or]
    split <;> rfl

/-- The pattern a method call is meant to leave depends on the heap through the
patterns of the argument builders only. -/
theorem Method.result_congr (m : Method) (s : String) (h h1 : Heap)
    (hsub : ∀ g ∈ m.subs, g.Build h1 = g.Build h) : m.result s h1 = m.result s h := by
  cases m with
  | emit e =>
    simp only [Method.result]
    rw [Emitter.text_congr e h h1 (fun g hg => hsub g (by simp [Method.subs, hg]))]
  | Or groups =>
    simp only [Method.result]
    have hmap : groups.map (fun g => g.Build h1) = groups.map (fun g => g.Build h) :=
      List.map_congr_left (fun g hg => hsub g hg)
    rw [hmap]

theorem Method.results_congr (ms : List Method) (h h1 : Heap) :
    ∀ s : String, (∀ m ∈ ms, ∀ g ∈ m.subs, g.Build h1 = g.Build h) →
      Method.results ms s h1 = Method.results ms s h := by
  induction ms with
  | nil => intro s _; rfl
  | cons m ms ih =>
    intro s hsub
    simp only [Method.results]
    rw [Method.result_congr m s h h1 (hsub m (List.mem_cons_self _ _)),
      ih _ (fun m1 hm1 => hsub m1 (List.mem_cons_of_mem _ hm1))]

/-- One call of a chain: it returns the receiver with the pattern it is meant to
leave, keeps the argument builders of the chain as they are, and keeps the
condition on the pool for the rest of the chain. -/
theorem Method.apply_spec (m : Method) (ms : List Method) (k : Option Nat)
    (r : RegexBuilderPtr) (h : Heap)
    (hsub : ∀ m1 ∈ m :: ms, ∀ g ∈ m1.subs, g.builder ≠ r.builder)
    (hready : Method.PoolReady (m :: ms) r h) :
    r.Build (m.apply k r h).2 = m.result (r.Build h) h ∧
    (∀ m1 ∈ m :: ms, ∀ g ∈ m1.subs, g.Build (m.apply k r h).2 = g.Build h) ∧
    Method.PoolReady ms r (m.apply k r h).2 := by
  have hlift : (∃ m1 ∈ ms, m1.usesPool = true) → ∃ m1 ∈ m :: ms, m1.usesPool = true :=
    fun ⟨m1, hm1, hu⟩ => ⟨m1, List.mem_cons_of_mem _ hm1, hu⟩
  cases m with
  | emit e =>
    obtain ⟨hpool, hnext⟩ := Emitter.apply_pool e r h
    refine ⟨?_, fun m1 hm1 g hg => ?_, fun hex => ?_⟩
    · exact Emitter.apply_text e r h
        (fun g hg => hsub _ (List.mem_cons_self _ _) g (by simp [Method.subs, hg]))
    · exact Emitter.apply_frame e r h g.builder (hsub m1 hm1 g hg)
    · obtain ⟨hc, hr, hgs⟩ := hready (hlift hex)
      refine ⟨Emitter.apply_clean e r h hc hr.2, ?_, fun m1 hm1 g hg => ?_⟩
      · show r.builder < (e.apply r h).2.next ∧ r.builder ∉ (e.apply r h).2.pool
        rw [hpool, hnext]
        exact hr
      · show g.builder < (e.apply r h).2.next ∧ g.builder ∉ (e.apply r h).2.pool
        rw [hpool, hnext]
        exact hgs m1 (List.mem_cons_of_mem _ hm1) g hg
  | Or groups =>
    by_cases hnil : groups = []
    · subst hnil
      have happ : (Method.Or []).apply k r h = (r, h) := by
        simp [Method.apply, RegexBuilderPtr.Or]
      rw [happ]
      exact ⟨by simp [Method.result], fun _ _ _ _ => rfl, fun hex => by
        obtain ⟨hc, hr, hgs⟩ := hready (hlift hex)
        exact ⟨hc, hr, fun m1 hm1 g hg => hgs m1 (List.mem_cons_of_mem _ hm1) g hg⟩⟩
    · have huse : ∃ m1 ∈ Method.Or groups :: ms, m1.usesPool = true :=
        ⟨_, List.mem_cons_self _ _, by
          cases groups with
          | nil => exact absurd rfl hnil
          | cons _ _ => rfl⟩
      obtain ⟨hc, hr, hgs⟩ := hready huse
      obtain ⟨-, hpat, hframe, hnbempty, hpool, hnext, hrnb, -⟩ :=
        RegexBuilderPtr.Or_spec k r groups h hnil (fun b hb => (hc.2 b hb).2) hr
          (fun g hg => hgs _ (List.mem_cons_self _ _) g hg)
      obtain ⟨hnbmem, -, -⟩ := Heap.poolGet_spec k h (fun b hb => (hc.2 b hb).2)
      obtain ⟨hc1, hnbpool, hnblt, hle, hsubset⟩ := Heap.poolGet_clean k h hc
      have hlen : ¬ groups.length = 0 := by
        cases groups with
        | nil => exact absurd rfl hnil
        | cons _ _ => simp
      have hout : ∀ x, x < h.next → x ∉ h.pool → x ≠ (h.poolGet k).1 := by
        intro x hx1 hx2 heq
        rcases hnbmem with hin | hnew
        · exact hx2 (heq ▸ hin)
        · omega
      refine ⟨?_, fun m1 hm1 g hg => ?_, fun _ => ⟨⟨?_, fun b hb => ?_⟩, ⟨?_, ?_⟩,
        fun m1 hm1 g hg => ⟨?_, ?_⟩⟩⟩
      · show r.Build (r.Or k groups h).2 = _
        rw [hpat]
        simp only [Method.result, if_neg hlen]
      · have hg1 := hgs m1 hm1 g hg
        exact hframe g.builder (hsub m1 hm1 g hg) (hout _ hg1.1 hg1.2)
      · show (r.Or k groups h).2.pool.Nodup
        rw [hpool]
        exact List.nodup_cons.2 ⟨hnbpool, hc1.1⟩
      · have hb1 : b ∈ (h.poolGet k).1 :: (h.poolGet k).2.pool := hpool ▸ hb
        show b < (r.Or k groups h).2.next ∧ (r.Or k groups h).2.contents b = ""
        rw [hnext]
        rcases List.mem_cons.1 hb1 with hbn | hbp
        · rw [hbn]
          exact ⟨hnblt, hnbempty⟩
        · have hbh : b ∈ h.pool := hsubset b hbp
          have hbr : b ≠ r.builder := fun heq => hr.2 (heq ▸ hbh)
          have hbnb : b ≠ (h.poolGet k).1 := fun heq => hnbpool (heq ▸ hbp)
          exact ⟨(hc1.2 b hbp).1, (hframe b hbr hbnb).trans (hc.2 b hbh).2⟩
      · show r.builder < (r.Or k groups h).2.next
        rw [hnext]
        exact Nat.lt_of_lt_of_le hr.1 hle
      · show r.builder ∉ (r.Or k groups h).2.pool
        rw [hpool]
        intro hmem
        rcases List.mem_cons.1 hmem with heq | hp
        · exact hrnb heq
        · exact hr.2 (hsubset _ hp)
      · have hg1 := hgs m1 (List.mem_cons_of_mem _ hm1) g hg
        show g.builder < (r.Or k groups h).2.next
        rw [hnext]
        exact Nat.lt_of_lt_of_le hg1.1 hle
      · have hg1 := hgs m1 (List.mem_cons_of_mem _ hm1) g hg
        show g.builder ∉ (r.Or k groups h).2.pool
        rw [hpool]
        intro hmem
        rcases List.mem_cons.1 hmem with heq | hp
        · exact hout _ hg1.1 hg1.2 heq
        · exact hg1.2 (hsubset _ hp)

/-- A chain of method calls, `Or` included, on a receiver that is not among the
arguments' objects returns the receiver with the pattern the calls are meant to
leave, whatever the pool hands out. -/
theorem Method.chain_results (ms : List Method) (r : RegexBuilderPtr) :
    ∀ (ks : List (Option Nat)) (h : Heap),
      (∀ m ∈ ms, ∀ g ∈ m.subs, g.builder ≠ r.builder) → Method.PoolReady ms r h →
      (Method.chain ms ks r h).1 = r ∧
      r.Build (Method.chain ms ks r h).2 = Method.results ms (r.Build h) h := by
  induction ms with
  | nil =>
    intro ks h _ _
    exact ⟨rfl, rfl⟩
  | cons m ms ih =>
    intro ks h hsub hready
    obtain ⟨hbuild, hframe, hready1⟩ := Method.apply_spec m ms ks.head?.join r h hsub hready
    have hstep : Method.chain (m :: ms) ks r h
        = Method.chain ms ks.tail r (m.apply ks.head?.join r h).2 := by
      simp only [Method.chain]
      rw [Method.apply_fst]
    obtain ⟨ih1, ih2⟩ := ih ks.tail (m.apply ks.head?.join r h).2
      (fun m1 hm1 => hsub m1 (List.mem_cons_of_mem _ hm1)) hready1
    rw [hstep]
    refine ⟨ih1, ?_⟩
    rw [ih2, hbuild, Method.results_congr ms h _ _
      (fun m1 hm1 g hg => hframe m1 (List.mem_cons_of_mem _ hm1) g hg)]
    rfl

/-- The claim C23 as stated fails for a negative capacity and for one that is too
large: `NewWithCapacity(-1)` and `NewWithCapacity(math.MaxInt64)` return no
builder, `strings.Builder.Grow` panicking on the negative count and on the
allocation of the buffer (here with as much memory as the platform can
address). -/
theorem NewWithCapacity_panics :
    (NewWithCapacity maxAlloc (-1) Heap.init).1
      = .error "strings.Builder.Grow: negative count" ∧
    (NewWithCapacity maxAlloc (2 ^ 63 - 1) Heap.init).1
      = .error "makeslice: len out of range" := by
  constructor <;> rfl

/-- Why the chains of the amended C23 take no argument on the object of the builder
they are compared with: `Group(r)` leaves `()` in a builder `NewWithCapacity`
returned and `(()` in the empty builder `r` itself. -/
theorem Group_of_receiver :
    (RegexBuilderPtr.mk 0 0).Build heapEmptyCat = "" ∧
    (NewWithCapacity (2 ^ 30) 100 heapEmptyCat).1 = .ok ⟨2, 2⟩ ∧
    (RegexBuilderPtr.mk 2 2).Build
      ((RegexBuilderPtr.mk 2 2).Group ⟨0, 0⟩ (NewWithCapacity (2 ^ 30) 100 heapEmptyCat).2).2
      = "()" ∧
    (RegexBuilderPtr.mk 0 0).Build ((RegexBuilderPtr.mk 0 0).Group ⟨0, 0⟩ heapEmptyCat).2
      = "(()" := by
  refine ⟨by decide, rfl, by decide, by decide⟩

/-- C23, amended. `NewWithCapacity` only pre-allocates. For a negative capacity, for
one above `maxAlloc` and for one the allocator cannot provide, the call ends in
`strings.Builder.Grow` and returns no builder. For every other capacity (0, or
a positive one within `maxAlloc` and the available memory) it returns a new
builder, on a new `strings.Builder`, whose pattern is empty; any chain of method
calls on it (emitters and `Or`, with argument builders that existed before and
are not on the object of `r`) leaves the pattern the calls are meant to build
from the empty pattern, the pattern the chain leaves in any other empty builder
`r`, whatever the capacity and whatever the pool hands out; where the chain has
an `Or`, the pool is clean and holds none of the objects involved. -/
theorem NewWithCapacity_preallocates (avail : Nat) (capacity : Int) (h : Heap) :
    (capacity < 0 →
      (NewWithCapacity avail capacity h).1 = .error "strings.Builder.Grow: negative count") ∧
    ((maxAlloc : Int) < capacity →
      (NewWithCapacity avail capacity h).1 = .error "makeslice: len out of range") ∧
    (0 < capacity → capacity ≤ (maxAlloc : Int) → (avail : Int) < capacity →
      (NewWithCapacity avail capacity h).1 = .error "runtime: out of memory") ∧
    (capacity = 0 ∨ (0 < capacity ∧ capacity ≤ (maxAlloc : Int) ∧ capacity ≤ (avail : Int)) →
      ∃ b h1, NewWithCapacity avail capacity h = (.ok b, h1) ∧
        b.addr = h.builders ∧ b.builder = h.next ∧ b.Build h1 = "" ∧
        ∀ (ms : List Method) (ks ks1 : List (Option Nat)) (r : RegexBuilderPtr),
          r.Build h = "" →
          (∀ m ∈ ms, ∀ g ∈ m.subs, g.builder < h.next ∧ g.builder ≠ r.builder) →
          Method.PoolReady ms r h →
          b.Build (Method.chain ms ks b h1).2 = Method.results ms "" h ∧
          b.Build (Method.chain ms ks b h1).2 = r.Build (Method.chain ms ks1 r h).2) := by
  have hmax : (0 : Int) ≤ (maxAlloc : Int) := Int.ofNat_nonneg _
  refine ⟨fun hneg => ?_, fun hbig => ?_, fun hpos hle hav => ?_, fun hfit => ?_⟩
  · simp [NewWithCapacity, Heap.Grow, hneg]
  · have h1 : ¬ capacity < 0 := by omega
    have h2 : ¬ capacity = 0 := by omega
    simp [NewWithCapacity, Heap.Grow, h1, h2, hbig]
  · have h1 : ¬ capacity < 0 := by omega
    have h2 : ¬ capacity = 0 := by omega
    have h3 : ¬ (maxAlloc : Int) < capacity := by omega
    simp [NewWithCapacity, Heap.Grow, h1, h2, h3, hav]
  · have hgrow : h.alloc.2.Grow avail h.alloc.1 capacity = .ok h.alloc.2 := by
      rcases hfit with h0 | ⟨hpos, hle, hav⟩
      · simp [Heap.Grow, h0]
      · have h1 : ¬ capacity < 0 := by omega
        have h2 : ¬ capacity = 0 := by omega
        have h3 : ¬ (maxAlloc : Int) < capacity := by omega
        have h4 : ¬ (avail : Int) < capacity := by omega
        simp [Heap.Grow, h1, h2, h3, h4]
    obtain ⟨b, hb⟩ : ∃ b : RegexBuilderPtr, b = ⟨h.builders, h.next⟩ := ⟨_, rfl⟩
    obtain ⟨h1, hh1⟩ : ∃ h1 : Heap, h1 = (h.alloc.2.newBuilder h.alloc.1).2 := ⟨_, rfl⟩
    have hpool1 : h1.pool = h.pool := by rw [hh1]; rfl
    have hnext1 : h1.next = h.next + 1 := by rw [hh1]; rfl
    have hcont1 : ∀ x, x ≠ h.next → h1.contents x = h.contents x := by
      intro x hx
      rw [hh1]
      simp [Heap.newBuilder, Heap.alloc, Heap.contents, Function.update_noteq hx]
    have hempty : b.Build h1 = "" := by
      rw [hb, hh1]
      simp [RegexBuilderPtr.Build, Heap.newBuilder, Heap.alloc, Heap.contents]
    refine ⟨b, h1, ?_, by rw [hb], by rw [hb], hempty, ?_⟩
    · simp only [NewWithCapacity, hgrow]
      rw [hb, hh1]
      rfl
    intro ms ks ks1 r hr hsubs hready
    have hbsub : ∀ m ∈ ms, ∀ g ∈ m.subs, g.builder ≠ b.builder := by
      intro m hm g hg
      have := (hsubs m hm g hg).1
      rw [hb]
      show g.builder ≠ h.next
      omega
    have hbready : Method.PoolReady ms b h1 := by
      intro hex
      obtain ⟨hc, -, hgs⟩ := hready hex
      refine ⟨⟨hpool1 ▸ hc.1, fun x hx => ?_⟩, ⟨?_, ?_⟩, fun m hm g hg => ⟨?_, ?_⟩⟩
      · rw [hpool1] at hx
        have hx1 := hc.2 x hx
        rw [hnext1, hcont1 x (Nat.ne_of_lt hx1.1)]
        exact ⟨Nat.lt_succ_of_lt hx1.1, hx1.2⟩
      · rw [hb, hnext1]
        exact Nat.lt_succ_self _
      · rw [hb, hpool1]
        intro hmem
        exact absurd (hc.2 _ hmem).1 (Nat.lt_irrefl _)
      · rw [hnext1]
        exact Nat.lt_succ_of_lt (hgs m hm g hg).1
      · rw [hpool1]
        exact (hgs m hm g hg).2
    obtain ⟨-, hbres⟩ := Method.chain_results ms b ks h1 hbsub hbready
    obtain ⟨-, hrres⟩ := Method.chain_results ms r ks1 h
      (fun m hm g hg => (hsubs m hm g hg).2) hready
    have hcongr : Method.results ms "" h1 = Method.results ms "" h :=
      Method.results_congr ms h h1 ""
        (fun m hm g hg => hcont1 g.builder (Nat.ne_of_lt (hsubs m hm g hg).1))
    rw [hbres, hrres, hempty, hr, hcongr]
    exact ⟨rfl, rfl⟩

/-- Witness of C23, amended: `NewWithCapacity(100).Literal("test")` of
`TestNewWithCapacity`, followed by an `Or`, next to the same calls on the empty
builder `New()` made before. -/
theorem NewWithCapacity_preallocates_witness :
    (RegexBuilderPtr.mk 0 0).Build heapEmptyCat = "" ∧
    (RegexBuilderPtr.mk 1 1).Build heapEmptyCat = "cat" ∧
    ∃ b h1, NewWithCapacity (2 ^ 30) 100 heapEmptyCat = (.ok b, h1) ∧
      b.Build h1 = "" ∧
      b.Build (Method.chain [.emit (.Literal "test")] [] b h1).2 = "test" ∧
      b.Build (Method.chain [.emit (.Literal "test"), .Or [⟨1, 1⟩]] [] b h1).2
        = "(?:test|cat)" ∧
      b.Build (Method.chain [.emit (.Literal "test"), .Or [⟨1, 1⟩]] [] b h1).2
        = (RegexBuilderPtr.mk 0 0).Build
            (Method.chain [.emit (.Literal "test"), .Or [⟨1, 1⟩]] [] ⟨0, 0⟩ heapEmptyCat).2 := by
  obtain ⟨b, h1, heq, -, -, hempty, hchain⟩ :=
    (NewWithCapacity_preallocates (2 ^ 30) 100 heapEmptyCat).2.2.2
      (Or.inr ⟨by decide, by decide, by decide⟩)
  obtain ⟨htest, -⟩ := hchain [.emit (.Literal "test")] [] [] ⟨0, 0⟩
    (by decide) (by decide)
    (fun _ => ⟨⟨by decide, by decide⟩, by decide, by decide⟩)
  obtain ⟨hres, hsame⟩ := hchain [.emit (.Literal "test"), .Or [⟨1, 1⟩]] [] [] ⟨0, 0⟩
    (by decide) (by decide)
    (fun _ => ⟨⟨by decide, by decide⟩, by decide, by decide⟩)
  exact ⟨by decide, by decide, b, h1, heq, hempty, htest, hres, hsame⟩

/-- C22 (the code at the failing input): after `r := New()`, `r.Compile()`,
`g := New()` and `g.Raw("p")`, the pool having handed `g` the object `r` still
holds, `r` and `g` are distinct builders with the pattern `p`, and `r.Group(g)`
leaves both with `p(p()`: not `p(p)` in `r`, and not `p` in `g`. -/
theorem Group_on_shared_buffer :
    firstBuilder.addr ≠ secondBuilder.addr ∧
    firstBuilder.builder = secondBuilder.builder ∧
    firstBuilder.Build heapShared = "p" ∧
    secondBuilder.Build heapShared = "p" ∧
    firstBuilder.Build (firstBuilder.Group secondBuilder heapShared).2 = "p(p()" ∧
    secondBuilder.Build (firstBuilder.Group secondBuilder heapShared).2 = "p(p()" := by
  decide

set_option maxRecDepth 100000 in
/-- C25 (the code at the failing input): after `r := New().Raw("a")`, `r.Compile()`
and `r.Raw("x")`, the pool handing the first `New` of `patterns.IPv4` the
object it holds, `patterns.IPv4()` builds a pattern with an `x` before each
octet, and the compiled pattern matches neither `0.0.0.0` nor
`255.255.255.255`, but `x0.x0.x0.x0`. -/
theorem IPv4_after_write :
    (patterns.IPv4 (some 0) none heapWrittenAfterCompile).1.Build
      (patterns.IPv4 (some 0) none heapWrittenAfterCompile).2
      = "^(x" ++ octetPattern ++ ")\\.(x" ++ octetPattern ++ ")\\.(x" ++ octetPattern
          ++ ")\\.(x" ++ octetPattern ++ ")$" ∧
    ipv4CompiledAfterWrite.toOption.map (fun re =>
      [re.IsMatch "0.0.0.0", re.IsMatch "255.255.255.255", re.IsMatch "x0.x0.x0.x0"])
      = some [false, false, true] := by
  decide

end tinyrebuilder
